import Mathlib

/-!
Verification development for a suffix-array construction engine for DNA data
(`src/suffix_array.rs`).

The source is shallowly embedded as follows.

* Machine integers (`u8`, `u32`, `usize`) are `Nat`; wrapping/truncating
  operations carry an explicit `% 2^w`.
* A 256-bit SIMD vector (`__m256i`) is a `Nat` below `2^256`, viewed
  little-endian: byte lane `i` is `(v >>> (8*i)) % 256`.  The AVX2 intrinsics
  used by the source (`_mm256_cmpeq_epi8`, `_mm256_max_epu8`,
  `_mm256_movemask_epi8`, the 64-bit lane shifts and the lane permutation)
  are modelled per lane below.
* The byte buffer of `RevPacked` is a single `Nat`, little-endian (bit `b` of
  byte `i` of the buffer is bit `8*i + b` of the `Nat`); an unaligned `w`-byte
  load at byte offset `i` is `(data >>> (8*i)) % 2^(8*w)`.
* `CompactVec` is not part of the sources under `src/`.  Modelled from the
  spec: a fixed-width integer vector with exact `get`/`set` (the element width
  `BYTES` is assumed wide enough for every stored value, as the spec demands);
  it is rendered as a function `Nat → Nat` together with a length, updated
  functionally.
* The slice sorts of the Rust standard library are modelled by their
  contracts.  `sort_by` / `par_sort_by` are stable sorts, whose output is
  uniquely determined by the comparator, and are rendered as a stable sort
  (`List.insertionSort`).
  `sort_unstable_by` guarantees only a sorted permutation; the construction is
  therefore parameterised by an arbitrary sorting function `usort`, and the
  theorems quantify over every `usort` satisfying that contract
  (`SortContract`).
* The `rayon` parallel phases are sequentialised in thread order; every
  parallel phase of the source writes disjoint locations, so this is the
  unique observable outcome.
-/

set_option maxHeartbeats 1600000
set_option maxRecDepth 16000

namespace SACA

/-- Pointwise update of a `Nat`-indexed store. -/
def upd (f : Nat → Nat) (i v : Nat) : Nat → Nat :=
  fun j => if j = i then v else f j

/-- Pointwise update of a two-dimensional store (thread-indexed counts). -/
def upd2 (f : Nat → Nat → Nat) (t v x : Nat) : Nat → Nat → Nat :=
  fun t' v' => if t' = t ∧ v' = v then x else f t' v'

/-! ### The symbol lookup table

Source: `static LUT: [u8; 128]`, built from an all-zero array by setting the
entries of the eight ACGT letters. -/

/-- The 128-entry encoding table of the source, built exactly as the
source builds it. -/
def LUT : List Nat :=
  ((((((((List.replicate 128 0).set 65 0).set 67 1).set 71 2).set 84 3).set
    97 0).set 99 1).set 103 2).set 116 3

/-- The in-bounds table lookup; `LUT.get? b` is `none` exactly when the raw
pointer read `*LUT.as_ptr().add(b)` of the source would be out of bounds. -/
def lutLookup (b : Nat) : Option Nat := LUT.get? b

/-- Total rendering of the table read used while packing.  For `b < 128` this
is the table entry; for `b ≥ 128` the source reads out of bounds (settled
under the safety claim) and the value is modelled as `0`. -/
def lutCode (b : Nat) : Nat := LUT.getD b 0

/-! ### RevPacked -/

/-- The reversed 2-bit packing of the input.  `data` is the byte buffer as a
little-endian `Nat`, `len` is `padded_len = bytes.len() + 4`. -/
structure RevPacked where
  data : Nat
  len : Nat

/-- `RevPacked::new`: for input position `i`, OR the 2-bit code into bit
offset `2 * (padded_len - 1 - i)` (byte `j/4`, shift `(j % 4) * 2` with
`j = padded_len - 1 - i`, hence absolute bit `2 * j`). -/
def RevPacked.new (bytes : List Nat) : RevPacked :=
  let paddedLen := bytes.length + 4
  { data :=
      (List.range bytes.length).foldl
        (fun d i => d ||| (lutCode (bytes.getD i 0) <<< (2 * (paddedLen - 1 - i)))) 0
    len := paddedLen }

/-- 64-bit lane `l` of a 256-bit vector. -/
def lane (v l : Nat) : Nat := (v >>> (64 * l)) % 2 ^ 64

/-- Reassemble a 256-bit vector from four 64-bit lanes. -/
def ofLanes (a b c d : Nat) : Nat :=
  (a % 2 ^ 64) ||| ((b % 2 ^ 64) <<< 64) ||| ((c % 2 ^ 64) <<< 128) |||
    ((d % 2 ^ 64) <<< 192)

/-- `_mm256_sllv_epi64` with all four shift counts equal to `s`. -/
def sllv64 (v s : Nat) : Nat :=
  ofLanes ((lane v 0) <<< s) ((lane v 1) <<< s) ((lane v 2) <<< s) ((lane v 3) <<< s)

/-- `_mm256_srlv_epi64` with all four shift counts equal to `s` (a count of 64
or more yields a zero lane, as the intrinsic does). -/
def srlv64 (v s : Nat) : Nat :=
  ofLanes ((lane v 0) >>> s) ((lane v 1) >>> s) ((lane v 2) >>> s) ((lane v 3) >>> s)

/-- `_mm256_permute4x64_epi64` with immediate `0b10_01_00_11`: result lanes
are source lanes `3, 0, 1, 2`. -/
def permuteHiLanes (v : Nat) : Nat :=
  ofLanes (lane v 3) (lane v 0) (lane v 1) (lane v 2)

/-- The `_mm256_set_epi8` mask of `load_124`: bytes 1..31 are `0xFF`, byte 0
is zero. -/
def loMask : Nat := (2 ^ 248 - 1) <<< 8

/-- `RevPacked::load_124`. -/
def RevPacked.load124 (p : RevPacked) (idx : Nat) : Nat :=
  let idx' := p.len - idx - 128
  let i := (idx' + 3) / 4
  let j := (idx' + 3) % 4
  let val := (p.data >>> (8 * i)) % 2 ^ 256
  let hi := sllv64 val ((3 - j) * 2)
  let lo := srlv64 (permuteHiLanes val) ((32 - (3 - j)) * 2)
  (hi ||| lo) &&& loMask

/-- `RevPacked::load_k` (u32 arithmetic; both shifts truncate at 32 bits).
At `k = 0` the source's right shift of a `u32` by `(16 - 0) * 2 = 32`
overflows and aborts under checked arithmetic (in release builds the masked
shift leaves an un-truncated key that overruns the one-slot counts vector);
that abort is modelled at the call boundary by
`SuffixArray.newPackedChecked`, and every theorem about the sort keys
restricts to `1 ≤ k`. -/
def RevPacked.loadK (p : RevPacked) (idx k : Nat) : Nat :=
  let idx' := p.len - idx - 16
  let i := (idx' + 3) / 4
  let j := (idx' + 3) % 4
  let val := (p.data >>> (8 * i)) % 2 ^ 32
  ((val <<< ((3 - j) * 2)) % 2 ^ 32) >>> ((16 - k) * 2)

/-! ### Byte-lane intrinsics -/

/-- Byte lane `i` of a vector. -/
def byteAt (v i : Nat) : Nat := (v >>> (8 * i)) % 256

/-- 16-bit lane `i` of a vector. -/
def wordAt (v i : Nat) : Nat := (v >>> (16 * i)) % 2 ^ 16

/-- Assemble `n` byte lanes given by `g` into a vector. -/
def packBytes (g : Nat → Nat) : Nat → Nat
  | 0 => 0
  | n + 1 => packBytes g n + (g n % 256) * 2 ^ (8 * n)

/-- Assemble `n` 16-bit lanes given by `g` into a vector. -/
def packWords (g : Nat → Nat) : Nat → Nat
  | 0 => 0
  | n + 1 => packWords g n + (g n % 2 ^ 16) * 2 ^ (16 * n)

/-- Assemble `n` mask bits given by `p` into an integer. -/
def packBits (p : Nat → Bool) : Nat → Nat
  | 0 => 0
  | n + 1 => packBits p n + (if p n then 2 ^ n else 0)

/-- `_mm256_cmpeq_epi8`: byte lane is `0xFF` where the operands' bytes agree,
`0` elsewhere. -/
def cmpeq8 (a b : Nat) : Nat :=
  packBytes (fun i => if byteAt a i = byteAt b i then 255 else 0) 32

/-- `_mm256_max_epu8`. -/
def maxEpu8 (a b : Nat) : Nat :=
  packBytes (fun i => max (byteAt a i) (byteAt b i)) 32

/-- `_mm256_movemask_epi8`: bit `i` is the top bit of byte lane `i`. -/
def movemask8 (v : Nat) : Nat :=
  packBits (fun i => 128 ≤ byteAt v i) 32

/-- `_mm256_cmpeq_epi16`. -/
def cmpeq16 (a b : Nat) : Nat :=
  packWords (fun i => if wordAt a i = wordAt b i then 2 ^ 16 - 1 else 0) 16

/-- `_mm256_max_epu16`. -/
def maxEpu16 (a b : Nat) : Nat :=
  packWords (fun i => max (wordAt a i) (wordAt b i)) 16

/-- The bit length of the low 32 bits: one past the highest set bit, `0` for
`m = 0` (a structurally computable rendering). -/
def bitLen32 (m : Nat) : Nat :=
  (List.range 32).foldl (fun acc i => if m.testBit i then i + 1 else acc) 0

/-- `u32::leading_zeros`: `32` minus the bit length. -/
def leadingZeros32 (m : Nat) : Nat := 32 - bitLen32 m

/-- `u32::wrapping_neg`. -/
def wrappingNeg32 (m : Nat) : Nat := (2 ^ 32 - m % 2 ^ 32) % 2 ^ 32

/-! ### Comparators -/

/-- `cmp_pack`: locate the most significant differing byte lane of two packed
windows and compare it unsigned. -/
def cmpPack (a b : Nat) : Ordering :=
  let neqMask := movemask8 (cmpeq8 a b) ^^^ (2 ^ 32 - 1)
  if neqMask ≠ 0 then
    let msbMask := 1 <<< (31 - leadingZeros32 neqMask)
    let gtMask := movemask8 (cmpeq8 (maxEpu8 a b) a)
    if 0 < msbMask &&& gtMask then Ordering.gt else Ordering.lt
  else Ordering.eq

/-- `simd_key_packed`: the `Key<CTX>` array (`[__m256i; CTX]`, rendered as a
fixed-length tuple) of the `CTX` packed windows at `a_idx`, `a_idx + L`, …
(`L = 124`). -/
def simdKeyPacked (p : RevPacked) (CTX aIdx : Nat) : Fin CTX → Nat :=
  fun t => p.load124 (aIdx + 124 * t.val)

/-- `key_cmp_packed`: the first non-equal `cmp_pack` over the zipped key
entries (`Ordering.then` keeps the first non-`Equal` outcome). -/
def keyCmpPacked {CTX : Nat} (l r : Fin CTX → Nat) : Ordering :=
  (List.finRange CTX).foldr (fun t acc => (cmpPack (l t) (r t)).then acc)
    Ordering.eq

/-- The loop of `simd_cmp_packed`: compares `n` windows, then falls through to
`a_i.cmp(&b_i)` on the advanced indices. -/
def simdCmpGo (p : RevPacked) : Nat → Nat → Nat → Ordering
  | 0, aI, bI => compare aI bI
  | n + 1, aI, bI =>
    match cmpPack (p.load124 aI) (p.load124 bI) with
    | Ordering.eq => simdCmpGo p n (aI + 124) (bI + 124)
    | o => o

/-- `simd_cmp_packed`. -/
def simdCmpPacked (p : RevPacked) (CTX aIdx bIdx : Nat) : Ordering :=
  simdCmpGo p CTX aIdx bIdx

/-- The 32-byte unaligned load of `simd_cmp_bytes` at offset `p` of the input. -/
def loadBytes32 (bytes : List Nat) (p : Nat) : Nat :=
  packBytes (fun i => bytes.getD (p + i) 0) 32

/-- One window step of `simd_cmp_bytes`: locate the least significant
differing byte lane and compare it unsigned; `Ordering.eq` if none differs. -/
def cmpBytes32 (a b : Nat) : Ordering :=
  let neqMask := movemask8 (cmpeq8 a b) ^^^ (2 ^ 32 - 1)
  if neqMask ≠ 0 then
    let lsbMask := neqMask &&& wrappingNeg32 neqMask
    let gtMask := movemask8 (cmpeq8 (maxEpu8 a b) a)
    if 0 < lsbMask &&& gtMask then Ordering.gt else Ordering.lt
  else Ordering.eq

/-- The loop of `simd_cmp_bytes` (stride `L = 32`); ties after `CTX` windows
return `Equal` with no index tie-break. -/
def simdCmpBytesGo (bytes : List Nat) : Nat → Nat → Nat → Ordering
  | 0, _, _ => Ordering.eq
  | n + 1, aI, bI =>
    match cmpBytes32 (loadBytes32 bytes aI) (loadBytes32 bytes bI) with
    | Ordering.eq => simdCmpBytesGo bytes n (aI + 32) (bI + 32)
    | o => o

/-- `simd_cmp_bytes`. -/
def simdCmpBytes (bytes : List Nat) (CTX aIdx bIdx : Nat) : Ordering :=
  simdCmpBytesGo bytes CTX aIdx bIdx

/-- The 16-lane unaligned load of `simd_cmp` at element offset `p` of the
seed sequence. -/
def loadWords16 (seeds : List Nat) (p : Nat) : Nat :=
  packWords (fun i => seeds.getD (p + i) 0) 16

/-- One window step of `simd_cmp` (16-bit lanes; `movemask_epi8` produces two
mask bits per lane). -/
def cmpWords16 (a b : Nat) : Ordering :=
  let neqMask := movemask8 (cmpeq16 a b) ^^^ (2 ^ 32 - 1)
  if neqMask ≠ 0 then
    let lsbMask := neqMask &&& wrappingNeg32 neqMask
    let gtMask := movemask8 (cmpeq16 (maxEpu16 a b) a)
    if 0 < lsbMask &&& gtMask then Ordering.gt else Ordering.lt
  else Ordering.eq

/-- The loop of `simd_cmp` (stride `L = 16`). -/
def simdCmp16Go (seeds : List Nat) : Nat → Nat → Nat → Ordering
  | 0, _, _ => Ordering.eq
  | n + 1, aI, bI =>
    match cmpWords16 (loadWords16 seeds aI) (loadWords16 seeds bI) with
    | Ordering.eq => simdCmp16Go seeds n (aI + 16) (bI + 16)
    | o => o

/-- `simd_cmp` over 16-bit seeds. -/
def simdCmp16 (seeds : List Nat) (CTX aIdx bIdx : Nat) : Ordering :=
  simdCmp16Go seeds CTX aIdx bIdx

/-! ### Sort models -/

/-- A stable comparator sort (`slice::sort_by`, `par_sort_by`): a stable
sort's output is uniquely determined by the comparator, so any stable sort
renders it; insertion sort is used because it is structurally recursive. -/
def stableSortBy {α : Type} (cmp : α → α → Ordering) (l : List α) : List α :=
  List.insertionSort (fun a b => cmp a b ≠ Ordering.gt) l

/-- The type of a comparator sort routine, used to model
`slice::sort_unstable_by`, whose equal-element order is unspecified. -/
def USort : Type 1 := (α : Type) → (α → α → Ordering) → List α → List α

/-- A comparator that is swap-consistent and whose non-strict relation is
transitive (every comparator the source passes to a sort is of this form). -/
def IsCmpOrder {α : Type} (cmp : α → α → Ordering) : Prop :=
  (∀ a b, cmp a b = (cmp b a).swap) ∧
    (∀ a b c, cmp a b ≠ Ordering.gt → cmp b c ≠ Ordering.gt → cmp a c ≠ Ordering.gt)

/-- The contract of `slice::sort_unstable_by`: the result is a permutation of
the input, and is sorted whenever the comparator is a total preorder.
Nothing is guaranteed about the relative order of equal elements. -/
def SortContract (usort : USort) : Prop :=
  ∀ (α : Type) (cmp : α → α → Ordering) (l : List α),
    (usort α cmp l).Perm l ∧
      (IsCmpOrder cmp →
        List.Pairwise (fun a b => cmp a b ≠ Ordering.gt) (usort α cmp l))

/-- A sort routine satisfying the contract: the stable sort. -/
def stdSort : USort := fun _ cmp l => stableSortBy cmp l

/-- Another sort routine satisfying the contract: stable-sort the reversed
input, so that equal elements come out in reversed order. -/
def revSort : USort := fun _ cmp l => stableSortBy cmp l.reverse

/-! ### The packed construction pipeline -/

/-- Start of thread `t`'s chunk (`chunk_size * thread_idx`). -/
def chunkStart (cs t : Nat) : Nat := t * cs

/-- End of thread `t`'s chunk: the last thread absorbs the remainder. -/
def chunkEnd (len cs T t : Nat) : Nat := if T - 1 ≤ t then len else (t + 1) * cs

/-- The positions scanned by thread `t`. -/
def chunkList (len cs T t : Nat) : List Nat :=
  List.range' (chunkStart cs t) (chunkEnd len cs T t - chunkStart cs t)

/-- The histogram loop body: bump the count of `key i` for each `i` of `l`. -/
def bumpFold (key : Nat → Nat) (l : List Nat) (c : Nat → Nat) : Nat → Nat :=
  l.foldl (fun c i => upd c (key i) (c (key i) + 1)) c

/-- The inner prefix-sum loop over threads for one k-mer value `v`: replace
each count with the running total. -/
def prefixStep (T v : Nat) (acc : (Nat → Nat → Nat) × Nat) : (Nat → Nat → Nat) × Nat :=
  (List.range T).foldl
    (fun acc2 t =>
      let curr := acc2.1 t v
      (upd2 acc2.1 t v acc2.2, acc2.2 + curr))
    acc

/-- The serial prefix-sum phase over all k-mer values. -/
def prefixPhase (K T : Nat) (tc : Nat → Nat → Nat) : (Nat → Nat → Nat) × Nat :=
  (List.range K).foldl (fun acc v => prefixStep T v acc) (tc, 0)

/-- The scatter loop of one thread: write `i` to slot `counts[key i]`, then
bump that count.  State is (this thread's counts, the shared output). -/
def scatterFold (key : Nat → Nat) (l : List Nat) (st : (Nat → Nat) × (Nat → Nat)) :
    (Nat → Nat) × (Nat → Nat) :=
  l.foldl
    (fun st i =>
      let idx := st.1 (key i)
      (upd st.1 (key i) (idx + 1), upd st.2 idx i))
    st

/-- The scatter phase over all threads (sequentialised in thread order; the
threads write disjoint slots). -/
def scatterAll (key : Nat → Nat) (len cs T : Nat) (base : Nat → Nat → Nat) :
    (Nat → Nat → Nat) × (Nat → Nat) :=
  (List.range T).foldl
    (fun acc t =>
      let r := scatterFold key (chunkList len cs T t) (acc.1 t, acc.2)
      (fun t' => if t' = t then r.1 else acc.1 t', r.2))
    (base, fun _ => 0)

/-- The per-bucket sort: for `CTX ≤ 4` materialise `(key, position)` pairs
and sort them by key alone with the unstable sort; otherwise sort in place
with the stable comparator sort by `simd_cmp_packed`. -/
def sortBucketPacked (usort : USort) (p : RevPacked) (CTX : Nat) (l : List Nat) :
    List Nat :=
  if CTX ≤ 4 then
    (usort ((Fin CTX → Nat) × Nat) (fun x y => keyCmpPacked x.1 y.1)
        (l.map (fun i => (simdKeyPacked p CTX i, i)))).map
      (fun x => x.2)
  else
    stableSortBy (fun a b => simdCmpPacked p CTX a b) l

/-- `len_no_ctx = bytes.len() - L * CTX` with `L = 124`. -/
def lenNoCtx (CTX : Nat) (bytes : List Nat) : Nat := bytes.length - 124 * CTX

/-- The radix key of the packed path: `packed.load_k(i, k)`. -/
def kmerKey (bytes : List Nat) (k : Nat) : Nat → Nat :=
  fun i => (RevPacked.new bytes).loadK i k

/-- `1 << k_bits` with `k_bits = k * 2`. -/
def numBuckets (k : Nat) : Nat := 1 <<< (k * 2)

/-- The per-thread histograms of the packed path. -/
def threadCounts (CTX : Nat) (bytes : List Nat) (k T : Nat) : Nat → Nat → Nat :=
  fun t =>
    bumpFold (kmerKey bytes k)
      (chunkList (lenNoCtx CTX bytes) (lenNoCtx CTX bytes / T) T t) (fun _ => 0)

/-- The state after the scatter phase of the packed path: the mutated
per-thread counts and the `sorted` array. -/
def packedScatterSt (CTX : Nat) (bytes : List Nat) (k T : Nat) :
    (Nat → Nat → Nat) × (Nat → Nat) :=
  scatterAll (kmerKey bytes k) (lenNoCtx CTX bytes) (lenNoCtx CTX bytes / T) T
    (prefixPhase (numBuckets k) T (threadCounts CTX bytes k T)).1

/-- The `sorted` array after the scatter phase, before the per-bucket sorts. -/
def packedPreList (CTX : Nat) (bytes : List Nat) (k T : Nat) : List Nat :=
  (List.range (lenNoCtx CTX bytes)).map (packedScatterSt CTX bytes k T).2

/-- The last thread's counts after the scatter: `counts[i]` is the exclusive
end of bucket `i`. -/
def packedCounts (CTX : Nat) (bytes : List Nat) (k T : Nat) : Nat → Nat :=
  (packedScatterSt CTX bytes k T).1 (T - 1)

/-- The slice of the scattered array holding bucket `v`
(`start = if v == 0 then 0 else counts[v - 1]`, `end = counts[v]`). -/
def packedBucketSlice (CTX : Nat) (bytes : List Nat) (k T v : Nat) : List Nat :=
  let counts := packedCounts CTX bytes k T
  let s := if v = 0 then 0 else counts (v - 1)
  ((packedPreList CTX bytes k T).drop s).take (counts v - s)

/-- `SuffixArray::sort_packed`, sequentialised: histogram, prefix sum,
scatter, then the per-bucket sorts written back in bucket order. -/
def sortPackedList (usort : USort) (CTX : Nat) (bytes : List Nat) (k T : Nat) :
    List Nat :=
  ((List.range (numBuckets k)).map fun v =>
      sortBucketPacked usort (RevPacked.new bytes) CTX
        (packedBucketSlice CTX bytes k T v)).flatten

/-- The suffix-array record: the index vector and the stored `k` and `ctx`. -/
structure SuffixArray where
  idxs : List Nat
  k : Nat
  ctx : Nat

/-- `SuffixArray::new_packed` (total rendering, for inputs on which the
source does not abort). -/
def SuffixArray.newPacked (usort : USort) (CTX : Nat) (bytes : List Nat) (k T : Nat) :
    SuffixArray :=
  { idxs := sortPackedList usort CTX bytes k T, k := k, ctx := CTX }

/-- `SuffixArray::new_packed` with its failure behaviour.  `none` models a
process abort: the unchecked `bytes.len() - L * CTX` underflows when the
input is shorter than `124 * CTX`; `load_k`'s `(16 - k) * 2` underflows
when `k > 16`, and its u32 right shift by `(16 - k) * 2` overflows when
`k = 0` — both aborts are reached exactly when at least one suffix position
exists (`bytes.len() - 124 * CTX > 0`), at the first histogram iteration. -/
def SuffixArray.newPackedChecked (usort : USort) (CTX : Nat) (bytes : List Nat)
    (k T : Nat) : Option SuffixArray :=
  if 124 * CTX ≤ bytes.length then
    if (1 ≤ k ∧ k ≤ 16) ∨ bytes.length - 124 * CTX = 0 then
      some (SuffixArray.newPacked usort CTX bytes k T)
    else none
  else none

/-- `SuffixArray::sort_bytes`: the identity permutation over the valid
positions, stably sorted in place by `simd_cmp_bytes`. -/
def sortBytesList (CTX : Nat) (bytes : List Nat) : List Nat :=
  stableSortBy (fun a b => simdCmpBytes bytes CTX a b)
    (List.range (bytes.length - 124 * CTX))

/-- `SuffixArray::new_bytes`: no radix pass, `k` is stored as `0`. -/
def SuffixArray.newBytes (CTX : Nat) (bytes : List Nat) : SuffixArray :=
  { idxs := sortBytesList CTX bytes, k := 0, ctx := CTX }

/-- The seed histogram of the pre-seeded path (`for &s in seeds_no_ctx`,
rendered as a scan of the positions, reading the seed at each). -/
def seedCounts (CTX : Nat) (seeds : List Nat) : Nat → Nat :=
  let len := seeds.length - 124 * CTX
  bumpFold (fun i => (seeds.take len).getD i 0) (List.range len) (fun _ => 0)

/-- The inclusive prefix-sum table `seed_to_idx` of the pre-seeded path:
`seed_to_idx[0] = 0`, then each partial sum of the counts. -/
def seedToIdx (CTX : Nat) (seeds : List Nat) (k : Nat) : Nat → Nat :=
  ((List.range (1 <<< k)).foldl
      (fun (acc : (Nat → Nat) × Nat) v =>
        (upd acc.1 (v + 1) (acc.2 + seedCounts CTX seeds v),
          acc.2 + seedCounts CTX seeds v))
      (upd (fun _ => 0) 0 0, 0)).1

/-- The counting-sort scatter of the pre-seeded path: write position `i` with
seed `s` to slot `seed_to_idx[s + 1] - counts[s]` and decrement `counts[s]`.
The result is the `sorted` array before the per-bucket sorts. -/
def seedScatterList (CTX : Nat) (seeds : List Nat) (k : Nat) : List Nat :=
  let len := seeds.length - 124 * CTX
  let sNo := seeds.take len
  let s2i := seedToIdx CTX seeds k
  let sc :=
    (List.range len).foldl
      (fun (st : (Nat → Nat) × (Nat → Nat)) i =>
        let s := sNo.getD i 0
        let cnt := st.1 s
        (upd st.1 s (cnt - 1), upd st.2 (s2i (s + 1) - cnt) i))
      (seedCounts CTX seeds, fun _ => 0)
  (List.range len).map sc.2

/-- `SuffixArray::sort` (the pre-seeded 16-bit path): count seeds, build the
inclusive prefix-sum table `seed_to_idx`, scatter by decrementing the counts,
then stably sort each seed bucket by `simd_cmp` starting one seed in. -/
def sortSeedsList (CTX : Nat) (seeds : List Nat) (k : Nat) : List Nat :=
  let s2i := seedToIdx CTX seeds k
  let outList := seedScatterList CTX seeds k
  ((List.range (1 <<< k)).map fun v =>
      stableSortBy (fun a b => simdCmp16 seeds CTX (a + 1) (b + 1))
        ((outList.drop (s2i v)).take (s2i (v + 1) - s2i v))).flatten

/-- `SuffixArray::new` (it asserts `k ≤ 16`; theorems carry that as a
hypothesis). -/
def SuffixArray.newSeeded (CTX : Nat) (seeds : List Nat) (k : Nat) : SuffixArray :=
  { idxs := sortSeedsList CTX seeds k, k := k, ctx := CTX }

/-! ### Derived definitions used by the proofs -/

/-- The sublist of `l` whose elements have radix key `v`. -/
def classList (key : Nat → Nat) (l : List Nat) (v : Nat) : List Nat :=
  l.filter (fun i => key i = v)

/-- Sum of the lengths of the first `c` component lists. -/
def preSum (L : List (List Nat)) (c : Nat) : Nat :=
  ((L.take c).map List.length).sum

/-- Sum of the counts of all flat classes before `c`. -/
def gridBase (tc : Nat → Nat → Nat) (T c : Nat) : Nat :=
  ((List.range c).map (fun c' => tc (c' % T) (c' / T))).sum

/-- Per-thread class sizes as a grid: `tcGrid key len cs T t v` is the number
of positions of thread `t`'s chunk whose key is `v`. -/
def tcGrid (key : Nat → Nat) (len cs T : Nat) : Nat → Nat → Nat :=
  fun t v => (classList key (chunkList len cs T t) v).length

/-- The scatter fold stopped after the first `n` threads. -/
def scatterAllAux (key : Nat → Nat) (len cs T : Nat) (base : Nat → Nat → Nat)
    (n : Nat) : (Nat → Nat → Nat) × (Nat → Nat) :=
  (List.range n).foldl
    (fun acc t =>
      let r := scatterFold key (chunkList len cs T t) (acc.1 t, acc.2)
      (fun t' => if t' = t then r.1 else acc.1 t', r.2))
    (base, fun _ => 0)

/-- The contents of bucket `v`: all positions with k-mer value `v`, in
increasing order. -/
def bucketContents (CTX : Nat) (bytes : List Nat) (k v : Nat) : List Nat :=
  classList (kmerKey bytes k) (List.range (lenNoCtx CTX bytes)) v

/-- The flat class lists of the packed scatter, in flat-index order. -/
def packedGroups (CTX : Nat) (bytes : List Nat) (k T : Nat) : List (List Nat) :=
  (List.range (numBuckets k * T)).map
    (fun c => classList (kmerKey bytes k)
      (chunkList (lenNoCtx CTX bytes) (lenNoCtx CTX bytes / T) T (c % T)) (c / T))

/-- The grid of per-thread class sizes used by the packed pipeline. -/
def packedTc (CTX : Nat) (bytes : List Nat) (k T : Nat) : Nat → Nat → Nat :=
  tcGrid (kmerKey bytes k) (lenNoCtx CTX bytes) (lenNoCtx CTX bytes / T) T

/-- The radix key of the seeded path: the seed value at each position of the
truncated sequence. -/
def seedKey (CTX : Nat) (seeds : List Nat) : Nat → Nat :=
  fun i => (seeds.take (seeds.length - 124 * CTX)).getD i 0

/-- The exclusive prefix sums of the seed counts. -/
def seedBase (CTX : Nat) (seeds : List Nat) (v : Nat) : Nat :=
  ((List.range v).map (seedCounts CTX seeds)).sum

/-- The class lists of the seeded scatter, in seed order. -/
def seedGroups (CTX : Nat) (seeds : List Nat) (k : Nat) : List (List Nat) :=
  (List.range (1 <<< k)).map
    (fun v => classList (seedKey CTX seeds)
      (List.range (seeds.length - 124 * CTX)) v)

/-- The scatter output of the seeded path, as a function on slots (the
second state component of the scatter fold of `seedScatterList`). -/
def seedScatterFn (CTX : Nat) (seeds : List Nat) (k : Nat) : Nat → Nat :=
  ((List.range (seeds.length - 124 * CTX)).foldl
    (fun (st : (Nat → Nat) × (Nat → Nat)) i =>
      (upd st.1 (seedKey CTX seeds i) (st.1 (seedKey CTX seeds i) - 1),
        upd st.2 (seedToIdx CTX seeds k (seedKey CTX seeds i + 1) -
          st.1 (seedKey CTX seeds i)) i))
    (seedCounts CTX seeds, fun _ => 0)).2

/-- The list of `CTX` packed windows at stride `124` starting at `x`,
reduced modulo `2 ^ 256` (the value of an `__m256i`). -/
def winList (p : RevPacked) (CTX x : Nat) : List Nat :=
  (List.range CTX).map fun t => p.load124 (x + 124 * t) % 2 ^ 256

/-- Lexicographic comparison of two lists of naturals: the first position
where the lists disagree decides; exhaustion of either list gives
`Ordering.eq`.  This is the reference order the comparators of the source
are measured against. -/
def lexCmpList : List Nat → List Nat → Ordering
  | a :: as, b :: bs => (compare a b).then (lexCmpList as bs)
  | _, _ => Ordering.eq

/-! ## Generic helpers about stores, folds and flattened lists -/

theorem upd_same (f : Nat → Nat) (i v : Nat) : upd f i v i = v := by
  simp [upd]

theorem upd_ne (f : Nat → Nat) {i j : Nat} (v : Nat) (h : j ≠ i) : upd f i v j = f j := by
  simp [upd, h]

theorem classList_cons (key : Nat → Nat) (i : Nat) (l : List Nat) (v : Nat) :
    classList key (i :: l) v =
      if key i = v then i :: classList key l v else classList key l v := by
  simp [classList, List.filter_cons]

theorem classList_append (key : Nat → Nat) (l₁ l₂ : List Nat) (v : Nat) :
    classList key (l₁ ++ l₂) v = classList key l₁ v ++ classList key l₂ v := by
  simp [classList, List.filter_append]

/-- The histogram fold adds the class size to each initial count. -/
theorem bumpFold_apply (key : Nat → Nat) (l : List Nat) (c : Nat → Nat) (v : Nat) :
    bumpFold key l c v = c v + (classList key l v).length := by
  induction l generalizing c with
  | nil => simp [bumpFold, classList]
  | cons i l ih =>
    simp only [bumpFold, List.foldl_cons] at *
    rw [ih, classList_cons]
    by_cases h : key i = v
    · subst h; simp [upd_same]; omega
    · rw [upd_ne _ _ (fun hv => h hv.symm)]
      simp [h]

/-- Grouping a list by key values below `K` permutes it. -/
theorem classList_flatten_perm (key : Nat → Nat) (l : List Nat) (K : Nat)
    (hK : ∀ i ∈ l, key i < K) :
    ((List.range K).map (classList key l)).flatten.Perm l := by
  rw [List.perm_iff_count]
  intro a
  rw [List.count_flatten]
  simp only [List.map_map]
  have hterm : ∀ v, (List.count a ∘ classList key l) v =
      if key a = v then List.count a l else 0 := by
    intro v
    by_cases h : key a = v
    · simp only [Function.comp, classList, h, if_pos]
      exact List.count_filter (by simp [h])
    · simp only [Function.comp, classList, h, if_neg, decide_eq_true_eq]
      refine List.count_eq_zero.mpr ?_
      intro hmem
      exact h (by simpa using (List.mem_filter.mp hmem).2)
  rw [List.map_congr_left (fun v _ => hterm v)]
  by_cases ha : a ∈ l
  · have hka : key a < K := hK a ha
    clear hterm hK
    induction K with
    | zero => omega
    | succ K ih =>
      rw [List.range_succ, List.map_append, List.sum_append]
      by_cases h : key a = K
      · have h1 : ((List.range K).map fun v => if key a = v then List.count a l else 0).sum
            = 0 := by
          apply List.sum_eq_zero
          intro x hx
          obtain ⟨v, hv, rfl⟩ := List.mem_map.mp hx
          have hvK := List.mem_range.mp hv
          have hne : key a ≠ v := by omega
          simp [hne]
        rw [h1]
        simp [h]
      · have hka' : key a < K := by omega
        rw [ih hka']
        simp [h]
  · have h0 : List.count a l = 0 := List.count_eq_zero.mpr ha
    rw [h0]
    apply List.sum_eq_zero
    intro x hx
    obtain ⟨v, _, rfl⟩ := List.mem_map.mp hx
    simp [h0]

theorem preSum_zero (L : List (List Nat)) : preSum L 0 = 0 := rfl

theorem preSum_succ (L : List (List Nat)) (c : Nat) (h : c < L.length) :
    preSum L (c + 1) = preSum L c + L[c].length := by
  unfold preSum
  rw [List.take_succ, List.getElem?_eq_getElem h, List.map_append, List.sum_append]
  simp

theorem preSum_length (L : List (List Nat)) :
    preSum L L.length = L.flatten.length := by
  simp [preSum, List.length_flatten]

theorem flatten_drop_eq (L : List (List Nat)) (a : Nat) :
    (L.drop a).flatten = L.flatten.drop (preSum L a) := by
  induction a generalizing L with
  | zero => simp [preSum]
  | succ a ih =>
    cases L with
    | nil => simp [preSum]
    | cons l L =>
      have hps : preSum (l :: L) (a + 1) = l.length + preSum L a := by
        simp [preSum, List.take_succ_cons]
      rw [hps]
      simp only [List.drop_succ_cons, List.flatten_cons, ih L, List.drop_append]

theorem flatten_take_eq (L : List (List Nat)) (a : Nat) :
    (L.take a).flatten = L.flatten.take (preSum L a) := by
  induction a generalizing L with
  | zero => simp [preSum]
  | succ a ih =>
    cases L with
    | nil => simp [preSum]
    | cons l L =>
      have hps : preSum (l :: L) (a + 1) = l.length + preSum L a := by
        simp [preSum, List.take_succ_cons]
      rw [hps, List.take_succ_cons, List.flatten_cons, ih L, List.flatten_cons,
        List.take_append]

theorem preSum_add (L : List (List Nat)) (a b : Nat) :
    preSum L (a + b) = preSum L a + preSum (L.drop a) b := by
  unfold preSum
  rw [List.take_add, List.map_append, List.sum_append, List.take_drop]

/-- Slicing a flattened list along the component boundaries recovers the
flattening of the corresponding components. -/
theorem flatten_slice (L : List (List Nat)) (a b : Nat) :
    (L.flatten.drop (preSum L a)).take (preSum L (a + b) - preSum L a) =
      ((L.drop a).take b).flatten := by
  rw [← flatten_drop_eq, preSum_add, Nat.add_sub_cancel_left, flatten_take_eq]

/-! ### The scatter fold

A counting-sort scatter starting from counts `c` writes, for every key value
`v`, the successive class members to the successive slots from `c v` on.  The
characterisation needs the target intervals of distinct key values to be
disjoint. -/

theorem scatterFold_fst (key : Nat → Nat) (l : List Nat) (c o : Nat → Nat) (v : Nat) :
    (scatterFold key l (c, o)).1 v = c v + (classList key l v).length := by
  induction l generalizing c o with
  | nil => simp [scatterFold, classList]
  | cons i l ih =>
    simp only [scatterFold, List.foldl_cons] at *
    rw [ih, classList_cons]
    by_cases h : key i = v
    · subst h; simp [upd_same]; omega
    · rw [upd_ne _ _ (fun hv => h hv.symm)]
      simp [h]

theorem scatterFold_spec (key : Nat → Nat) :
    ∀ (l : List Nat) (c o : Nat → Nat),
      (∀ i ∈ l, ∀ j ∈ l, key i ≠ key j →
          c (key i) + (classList key l (key i)).length ≤ c (key j) ∨
          c (key j) + (classList key l (key j)).length ≤ c (key i)) →
      (∀ v r, r < (classList key l v).length →
          (scatterFold key l (c, o)).2 (c v + r) = (classList key l v).getD r 0) ∧
      (∀ s,
        (∀ i ∈ l, ¬(c (key i) ≤ s ∧
            s < c (key i) + (classList key l (key i)).length)) →
          (scatterFold key l (c, o)).2 s = o s) := by
  intro l
  induction l with
  | nil =>
    intro c o _
    constructor
    · intro v r hr
      simp [classList] at hr
    · intro s _
      simp [scatterFold]
  | cons i l ih =>
    intro c o hdisj
    set v₀ := key i with hv₀
    have hstep : scatterFold key (i :: l) (c, o) =
        scatterFold key l (upd c v₀ (c v₀ + 1), upd o (c v₀) i) := by
      simp only [scatterFold, List.foldl_cons]
    set c' := upd c v₀ (c v₀ + 1) with hc'
    set o' := upd o (c v₀) i with ho'
    have hclass0 : classList key (i :: l) v₀ = i :: classList key l v₀ := by
      rw [classList_cons, if_pos rfl]
    have hclassne : ∀ v, v ≠ v₀ → classList key (i :: l) v = classList key l v := by
      intro v hv
      rw [classList_cons, if_neg (fun h => hv (by rw [← h]))]
    have hEq : ∀ v, c' v + (classList key l v).length =
        c v + (classList key (i :: l) v).length := by
      intro v
      by_cases h : v = v₀
      · subst h; rw [hclass0]; simp [hc', upd_same]; omega
      · rw [hclassne v h, hc', upd_ne _ _ h]
    have hMono : ∀ v, c v ≤ c' v := by
      intro v
      by_cases h : v = v₀
      · subst h; simp [hc', upd_same]
      · rw [hc', upd_ne _ _ h]
    have hdisj' : ∀ i' ∈ l, ∀ j' ∈ l, key i' ≠ key j' →
        c' (key i') + (classList key l (key i')).length ≤ c' (key j') ∨
        c' (key j') + (classList key l (key j')).length ≤ c' (key i') := by
      intro i' hi' j' hj' hne
      rcases hdisj i' (List.mem_cons_of_mem _ hi') j' (List.mem_cons_of_mem _ hj') hne with
        h | h
      · left; rw [hEq]; exact le_trans h (hMono _)
      · right; rw [hEq]; exact le_trans h (hMono _)
    obtain ⟨IH1, IH2⟩ := ih c' o' hdisj'
    have hlen0 : 1 ≤ (classList key (i :: l) v₀).length := by
      rw [hclass0]; simp
    constructor
    · intro v r hr
      rw [hstep]
      by_cases hv : v = v₀
      · subst hv
        match r with
        | 0 =>
          have hout : (scatterFold key l (c', o')).2 (c v₀ + 0) = o' (c v₀ + 0) := by
            apply IH2
            intro i' hi'
            by_cases hk : key i' = v₀
            · rw [hk]
              have h1 : c' v₀ = c v₀ + 1 := upd_same _ _ _
              omega
            · have hne : key i ≠ key i' := by
                rw [← hv₀]; exact fun h => hk h.symm
              have hcne : c' (key i') = c (key i') := upd_ne _ _ hk
              rw [hcne]
              rcases hdisj i (List.mem_cons_self i l) i'
                  (List.mem_cons_of_mem _ hi') hne with h | h
              · rw [← hv₀] at h
                omega
              · rw [← hv₀, hclassne _ hk] at h
                omega
          rw [hout]
          simp only [Nat.add_zero, ho', upd_same, hclass0]
          rfl
        | r + 1 =>
          have hcr : c v₀ + (r + 1) = c' v₀ + r := by simp [hc', upd_same]; omega
          rw [hcr, IH1 v₀ r (by rw [hclass0] at hr; simpa using hr), hclass0]
          rfl
      · rw [show c v = c' v from (hc' ▸ (upd_ne _ _ hv)).symm,
          IH1 v r (by rwa [hclassne v hv] at hr), hclassne v hv]
    · intro s hs
      rw [hstep]
      have hout : (scatterFold key l (c', o')).2 s = o' s := by
        apply IH2
        intro i' hi'
        have h1 := hs i' (List.mem_cons_of_mem _ hi')
        have h2 := hEq (key i')
        have h3 := hMono (key i')
        omega
      rw [hout, ho']
      have hne : s ≠ c v₀ := by
        have h1 := hs i (List.mem_cons_self i l)
        rw [← hv₀] at h1
        omega
      exact upd_ne _ _ hne

/-! ### The prefix-sum phase

The flat class index of k-mer value `v` on thread `t` is `c = v * T + t`;
classes are laid out in the array in increasing flat index.  `gridBase tc T c`
is the combined size of all earlier classes. -/

theorem gridBase_add (tc : Nat → Nat → Nat) (T v t : Nat) (ht : t ≤ T) :
    gridBase tc T (v * T + t) =
      gridBase tc T (v * T) + ((List.range t).map (fun t' => tc t' v)).sum := by
  unfold gridBase
  rw [List.range_add, List.map_append, List.sum_append]
  congr 1
  rw [List.map_map]
  congr 1
  apply List.map_congr_left
  intro t' ht'
  have ht'' : t' < t := List.mem_range.mp ht'
  have h1 : (v * T + t') % T = t' := by
    rw [Nat.add_comm, Nat.add_mul_mod_self_right]
    exact Nat.mod_eq_of_lt (by omega)
  have h2 : (v * T + t') / T = v := by
    rw [Nat.add_comm, Nat.add_mul_div_right _ _ (show 0 < T by omega),
      Nat.div_eq_of_lt (by omega)]
    omega
  simp [Function.comp, h1, h2]

theorem prefixStep_fold (v : Nat) (f : Nat → Nat → Nat) (S : Nat) : ∀ n,
    ((∀ t v', n ≤ t ∨ v' ≠ v →
        ((List.range n).foldl
          (fun acc2 t =>
            let curr := acc2.1 t v
            (upd2 acc2.1 t v acc2.2, acc2.2 + curr)) (f, S)).1 t v' = f t v') ∧
      (∀ t, t < n →
        ((List.range n).foldl
          (fun acc2 t =>
            let curr := acc2.1 t v
            (upd2 acc2.1 t v acc2.2, acc2.2 + curr)) (f, S)).1 t v =
          S + ((List.range t).map (fun t' => f t' v)).sum) ∧
      ((List.range n).foldl
          (fun acc2 t =>
            let curr := acc2.1 t v
            (upd2 acc2.1 t v acc2.2, acc2.2 + curr)) (f, S)).2 =
        S + ((List.range n).map (fun t' => f t' v)).sum) := by
  intro n
  induction n with
  | zero => simp
  | succ n ih =>
    obtain ⟨ih1, ih2, ih3⟩ := ih
    rw [List.range_succ, List.foldl_append]
    set r := (List.range n).foldl
      (fun acc2 t =>
        let curr := acc2.1 t v
        (upd2 acc2.1 t v acc2.2, acc2.2 + curr)) (f, S) with hr
    simp only [List.foldl_cons, List.foldl_nil]
    refine ⟨?_, ?_, ?_⟩
    · intro t v' hcond
      have hne : ¬(t = n ∧ v' = v) := by
        rcases hcond with h | h
        · intro hc; omega
        · intro hc; exact h hc.2
      show upd2 r.1 n v r.2 t v' = f t v'
      rw [show upd2 r.1 n v r.2 t v' = r.1 t v' from if_neg hne]
      apply ih1
      rcases hcond with h | h
      · left; omega
      · right; exact h
    · intro t ht
      by_cases htn : t = n
      · subst htn
        show upd2 r.1 t v r.2 t v = _
        rw [show upd2 r.1 t v r.2 t v = r.2 from if_pos ⟨rfl, rfl⟩]
        exact ih3
      · have htn' : t < n := by omega
        show upd2 r.1 n v r.2 t v = _
        rw [show upd2 r.1 n v r.2 t v = r.1 t v from if_neg (by intro hc; exact htn hc.1)]
        exact ih2 t htn'
    · show r.2 + r.1 n v = _
      rw [ih3, ih1 n v (Or.inl le_rfl), List.map_append, List.sum_append]
      simp [Nat.add_assoc]

theorem prefixPhase_spec (T : Nat) (tc : Nat → Nat → Nat) : ∀ K,
    ((∀ t v, K ≤ v ∨ T ≤ t → (prefixPhase K T tc).1 t v = tc t v) ∧
      (∀ t v, t < T → v < K →
        (prefixPhase K T tc).1 t v = gridBase tc T (v * T + t)) ∧
      (prefixPhase K T tc).2 = gridBase tc T (K * T)) := by
  intro K
  induction K with
  | zero =>
    refine ⟨fun t v _ => rfl, fun t v _ hv => by omega, ?_⟩
    simp [prefixPhase, gridBase]
  | succ K ih =>
    obtain ⟨ih1, ih2, ih3⟩ := ih
    have hstep : prefixPhase (K + 1) T tc = prefixStep T K (prefixPhase K T tc) := by
      unfold prefixPhase
      rw [List.range_succ, List.foldl_append]
      simp
    obtain ⟨s1, s2, s3⟩ := prefixStep_fold K (prefixPhase K T tc).1
      (prefixPhase K T tc).2 T
    have hstep' : prefixStep T K (prefixPhase K T tc) =
        (List.range T).foldl
          (fun acc2 t =>
            let curr := acc2.1 t K
            (upd2 acc2.1 t K acc2.2, acc2.2 + curr))
          ((prefixPhase K T tc).1, (prefixPhase K T tc).2) := rfl
    rw [hstep, hstep']
    have hcol : ∀ t, ((List.range t).map (fun t' => (prefixPhase K T tc).1 t' K)).sum
        = ((List.range t).map (fun t' => tc t' K)).sum := by
      intro t
      congr 1
      apply List.map_congr_left
      intro t' _
      exact ih1 t' K (Or.inl le_rfl)
    refine ⟨?_, ?_, ?_⟩
    · intro t v hcond
      rcases hcond with h | h
      · rw [s1 t v (Or.inr (by omega))]
        exact ih1 t v (Or.inl (by omega))
      · rw [s1 t v (Or.inl h)]
        exact ih1 t v (Or.inr h)
    · intro t v ht hv
      by_cases hvK : v = K
      · subst hvK
        rw [s2 t ht, ih3, hcol, ← gridBase_add tc T v t (by omega)]
      · rw [s1 t v (Or.inr hvK)]
        exact ih2 t v ht (by omega)
    · rw [s3, ih3, hcol, ← gridBase_add tc T K T le_rfl]
      congr 1
      ring

theorem gridBase_succ (tc : Nat → Nat → Nat) (T c : Nat) :
    gridBase tc T (c + 1) = gridBase tc T c + tc (c % T) (c / T) := by
  unfold gridBase
  rw [List.range_succ, List.map_append, List.sum_append]
  simp

theorem gridBase_le (tc : Nat → Nat → Nat) (T : Nat) {c c' : Nat} (h : c ≤ c') :
    gridBase tc T c ≤ gridBase tc T c' := by
  induction h with
  | refl => exact le_rfl
  | step _ ih =>
    refine le_trans ih ?_
    rw [gridBase_succ]
    exact Nat.le_add_right _ _

theorem flatIdx_mod (T v t : Nat) (ht : t < T) : (v * T + t) % T = t := by
  rw [Nat.add_comm, Nat.add_mul_mod_self_right]
  exact Nat.mod_eq_of_lt ht

theorem flatIdx_div (T v t : Nat) (ht : t < T) : (v * T + t) / T = v := by
  rw [Nat.add_comm, Nat.add_mul_div_right _ _ (show 0 < T by omega),
    Nat.div_eq_of_lt ht]
  omega

/-! ### Chunks -/

theorem chunkStart_le_chunkEnd (len cs T t : Nat) (hcs : cs = len / T) (ht : t < T) :
    chunkStart cs t ≤ chunkEnd len cs T t := by
  subst hcs
  unfold chunkStart chunkEnd
  have h3 : T * (len / T) ≤ len := by
    rw [Nat.mul_comm]
    exact Nat.div_mul_le_self len T
  by_cases h : T - 1 ≤ t
  · rw [if_pos h]
    have h2 : t * (len / T) ≤ T * (len / T) := Nat.mul_le_mul_right _ (by omega)
    omega
  · rw [if_neg h]
    exact Nat.mul_le_mul_right _ (by omega)

theorem chunkList_flatten (len cs T : Nat) (hT : 1 ≤ T) (hcs : cs = len / T) :
    ((List.range T).map (chunkList len cs T)).flatten = List.range len := by
  have main : ∀ n, 1 ≤ n → n ≤ T →
      ((List.range n).map (chunkList len cs T)).flatten =
        List.range' 0 (chunkEnd len cs T (n - 1)) := by
    intro n
    induction n with
    | zero => omega
    | succ n ih =>
      intro _ hnT
      rcases Nat.eq_zero_or_pos n with hn0 | hn1
      · subst hn0
        have h0 : List.range 1 = [0] := rfl
        rw [h0]
        simp only [List.map_cons, List.map_nil, List.flatten_cons,
          List.flatten_nil, List.append_nil]
        unfold chunkList chunkStart
        simp
      · rw [List.range_succ, List.map_append]
        simp only [List.map_cons, List.map_nil, List.flatten_append, List.flatten_cons,
          List.flatten_nil, List.append_nil]
        rw [ih hn1 (by omega)]
        have hend : chunkEnd len cs T (n - 1) = n * cs := by
          unfold chunkEnd
          rw [if_neg (by omega)]
          congr 1
          omega
        unfold chunkList chunkStart
        rw [hend]
        have hle : n * cs ≤ chunkEnd len cs T n :=
          chunkStart_le_chunkEnd len cs T n hcs (by omega)
        have hra := List.range'_append 0 (n * cs) (chunkEnd len cs T n - n * cs) 1
        simp only [Nat.mul_one, Nat.zero_add, Nat.one_mul] at hra
        rw [hra]
        have hidx : n + 1 - 1 = n := by omega
        rw [hidx]
        congr 1
        omega
  have h := main T hT le_rfl
  rw [h]
  unfold chunkEnd
  rw [if_pos (by omega), ← List.range_eq_range']

/-- All chunk members are positions below `len`. -/
theorem chunkList_mem_lt (len cs T t : Nat) (hcs : cs = len / T) (ht : t < T) :
    ∀ i ∈ chunkList len cs T t, i < len := by
  intro i hi
  unfold chunkList at hi
  rw [List.mem_range'_1] at hi
  have h1 : chunkEnd len cs T t ≤ len := by
    unfold chunkEnd
    by_cases h : T - 1 ≤ t
    · rw [if_pos h]
    · rw [if_neg h]
      subst hcs
      calc (t + 1) * (len / T) ≤ T * (len / T) := Nat.mul_le_mul_right _ (by omega)
        _ ≤ len := by
            rw [Nat.mul_comm]
            exact Nat.div_mul_le_self len T
  omega

theorem classList_length_sum (key : Nat → Nat) (l : List Nat) (K : Nat)
    (hkey : ∀ i ∈ l, key i < K) :
    ((List.range K).map (fun v => (classList key l v).length)).sum = l.length := by
  have hperm := classList_flatten_perm key l K hkey
  have hlen := hperm.length_eq
  rw [List.length_flatten, List.map_map] at hlen
  exact hlen

/-! ### The scatter phase, all threads -/

theorem classList_eq_nil_of_ge (key : Nat → Nat) (l : List Nat) {K v : Nat}
    (hkey : ∀ i, key i < K) (hv : K ≤ v) : classList key l v = [] := by
  apply List.filter_eq_nil_iff.mpr
  intro i _
  simp only [decide_eq_true_eq]
  have := hkey i
  omega

theorem scatterAll_eq_aux (key : Nat → Nat) (len cs T : Nat) (base : Nat → Nat → Nat) :
    scatterAll key len cs T base = scatterAllAux key len cs T base T := rfl

theorem scatterAllAux_spec (key : Nat → Nat) (len cs T K : Nat)
    (base : Nat → Nat → Nat) (hkey : ∀ i, key i < K)
    (hbase : ∀ t v, t < T → v < K →
      base t v = gridBase (tcGrid key len cs T) T (v * T + t)) :
    ∀ n, n ≤ T →
      (∀ t, n ≤ t → (scatterAllAux key len cs T base n).1 t = base t) ∧
      (∀ t v, t < n → v < K →
        (scatterAllAux key len cs T base n).1 t v =
          gridBase (tcGrid key len cs T) T (v * T + t + 1)) ∧
      (∀ t v r, t < n → v < K → r < tcGrid key len cs T t v →
        (scatterAllAux key len cs T base n).2
            (gridBase (tcGrid key len cs T) T (v * T + t) + r) =
          (classList key (chunkList len cs T t) v).getD r 0) := by
  have hgb : ∀ t v, t < T → gridBase (tcGrid key len cs T) T (v * T + t) +
      tcGrid key len cs T t v = gridBase (tcGrid key len cs T) T (v * T + t + 1) := by
    intro t v ht
    rw [gridBase_succ, flatIdx_mod T v t ht, flatIdx_div T v t ht]
  -- intervals of distinct flat class indices are disjoint
  have hflatne : ∀ t v t' v', t < T → t' < T → (t, v) ≠ (t', v') → v < K → v' < K →
      gridBase (tcGrid key len cs T) T (v * T + t) + tcGrid key len cs T t v ≤
        gridBase (tcGrid key len cs T) T (v' * T + t') ∨
      gridBase (tcGrid key len cs T) T (v' * T + t') + tcGrid key len cs T t' v' ≤
        gridBase (tcGrid key len cs T) T (v * T + t) := by
    intro t v t' v' ht ht' hne _ _
    have hflat : v * T + t ≠ v' * T + t' := by
      intro h
      apply hne
      have h1 : t = t' := by
        have e1 := flatIdx_mod T v t ht
        have e2 := flatIdx_mod T v' t' ht'
        rw [← e1, h, e2]
      have h2 : v = v' := by
        have e1 := flatIdx_div T v t ht
        have e2 := flatIdx_div T v' t' ht'
        rw [← e1, h, e2]
      rw [h1, h2]
    rcases Nat.lt_or_ge (v * T + t) (v' * T + t') with h | h
    · left
      rw [hgb t v ht]
      exact gridBase_le _ _ (by omega)
    · right
      rw [hgb t' v' ht']
      have : v' * T + t' < v * T + t := by omega
      exact gridBase_le _ _ (by omega)
  intro n
  induction n with
  | zero =>
    intro _
    refine ⟨fun t _ => rfl, fun t v ht _ => by omega, fun t v r ht _ _ => by omega⟩
  | succ n ih =>
    intro hn1
    obtain ⟨ih1, ih2, ih3⟩ := ih (by omega)
    have hnT : n < T := by omega
    have hstep : scatterAllAux key len cs T base (n + 1) =
        (let r := scatterFold key (chunkList len cs T n)
            ((scatterAllAux key len cs T base n).1 n,
              (scatterAllAux key len cs T base n).2)
         (fun t' => if t' = n then r.1 else (scatterAllAux key len cs T base n).1 t',
           r.2)) := by
      unfold scatterAllAux
      rw [List.range_succ, List.foldl_append]
      simp
    have hstep1 : ∀ t', (scatterAllAux key len cs T base (n + 1)).1 t' =
        if t' = n then
          (scatterFold key (chunkList len cs T n)
              ((scatterAllAux key len cs T base n).1 n,
                (scatterAllAux key len cs T base n).2)).1
        else (scatterAllAux key len cs T base n).1 t' := by
      intro t'
      rw [hstep]
    have hstep2 : (scatterAllAux key len cs T base (n + 1)).2 =
        (scatterFold key (chunkList len cs T n)
            ((scatterAllAux key len cs T base n).1 n,
              (scatterAllAux key len cs T base n).2)).2 := by
      rw [hstep]
    have hbn : (scatterAllAux key len cs T base n).1 n = base n := ih1 n le_rfl
    -- the scatter-fold disjointness hypothesis for thread n
    have hdisj : ∀ i ∈ chunkList len cs T n, ∀ j ∈ chunkList len cs T n,
        key i ≠ key j →
        base n (key i) + (classList key (chunkList len cs T n) (key i)).length ≤
          base n (key j) ∨
        base n (key j) + (classList key (chunkList len cs T n) (key j)).length ≤
          base n (key i) := by
      intro i _ j _ hne
      have hki : key i < K := hkey i
      have hkj : key j < K := hkey j
      rw [hbase n (key i) hnT hki, hbase n (key j) hnT hkj]
      have := hflatne n (key i) n (key j) hnT hnT (by simp [hne]) hki hkj
      exact this
    obtain ⟨sf1, sf2⟩ := scatterFold_spec key (chunkList len cs T n)
      (base n) (scatterAllAux key len cs T base n).2 hdisj
    refine ⟨?_, ?_, ?_⟩
    · intro t hnt
      rw [hstep1 t, if_neg (by omega)]
      exact ih1 t (by omega)
    · intro t v ht hv
      rw [hstep1 t]
      by_cases htn : t = n
      · subst htn
        rw [if_pos rfl, hbn, scatterFold_fst key (chunkList len cs T t)
          (base t) (scatterAllAux key len cs T base t).2 v,
          hbase t v hnT hv]
        exact hgb t v hnT
      · rw [if_neg htn]
        exact ih2 t v (by omega) hv
    · intro t v r ht hv hr
      rw [hstep2]
      by_cases htn : t = n
      · subst htn
        rw [hbn]
        have h1 := sf1 v r hr
        rw [hbase t v hnT hv] at h1
        exact h1
      · have htn' : t < n := by omega
        rw [hbn]
        have hpres : (scatterFold key (chunkList len cs T n)
            (base n, (scatterAllAux key len cs T base n).2)).2
              (gridBase (tcGrid key len cs T) T (v * T + t) + r) =
            (scatterAllAux key len cs T base n).2
              (gridBase (tcGrid key len cs T) T (v * T + t) + r) := by
          apply sf2
          intro i _
          have hki : key i < K := hkey i
          have htT : t < T := by omega
          rw [hbase n (key i) hnT hki]
          have hd := hflatne n (key i) t v hnT htT (by
            intro hpair
            exact htn (congrArg Prod.fst hpair).symm) hki hv
          have he : tcGrid key len cs T n (key i) =
              (classList key (chunkList len cs T n) (key i)).length := rfl
          rcases hd with hd | hd
          · omega
          · omega
        rw [hpres]
        exact ih3 t v r htn' hv hr

/-! ### The packed pipeline, structurally -/

/-- Every k-mer value is below the bucket count (`load_k` right-shifts a
32-bit value by `(16 - k) * 2`). -/
theorem kmerKey_lt (bytes : List Nat) (k i : Nat) :
    kmerKey bytes k i < numBuckets k := by
  unfold kmerKey RevPacked.loadK numBuckets
  rw [Nat.one_shiftLeft, Nat.shiftRight_eq_div_pow]
  rcases le_or_lt k 16 with hk | hk
  · apply Nat.div_lt_of_lt_mul
    have h1 : ((((RevPacked.new bytes).data >>>
        (8 * (((RevPacked.new bytes).len - i - 16 + 3) / 4))) % 2 ^ 32 <<<
          ((3 - ((RevPacked.new bytes).len - i - 16 + 3) % 4) * 2)) % 2 ^ 32) <
        2 ^ 32 := Nat.mod_lt _ (by norm_num)
    have h2 : (2 : Nat) ^ ((16 - k) * 2) * 2 ^ (k * 2) = 2 ^ 32 := by
      rw [← pow_add]
      congr 1
      omega
    omega
  · have h0 : 16 - k = 0 := by omega
    rw [h0]
    simp only [Nat.zero_mul, pow_zero, Nat.div_one]
    calc _ % 2 ^ 32 < 2 ^ 32 := Nat.mod_lt _ (by norm_num)
      _ ≤ 2 ^ (k * 2) := Nat.pow_le_pow_right (by norm_num) (by omega)

theorem gridBase_congr (tc tc' : Nat → Nat → Nat) (T c : Nat)
    (h : ∀ t v, tc t v = tc' t v) : gridBase tc T c = gridBase tc' T c := by
  unfold gridBase
  congr 1
  apply List.map_congr_left
  intro c' _
  exact h _ _

/-- Splitting a range-indexed map into `K` blocks of `T`. -/
theorem range_mul_map_eq_flatten (f : Nat → List Nat) (K T : Nat) :
    (List.range (K * T)).map f =
      ((List.range K).map (fun v => (List.range T).map (fun t => f (v * T + t)))).flatten := by
  induction K with
  | zero => simp
  | succ K ih =>
    have hmul : (K + 1) * T = K * T + T := by ring
    rw [hmul, List.range_add, List.map_append, ih, List.range_succ, List.map_append]
    simp only [List.map_cons, List.map_nil, List.flatten_append, List.flatten_cons,
      List.flatten_nil, List.append_nil]
    congr 1
    rw [List.map_map]
    apply List.map_congr_left
    intro t _
    simp [Function.comp, Nat.add_comm]

/-- Regrouped: bucket-major, thread-minor. -/
theorem packedGroups_regroup (CTX : Nat) (bytes : List Nat) (k T : Nat) :
    packedGroups CTX bytes k T =
      ((List.range (numBuckets k)).map (fun v => (List.range T).map (fun t =>
        classList (kmerKey bytes k)
          (chunkList (lenNoCtx CTX bytes) (lenNoCtx CTX bytes / T) T t) v))).flatten := by
  unfold packedGroups
  rw [range_mul_map_eq_flatten _ (numBuckets k) T]
  congr 1
  apply List.map_congr_left
  intro v _
  apply List.map_congr_left
  intro t ht
  have htT : t < T := List.mem_range.mp ht
  rw [flatIdx_mod T v t htT, flatIdx_div T v t htT]

/-- Joining the per-thread classes of one bucket yields its full contents. -/
theorem bucket_flatten_eq (CTX : Nat) (bytes : List Nat) (k T v : Nat) (hT : 1 ≤ T) :
    ((List.range T).map (fun t =>
        classList (kmerKey bytes k)
          (chunkList (lenNoCtx CTX bytes) (lenNoCtx CTX bytes / T) T t) v)).flatten =
      bucketContents CTX bytes k v := by
  unfold bucketContents classList
  rw [← chunkList_flatten (lenNoCtx CTX bytes) (lenNoCtx CTX bytes / T) T hT rfl,
    List.filter_flatten, List.map_map]
  rfl

/-- The flattening of all flat classes is the whole bucket decomposition. -/
theorem packedGroups_flatten (CTX : Nat) (bytes : List Nat) (k T : Nat) (hT : 1 ≤ T) :
    (packedGroups CTX bytes k T).flatten =
      ((List.range (numBuckets k)).map (bucketContents CTX bytes k)).flatten := by
  rw [packedGroups_regroup CTX bytes k T, List.flatten_flatten, List.map_map]
  congr 1
  apply List.map_congr_left
  intro v _
  exact bucket_flatten_eq CTX bytes k T v hT

/-- The flattened bucket decomposition permutes the valid positions. -/
theorem buckets_perm (CTX : Nat) (bytes : List Nat) (k : Nat) :
    ((List.range (numBuckets k)).map (bucketContents CTX bytes k)).flatten.Perm
      (List.range (lenNoCtx CTX bytes)) :=
  classList_flatten_perm (kmerKey bytes k) (List.range (lenNoCtx CTX bytes))
    (numBuckets k) (fun i _ => kmerKey_lt bytes k i)

theorem preSum_packedGroups (CTX : Nat) (bytes : List Nat) (k T : Nat) (c : Nat)
    (hc : c ≤ numBuckets k * T) :
    preSum (packedGroups CTX bytes k T) c = gridBase (packedTc CTX bytes k T) T c := by
  unfold preSum packedGroups gridBase
  rw [← List.map_take, List.take_range, Nat.min_eq_left hc, List.map_map]
  rfl

/-- The prefix-phase output agrees with `gridBase` over the class-size grid. -/
theorem packedBase_eq (CTX : Nat) (bytes : List Nat) (k T : Nat) :
    ∀ t v, t < T → v < numBuckets k →
      (prefixPhase (numBuckets k) T (threadCounts CTX bytes k T)).1 t v =
        gridBase (packedTc CTX bytes k T) T (v * T + t) := by
  intro t v ht hv
  obtain ⟨_, p2, _⟩ := prefixPhase_spec T (threadCounts CTX bytes k T) (numBuckets k)
  rw [p2 t v ht hv]
  apply gridBase_congr
  intro t' v'
  unfold threadCounts packedTc tcGrid
  rw [bumpFold_apply]
  simp

/-- The scatter output, slot by slot. -/
theorem packedScatter_out (CTX : Nat) (bytes : List Nat) (k T : Nat) :
    ∀ t v r, t < T → v < numBuckets k → r < packedTc CTX bytes k T t v →
      (packedScatterSt CTX bytes k T).2
          (gridBase (packedTc CTX bytes k T) T (v * T + t) + r) =
        (classList (kmerKey bytes k)
          (chunkList (lenNoCtx CTX bytes) (lenNoCtx CTX bytes / T) T t) v).getD r 0 := by
  have h := (scatterAllAux_spec (kmerKey bytes k) (lenNoCtx CTX bytes)
    (lenNoCtx CTX bytes / T) T (numBuckets k)
    (prefixPhase (numBuckets k) T (threadCounts CTX bytes k T)).1
    (fun i => kmerKey_lt bytes k i) (packedBase_eq CTX bytes k T) T le_rfl).2.2
  intro t v r ht hv hr
  exact h t v r ht hv hr

/-- The scatter-phase counts of the last thread, at the bucket boundaries. -/
theorem packedCounts_eq (CTX : Nat) (bytes : List Nat) (k T : Nat) (hT : 1 ≤ T)
    (v : Nat) (hv : v < numBuckets k) :
    packedCounts CTX bytes k T v =
      gridBase (packedTc CTX bytes k T) T ((v + 1) * T) := by
  have h := (scatterAllAux_spec (kmerKey bytes k) (lenNoCtx CTX bytes)
    (lenNoCtx CTX bytes / T) T (numBuckets k)
    (prefixPhase (numBuckets k) T (threadCounts CTX bytes k T)).1
    (fun i => kmerKey_lt bytes k i) (packedBase_eq CTX bytes k T) T le_rfl).2.1
  unfold packedCounts packedScatterSt packedTc
  rw [scatterAll_eq_aux, h (T - 1) v (by omega) hv]
  congr 1
  have hmul : (v + 1) * T = v * T + T := by ring
  omega

/-- The scatter output array is the concatenation of the flat classes. -/
theorem packedPreList_eq (CTX : Nat) (bytes : List Nat) (k T : Nat) (hT : 1 ≤ T) :
    packedPreList CTX bytes k T = (packedGroups CTX bytes k T).flatten := by
  have hlen : gridBase (packedTc CTX bytes k T) T (numBuckets k * T) =
      lenNoCtx CTX bytes := by
    have h1 : preSum (packedGroups CTX bytes k T) (numBuckets k * T) =
        (packedGroups CTX bytes k T).flatten.length := by
      have : (packedGroups CTX bytes k T).length = numBuckets k * T := by
        unfold packedGroups; simp
      rw [← this, preSum_length]
    have h2 : (packedGroups CTX bytes k T).flatten.length = lenNoCtx CTX bytes := by
      rw [packedGroups_flatten CTX bytes k T hT]
      have hp := (buckets_perm CTX bytes k).length_eq
      simpa using hp
    rw [← preSum_packedGroups CTX bytes k T _ le_rfl, h1, h2]
  have main : ∀ m, m ≤ numBuckets k * T →
      (List.range' 0 (gridBase (packedTc CTX bytes k T) T m)).map
          (packedScatterSt CTX bytes k T).2 =
        ((packedGroups CTX bytes k T).take m).flatten := by
    intro m
    induction m with
    | zero => simp [gridBase]
    | succ m ih =>
      intro hm
      have hmlt : m < numBuckets k * T := by omega
      rw [gridBase_succ]
      have hsplit := List.range'_append 0
        (gridBase (packedTc CTX bytes k T) T m) (packedTc CTX bytes k T (m % T) (m / T)) 1
      simp only [Nat.one_mul, Nat.zero_add, Nat.mul_one] at hsplit
      rw [Nat.add_comm (gridBase (packedTc CTX bytes k T) T m)
        (packedTc CTX bytes k T (m % T) (m / T)), ← hsplit, List.map_append,
        ih (by omega)]
      have hglen : (packedGroups CTX bytes k T).length = numBuckets k * T := by
        unfold packedGroups; simp
      rw [List.take_succ, List.getElem?_eq_getElem (by omega : m < (packedGroups CTX bytes k T).length)]
      simp only [Option.toList_some, List.flatten_append, List.flatten_cons,
        List.flatten_nil, List.append_nil]
      congr 1
      have hgm : (packedGroups CTX bytes k T)[m] =
          classList (kmerKey bytes k)
            (chunkList (lenNoCtx CTX bytes) (lenNoCtx CTX bytes / T) T (m % T)) (m / T) := by
        unfold packedGroups
        rw [List.getElem_map, List.getElem_range]
      rw [hgm]
      apply List.ext_getElem
      · simp [packedTc, tcGrid]
      · intro r h1 h2
        rw [List.getElem_map, List.getElem_range']
        have hr : r < packedTc CTX bytes k T (m % T) (m / T) := by
          simpa using h1
        have hmlt' : m < T * numBuckets k := by
          rw [Nat.mul_comm]
          exact hmlt
        have hout := packedScatter_out CTX bytes k T (m % T) (m / T) r
          (Nat.mod_lt m (by omega)) (Nat.div_lt_of_lt_mul hmlt') hr
        have hidx : m / T * T + m % T = m := by
          rw [Nat.mul_comm]
          exact Nat.div_add_mod m T
        rw [hidx] at hout
        rw [Nat.one_mul, hout, List.getD_eq_getElem _ _ h2]
  have hfin := main (numBuckets k * T) le_rfl
  rw [hlen] at hfin
  unfold packedPreList
  rw [List.range_eq_range', hfin, List.take_of_length_le]
  unfold packedGroups
  simp

theorem bucketContents_length (CTX : Nat) (bytes : List Nat) (k T v : Nat)
    (hT : 1 ≤ T) :
    (bucketContents CTX bytes k v).length =
      ((List.range T).map (fun t => packedTc CTX bytes k T t v)).sum := by
  rw [← bucket_flatten_eq CTX bytes k T v hT, List.length_flatten, List.map_map]
  rfl

theorem preSum_buckets (CTX : Nat) (bytes : List Nat) (k T : Nat) (hT : 1 ≤ T) :
    ∀ v, v ≤ numBuckets k →
      preSum ((List.range (numBuckets k)).map (bucketContents CTX bytes k)) v =
        gridBase (packedTc CTX bytes k T) T (v * T) := by
  intro v
  induction v with
  | zero =>
    intro _
    simp [preSum, gridBase]
  | succ v ih =>
    intro hv
    have hvK : v < numBuckets k := by omega
    rw [preSum_succ _ _ (by simpa using hvK), ih (by omega), List.getElem_map,
      List.getElem_range, bucketContents_length CTX bytes k T v hT,
      show (v + 1) * T = v * T + T from by ring,
      gridBase_add (packedTc CTX bytes k T) T v T le_rfl]

theorem packedBucketSlice_eq (CTX : Nat) (bytes : List Nat) (k T : Nat)
    (hT : 1 ≤ T) (v : Nat) (hv : v < numBuckets k) :
    packedBucketSlice CTX bytes k T v = bucketContents CTX bytes k v := by
  have hstart : (if v = 0 then 0 else packedCounts CTX bytes k T (v - 1)) =
      gridBase (packedTc CTX bytes k T) T (v * T) := by
    by_cases h : v = 0
    · subst h
      simp [gridBase]
    · rw [if_neg h, packedCounts_eq CTX bytes k T hT (v - 1) (by omega)]
      have hsub : v - 1 + 1 = v := by omega
      rw [hsub]
  have hL : ((List.range (numBuckets k)).map (bucketContents CTX bytes k)).length =
      numBuckets k := by simp
  show ((packedPreList CTX bytes k T).drop _).take _ = _
  rw [hstart, packedCounts_eq CTX bytes k T hT v hv,
    packedPreList_eq CTX bytes k T hT, packedGroups_flatten CTX bytes k T hT,
    ← preSum_buckets CTX bytes k T hT v (by omega),
    ← preSum_buckets CTX bytes k T hT (v + 1) (by omega)]
  have hslice := flatten_slice
    ((List.range (numBuckets k)).map (bucketContents CTX bytes k)) v 1
  rw [hslice, List.drop_eq_getElem_cons (by omega), List.take_succ_cons,
    List.take_zero, List.flatten_cons, List.flatten_nil, List.append_nil,
    List.getElem_map, List.getElem_range]

/-- `sort_packed`, bucket-canonically: the sorted buckets, in bucket order,
each bucket's pre-sort contents being the increasing list of its positions —
independent of the thread count. -/
theorem sortPackedList_canonical (usort : USort) (CTX : Nat) (bytes : List Nat)
    (k T : Nat) (hT : 1 ≤ T) :
    sortPackedList usort CTX bytes k T =
      ((List.range (numBuckets k)).map fun v =>
        sortBucketPacked usort (RevPacked.new bytes) CTX
          (bucketContents CTX bytes k v)).flatten := by
  unfold sortPackedList
  congr 1
  apply List.map_congr_left
  intro v hv
  rw [packedBucketSlice_eq CTX bytes k T hT v (List.mem_range.mp hv)]

/-! ### Sort routines and their contracts -/

theorem stableSortBy_perm {α : Type} (cmp : α → α → Ordering) (l : List α) :
    (stableSortBy cmp l).Perm l :=
  List.perm_insertionSort _ l

theorem stableSortBy_pairwise {α : Type} (cmp : α → α → Ordering) (l : List α)
    (hord : IsCmpOrder cmp) :
    List.Pairwise (fun a b => cmp a b ≠ Ordering.gt) (stableSortBy cmp l) := by
  haveI htot : IsTotal α (fun a b => cmp a b ≠ Ordering.gt) := ⟨by
    intro a b
    by_cases hgt : cmp a b = Ordering.gt
    · right
      rw [hord.1 b a, hgt]
      decide
    · left
      exact hgt⟩
  haveI htr : IsTrans α (fun a b => cmp a b ≠ Ordering.gt) := ⟨hord.2⟩
  exact List.sorted_insertionSort _ l

theorem stdSort_contract : SortContract stdSort := by
  intro α cmp l
  exact ⟨stableSortBy_perm cmp l, fun hord => stableSortBy_pairwise cmp l hord⟩

theorem revSort_contract : SortContract revSort := by
  intro α cmp l
  exact ⟨(stableSortBy_perm cmp l.reverse).trans l.reverse_perm,
    fun hord => stableSortBy_pairwise cmp l.reverse hord⟩

theorem sortBucketPacked_perm (usort : USort) (hu : SortContract usort)
    (p : RevPacked) (CTX : Nat) (l : List Nat) :
    (sortBucketPacked usort p CTX l).Perm l := by
  unfold sortBucketPacked
  by_cases h : CTX ≤ 4
  · rw [if_pos h]
    have hperm := (hu _ (fun x y => keyCmpPacked x.1 y.1)
      (l.map (fun i => (simdKeyPacked p CTX i, i)))).1
    refine (hperm.map (fun x : (Fin CTX → Nat) × Nat => x.2)).trans ?_
    rw [List.map_map]
    have hid : ((fun x : (Fin CTX → Nat) × Nat => x.2) ∘
        fun i => (simdKeyPacked p CTX i, i)) = id := rfl
    rw [hid, List.map_id]
  · rw [if_neg h]
    exact stableSortBy_perm _ l

theorem flatten_map_perm {β : Type} (xs : List β) (f g : β → List Nat)
    (h : ∀ x ∈ xs, (f x).Perm (g x)) :
    ((xs.map f).flatten).Perm ((xs.map g).flatten) := by
  induction xs with
  | nil => simp
  | cons x xs ih =>
    simp only [List.map_cons, List.flatten_cons]
    exact (h x (List.mem_cons_self x xs)).append
      (ih (fun y hy => h y (List.mem_cons_of_mem x hy)))

/-- The list produced by `sort_packed` permutes the valid positions. -/
theorem sortPackedList_perm (usort : USort) (hu : SortContract usort)
    (CTX : Nat) (bytes : List Nat) (k T : Nat) (hT : 1 ≤ T) :
    (sortPackedList usort CTX bytes k T).Perm
      (List.range (lenNoCtx CTX bytes)) := by
  rw [sortPackedList_canonical usort CTX bytes k T hT]
  refine (flatten_map_perm (List.range (numBuckets k)) _ _ ?_).trans
    (buckets_perm CTX bytes k)
  intro v _
  exact sortBucketPacked_perm usort hu _ CTX _

/-! ### The pre-seeded path -/

theorem seedCounts_eq (CTX : Nat) (seeds : List Nat) (v : Nat) :
    seedCounts CTX seeds v =
      (classList (seedKey CTX seeds)
        (List.range (seeds.length - 124 * CTX)) v).length := by
  unfold seedCounts seedKey
  rw [bumpFold_apply]
  simp

theorem seedToIdx_fold (CTX : Nat) (seeds : List Nat) : ∀ n,
    (∀ v, v ≤ n →
      ((List.range n).foldl
          (fun (acc : (Nat → Nat) × Nat) v =>
            (upd acc.1 (v + 1) (acc.2 + seedCounts CTX seeds v),
              acc.2 + seedCounts CTX seeds v))
          (upd (fun _ => 0) 0 0, 0)).1 v = seedBase CTX seeds v) ∧
      ((List.range n).foldl
          (fun (acc : (Nat → Nat) × Nat) v =>
            (upd acc.1 (v + 1) (acc.2 + seedCounts CTX seeds v),
              acc.2 + seedCounts CTX seeds v))
          (upd (fun _ => 0) 0 0, 0)).2 = seedBase CTX seeds n := by
  intro n
  induction n with
  | zero =>
    constructor
    · intro v hv
      have hv0 : v = 0 := by omega
      subst hv0
      simp [upd, seedBase]
    · simp [seedBase]
  | succ n ih =>
    obtain ⟨ih1, ih2⟩ := ih
    rw [List.range_succ, List.foldl_append]
    simp only [List.foldl_cons, List.foldl_nil]
    have hsum : seedBase CTX seeds n + seedCounts CTX seeds n =
        seedBase CTX seeds (n + 1) := by
      unfold seedBase
      rw [List.range_succ, List.map_append, List.sum_append]
      simp
    constructor
    · intro v hv
      by_cases hvn : v = n + 1
      · subst hvn
        show upd _ (n + 1) _ (n + 1) = _
        rw [upd_same, ih2, hsum]
      · show upd _ (n + 1) _ v = _
        rw [upd_ne _ _ hvn]
        exact ih1 v (by omega)
    · show _ + _ = _
      rw [ih2, hsum]

theorem seedToIdx_eq (CTX : Nat) (seeds : List Nat) (k : Nat) :
    ∀ v, v ≤ 1 <<< k → seedToIdx CTX seeds k v = seedBase CTX seeds v := by
  intro v hv
  exact (seedToIdx_fold CTX seeds (1 <<< k)).1 v hv

/-- The decrementing counting-sort scatter of the seeded path: with counts
equal to the remaining class sizes and per-class exclusive ends `endOf`, it
writes the successive members of class `v` to the successive slots from
`endOf v - count` upward. -/
theorem seedFold_spec (key : Nat → Nat) (endOf : Nat → Nat) :
    ∀ (l : List Nat) (c o : Nat → Nat),
      (∀ v, c v = (classList key l v).length) →
      (∀ v, (classList key l v).length ≤ endOf v) →
      (∀ i ∈ l, ∀ j ∈ l, key i ≠ key j →
          endOf (key i) ≤ endOf (key j) - (classList key l (key j)).length ∨
          endOf (key j) ≤ endOf (key i) - (classList key l (key i)).length) →
      (∀ v r, r < (classList key l v).length →
          (l.foldl (fun (st : (Nat → Nat) × (Nat → Nat)) i =>
              (upd st.1 (key i) (st.1 (key i) - 1),
                upd st.2 (endOf (key i) - st.1 (key i)) i)) (c, o)).2
            (endOf v - (classList key l v).length + r) =
          (classList key l v).getD r 0) ∧
      (∀ s,
        (∀ i ∈ l, ¬(endOf (key i) - (classList key l (key i)).length ≤ s ∧
            s < endOf (key i))) →
          (l.foldl (fun (st : (Nat → Nat) × (Nat → Nat)) i =>
              (upd st.1 (key i) (st.1 (key i) - 1),
                upd st.2 (endOf (key i) - st.1 (key i)) i)) (c, o)).2 s = o s) := by
  intro l
  induction l with
  | nil =>
    intro c o _ _ _
    constructor
    · intro v r hr
      simp [classList] at hr
    · intro s _
      simp
  | cons i l ih =>
    intro c o hc hbound hdisj
    set v₀ := key i with hv₀
    have hclass0 : classList key (i :: l) v₀ = i :: classList key l v₀ := by
      rw [classList_cons, if_pos rfl]
    have hclassne : ∀ v, v ≠ v₀ → classList key (i :: l) v = classList key l v := by
      intro v hv
      rw [classList_cons, if_neg (fun h => hv (by rw [← h]))]
    have hcnt1 : 1 ≤ (classList key (i :: l) v₀).length := by rw [hclass0]; simp
    have hcv₀ : c v₀ = (classList key (i :: l) v₀).length := hc v₀
    have hstep : ∀ st : (Nat → Nat) × (Nat → Nat),
        (i :: l).foldl (fun (st : (Nat → Nat) × (Nat → Nat)) i =>
            (upd st.1 (key i) (st.1 (key i) - 1),
              upd st.2 (endOf (key i) - st.1 (key i)) i)) st =
          l.foldl (fun (st : (Nat → Nat) × (Nat → Nat)) i =>
            (upd st.1 (key i) (st.1 (key i) - 1),
              upd st.2 (endOf (key i) - st.1 (key i)) i))
            (upd st.1 (key i) (st.1 (key i) - 1),
              upd st.2 (endOf (key i) - st.1 (key i)) i) := by
      intro st
      rw [List.foldl_cons]
    set c' := upd c v₀ (c v₀ - 1) with hc'
    have hc'eq : ∀ v, c' v = (classList key l v).length := by
      intro v
      by_cases hv : v = v₀
      · subst hv
        rw [hc', upd_same, hcv₀, hclass0]
        simp
      · rw [hc', upd_ne _ _ hv, hc v, hclassne v hv]
    have hbound' : ∀ v, (classList key l v).length ≤ endOf v := by
      intro v
      by_cases hv : v = v₀
      · have hb := hbound v₀
        rw [hclass0, List.length_cons] at hb
        rw [hv]
        omega
      · rw [← hclassne v hv]
        exact hbound v
    have hdisj' : ∀ i' ∈ l, ∀ j' ∈ l, key i' ≠ key j' →
        endOf (key i') ≤ endOf (key j') - (classList key l (key j')).length ∨
        endOf (key j') ≤ endOf (key i') - (classList key l (key i')).length := by
      intro i' hi' j' hj' hne
      rcases hdisj i' (List.mem_cons_of_mem _ hi') j' (List.mem_cons_of_mem _ hj')
        hne with h | h
      · left
        have h1 : (classList key l (key j')).length ≤
            (classList key (i :: l) (key j')).length := by
          by_cases hv : key j' = v₀
          · rw [hv, hclass0]; simp
          · rw [hclassne _ hv]
        omega
      · right
        have h1 : (classList key l (key i')).length ≤
            (classList key (i :: l) (key i')).length := by
          by_cases hv : key i' = v₀
          · rw [hv, hclass0]; simp
          · rw [hclassne _ hv]
        omega
    set o' := upd o (endOf v₀ - c v₀) i with ho'
    obtain ⟨IH1, IH2⟩ := ih c' o' hc'eq hbound' hdisj'
    constructor
    · intro v r hr
      rw [hstep (c, o), ← hc', ← ho']
      by_cases hv : v = v₀
      · subst hv
        have hb := hbound v₀
        rw [hclass0] at hr hb ⊢
        match r with
        | 0 =>
          have hside : ∀ i' ∈ l,
              ¬(endOf (key i') - (classList key l (key i')).length ≤
                  endOf v₀ - (i :: classList key l v₀).length + 0 ∧
                endOf v₀ - (i :: classList key l v₀).length + 0 < endOf (key i')) := by
            intro i' hi'
            by_cases hk : key i' = v₀
            · rw [hk]
              have h1 : (classList key l v₀).length =
                  (i :: classList key l v₀).length - 1 := by simp
              simp only [List.length_cons] at hb ⊢
              omega
            · rcases hdisj i (List.mem_cons_self i l) i'
                  (List.mem_cons_of_mem _ hi')
                  (fun h => hk (by rw [← h, hv₀])) with h | h
              · rw [← hv₀, hclassne _ hk] at h
                simp only [List.length_cons] at hb ⊢
                omega
              · rw [← hv₀, hclass0] at h
                simp only [List.length_cons] at h hb ⊢
                omega
          have hout := IH2 _ hside
          rw [hout, ho']
          have hslot : endOf v₀ - (i :: classList key l v₀).length + 0 =
              endOf v₀ - c v₀ := by
            rw [hcv₀, hclass0]
            omega
          rw [hslot, upd_same]
          rfl
        | r + 1 =>
          simp only [List.length_cons] at hr hb
          have hidx : endOf v₀ - (i :: classList key l v₀).length + (r + 1) =
              endOf v₀ - (classList key l v₀).length + r := by
            simp only [List.length_cons]
            omega
          rw [hidx, IH1 v₀ r (by omega)]
          rfl
      · rw [hclassne v hv] at hr ⊢
        exact IH1 v r hr
    · intro s hs
      rw [hstep (c, o), ← hc', ← ho']
      have hside : ∀ i' ∈ l,
          ¬(endOf (key i') - (classList key l (key i')).length ≤ s ∧
            s < endOf (key i')) := by
        intro i' hi'
        have h1 := hs i' (List.mem_cons_of_mem _ hi')
        have h2 : (classList key l (key i')).length ≤
            (classList key (i :: l) (key i')).length := by
          by_cases hv : key i' = v₀
          · rw [hv, hclass0]; simp
          · rw [hclassne _ hv]
        omega
      have hout := IH2 s hside
      rw [hout, ho']
      have hne : s ≠ endOf v₀ - c v₀ := by
        have h1 := hs i (List.mem_cons_self i l)
        rw [← hv₀] at h1
        have hb := hbound v₀
        rw [hcv₀]
        omega
      exact upd_ne _ _ hne

theorem seedBase_succ (CTX : Nat) (seeds : List Nat) (v : Nat) :
    seedBase CTX seeds (v + 1) = seedBase CTX seeds v + seedCounts CTX seeds v := by
  unfold seedBase
  rw [List.range_succ, List.map_append, List.sum_append]
  simp

theorem seedBase_le (CTX : Nat) (seeds : List Nat) {c c' : Nat} (h : c ≤ c') :
    seedBase CTX seeds c ≤ seedBase CTX seeds c' := by
  induction h with
  | refl => exact le_rfl
  | step _ ih =>
    refine le_trans ih ?_
    rw [seedBase_succ]
    exact Nat.le_add_right _ _

/-- The whole truncated seed sequence is accounted for by the counts. -/
theorem seedBase_total (CTX : Nat) (seeds : List Nat) (k : Nat)
    (hkey : ∀ i, seedKey CTX seeds i < 1 <<< k) :
    seedBase CTX seeds (1 <<< k) = seeds.length - 124 * CTX := by
  unfold seedBase
  have h := classList_length_sum (seedKey CTX seeds)
    (List.range (seeds.length - 124 * CTX)) (1 <<< k) (fun i _ => hkey i)
  rw [List.length_range] at h
  rw [← h]
  congr 1
  apply List.map_congr_left
  intro v _
  exact seedCounts_eq CTX seeds v

theorem preSum_map_range (f : Nat → List Nat) (K c : Nat) (hc : c ≤ K) :
    preSum ((List.range K).map f) c =
      ((List.range c).map (fun v => (f v).length)).sum := by
  unfold preSum
  rw [← List.map_take, List.take_range, Nat.min_eq_left hc, List.map_map]
  rfl

theorem flatten_slice_one (L : List (List Nat)) (v : Nat) (hv : v < L.length) :
    (L.flatten.drop (preSum L v)).take (preSum L (v + 1) - preSum L v) = L[v] := by
  rw [flatten_slice L v 1, List.drop_eq_getElem_cons hv, List.take_succ_cons,
    List.take_zero, List.flatten_cons, List.flatten_nil, List.append_nil]

theorem preSum_seedGroups (CTX : Nat) (seeds : List Nat) (k v : Nat)
    (hv : v ≤ 1 <<< k) :
    preSum (seedGroups CTX seeds k) v = seedBase CTX seeds v := by
  unfold seedGroups
  rw [preSum_map_range _ _ _ hv]
  unfold seedBase
  congr 1
  apply List.map_congr_left
  intro v' _
  exact (seedCounts_eq CTX seeds v').symm

/-- The slot-level characterisation of the seeded scatter: class `v`
occupies the slots from `seedBase v` on, in ascending position order. -/
theorem seedScatter_slot (CTX : Nat) (seeds : List Nat) (k : Nat)
    (hkey : ∀ i, seedKey CTX seeds i < 1 <<< k) :
    ∀ v r, v < 1 <<< k →
      r < (classList (seedKey CTX seeds)
        (List.range (seeds.length - 124 * CTX)) v).length →
      seedScatterFn CTX seeds k (seedBase CTX seeds v + r) =
        (classList (seedKey CTX seeds)
          (List.range (seeds.length - 124 * CTX)) v).getD r 0 := by
  have hbound : ∀ v, (classList (seedKey CTX seeds)
      (List.range (seeds.length - 124 * CTX)) v).length ≤
      (fun s => seedToIdx CTX seeds k (s + 1)) v := by
    intro v
    show (classList (seedKey CTX seeds)
      (List.range (seeds.length - 124 * CTX)) v).length ≤
      seedToIdx CTX seeds k (v + 1)
    by_cases hv : v < 1 <<< k
    · rw [seedToIdx_eq CTX seeds k (v + 1) (by omega), seedBase_succ,
        ← seedCounts_eq]
      omega
    · rw [classList_eq_nil_of_ge (seedKey CTX seeds) _ hkey (by omega)]
      simp
  have hdisj : ∀ i ∈ List.range (seeds.length - 124 * CTX),
      ∀ j ∈ List.range (seeds.length - 124 * CTX),
      seedKey CTX seeds i ≠ seedKey CTX seeds j →
      (fun s => seedToIdx CTX seeds k (s + 1)) (seedKey CTX seeds i) ≤
          (fun s => seedToIdx CTX seeds k (s + 1)) (seedKey CTX seeds j) -
            (classList (seedKey CTX seeds)
              (List.range (seeds.length - 124 * CTX)) (seedKey CTX seeds j)).length ∨
        (fun s => seedToIdx CTX seeds k (s + 1)) (seedKey CTX seeds j) ≤
          (fun s => seedToIdx CTX seeds k (s + 1)) (seedKey CTX seeds i) -
            (classList (seedKey CTX seeds)
              (List.range (seeds.length - 124 * CTX)) (seedKey CTX seeds i)).length := by
    intro i _ j _ hne
    have hki := hkey i
    have hkj := hkey j
    show seedToIdx CTX seeds k (seedKey CTX seeds i + 1) ≤
        seedToIdx CTX seeds k (seedKey CTX seeds j + 1) - _ ∨
      seedToIdx CTX seeds k (seedKey CTX seeds j + 1) ≤
        seedToIdx CTX seeds k (seedKey CTX seeds i + 1) - _
    rw [seedToIdx_eq CTX seeds k (seedKey CTX seeds i + 1) (by omega),
      seedToIdx_eq CTX seeds k (seedKey CTX seeds j + 1) (by omega),
      ← seedCounts_eq, ← seedCounts_eq, seedBase_succ, seedBase_succ]
    rcases Nat.lt_or_ge (seedKey CTX seeds i) (seedKey CTX seeds j) with h | h
    · left
      have hle := seedBase_le CTX seeds
        (show seedKey CTX seeds i + 1 ≤ seedKey CTX seeds j by omega)
      rw [seedBase_succ] at hle
      omega
    · right
      have hlt : seedKey CTX seeds j < seedKey CTX seeds i := by omega
      have hle := seedBase_le CTX seeds
        (show seedKey CTX seeds j + 1 ≤ seedKey CTX seeds i by omega)
      rw [seedBase_succ] at hle
      omega
  obtain ⟨sf1, _⟩ := seedFold_spec (seedKey CTX seeds)
    (fun s => seedToIdx CTX seeds k (s + 1))
    (List.range (seeds.length - 124 * CTX)) (seedCounts CTX seeds) (fun _ => 0)
    (fun v => seedCounts_eq CTX seeds v) hbound hdisj
  intro v r hv hr
  have h' : seedScatterFn CTX seeds k
      (seedToIdx CTX seeds k (v + 1) -
        (classList (seedKey CTX seeds)
          (List.range (seeds.length - 124 * CTX)) v).length + r) =
      (classList (seedKey CTX seeds)
        (List.range (seeds.length - 124 * CTX)) v).getD r 0 := sf1 v r hr
  have he : seedToIdx CTX seeds k (v + 1) -
      (classList (seedKey CTX seeds)
        (List.range (seeds.length - 124 * CTX)) v).length =
      seedBase CTX seeds v := by
    rw [seedToIdx_eq CTX seeds k (v + 1) (by omega), seedBase_succ, ← seedCounts_eq]
    omega
  rw [he] at h'
  exact h'

/-- The scatter of the seeded path produces the concatenation of the seed
classes, each in ascending position order. -/
theorem seedScatterList_eq (CTX : Nat) (seeds : List Nat) (k : Nat)
    (hkey : ∀ i, seedKey CTX seeds i < 1 <<< k) :
    seedScatterList CTX seeds k = (seedGroups CTX seeds k).flatten := by
  have hmap : seedScatterList CTX seeds k =
      (List.range (seeds.length - 124 * CTX)).map (seedScatterFn CTX seeds k) := rfl
  have main : ∀ m, m ≤ 1 <<< k →
      (List.range' 0 (seedBase CTX seeds m)).map (seedScatterFn CTX seeds k) =
        ((seedGroups CTX seeds k).take m).flatten := by
    intro m
    induction m with
    | zero =>
      intro _
      simp [seedBase]
    | succ m ih =>
      intro hm
      have hmlt : m < 1 <<< k := by omega
      rw [seedBase_succ]
      have hsplit := List.range'_append 0 (seedBase CTX seeds m)
        (seedCounts CTX seeds m) 1
      simp only [Nat.one_mul, Nat.zero_add, Nat.mul_one] at hsplit
      rw [Nat.add_comm (seedBase CTX seeds m) (seedCounts CTX seeds m), ← hsplit,
        List.map_append, ih (by omega)]
      have hglen : (seedGroups CTX seeds k).length = 1 <<< k := by
        unfold seedGroups
        simp
      rw [List.take_succ,
        List.getElem?_eq_getElem (by omega : m < (seedGroups CTX seeds k).length)]
      simp only [Option.toList_some, List.flatten_append, List.flatten_cons,
        List.flatten_nil, List.append_nil]
      congr 1
      have hgm : (seedGroups CTX seeds k)[m] = classList (seedKey CTX seeds)
          (List.range (seeds.length - 124 * CTX)) m := by
        unfold seedGroups
        rw [List.getElem_map, List.getElem_range]
      rw [hgm]
      apply List.ext_getElem
      · simp [seedCounts_eq]
      · intro r h1 h2
        rw [List.getElem_map, List.getElem_range']
        have hr : r < (classList (seedKey CTX seeds)
            (List.range (seeds.length - 124 * CTX)) m).length := by
          rw [← seedCounts_eq]
          simpa using h1
        rw [Nat.one_mul, seedScatter_slot CTX seeds k hkey m r hmlt hr,
          List.getD_eq_getElem _ _ h2]
  have hfin := main (1 <<< k) le_rfl
  rw [seedBase_total CTX seeds k hkey] at hfin
  rw [hmap, List.range_eq_range', hfin, List.take_of_length_le]
  unfold seedGroups
  simp

theorem seedKey_lt_of_bounded (CTX : Nat) (seeds : List Nat) (k : Nat)
    (hseeds : ∀ s ∈ seeds, s < 2 ^ k) : ∀ i, seedKey CTX seeds i < 1 <<< k := by
  intro i
  rw [Nat.one_shiftLeft]
  unfold seedKey
  rcases Nat.lt_or_ge i (seeds.take (seeds.length - 124 * CTX)).length with h | h
  · rw [List.getD_eq_getElem _ _ h]
    exact hseeds _ (List.mem_of_mem_take (List.getElem_mem h))
  · rw [List.getD_eq_default _ _ h]
    exact Nat.two_pow_pos k

theorem getD_take_of_lt (l : List Nat) (n i : Nat) (h : i < n) :
    (l.take n).getD i 0 = l.getD i 0 := by
  rcases Nat.lt_or_ge i l.length with h' | h'
  · rw [List.getD_eq_getElem _ _ (by simp [Nat.lt_min]; omega),
      List.getD_eq_getElem _ _ h', List.getElem_take]
  · rw [List.getD_eq_default _ _ (by simp; omega), List.getD_eq_default _ _ h']

theorem flatten_getD (L : List (List Nat)) : ∀ c, c < L.length →
    ∀ r, r < (L.getD c []).length →
    L.flatten.getD (preSum L c + r) 0 = (L.getD c []).getD r 0 := by
  induction L with
  | nil =>
    intro c hc
    simp at hc
  | cons l L ih =>
    intro c hc r hr
    match c with
    | 0 =>
      rw [List.getD_cons_zero] at hr ⊢
      rw [preSum_zero, Nat.zero_add, List.flatten_cons, List.getD_append _ _ _ r hr]
    | c + 1 =>
      rw [List.getD_cons_succ] at hr ⊢
      have hps : preSum (l :: L) (c + 1) = l.length + preSum L c := by
        simp [preSum, List.take_succ_cons]
      rw [hps, List.flatten_cons, Nat.add_assoc,
        List.getD_append_right _ _ _ _ (Nat.le_add_right _ _),
        Nat.add_sub_cancel_left]
      exact ih c (by simpa using hc) r hr

/-- The seeded path's per-bucket slices are exactly the seed classes. -/
theorem seedSlice_eq (CTX : Nat) (seeds : List Nat) (k : Nat)
    (hkey : ∀ i, seedKey CTX seeds i < 1 <<< k) (v : Nat) (hv : v < 1 <<< k) :
    ((seedScatterList CTX seeds k).drop (seedToIdx CTX seeds k v)).take
        (seedToIdx CTX seeds k (v + 1) - seedToIdx CTX seeds k v) =
      classList (seedKey CTX seeds) (List.range (seeds.length - 124 * CTX)) v := by
  have hglen : (seedGroups CTX seeds k).length = 1 <<< k := by
    unfold seedGroups
    simp
  rw [seedScatterList_eq CTX seeds k hkey, seedToIdx_eq CTX seeds k v (by omega),
    seedToIdx_eq CTX seeds k (v + 1) (by omega),
    ← preSum_seedGroups CTX seeds k v (by omega),
    ← preSum_seedGroups CTX seeds k (v + 1) (by omega),
    flatten_slice_one _ v (by omega)]
  unfold seedGroups
  rw [List.getElem_map, List.getElem_range]

/-- The list produced by `sort` (the seeded path) permutes the valid
positions. -/
theorem sortSeedsList_perm (CTX : Nat) (seeds : List Nat) (k : Nat)
    (hkey : ∀ i, seedKey CTX seeds i < 1 <<< k) :
    (sortSeedsList CTX seeds k).Perm
      (List.range (seeds.length - 124 * CTX)) := by
  show (((List.range (1 <<< k)).map fun v =>
      stableSortBy (fun a b => simdCmp16 seeds CTX (a + 1) (b + 1))
        (((seedScatterList CTX seeds k).drop (seedToIdx CTX seeds k v)).take
          (seedToIdx CTX seeds k (v + 1) - seedToIdx CTX seeds k v))).flatten).Perm _
  refine (flatten_map_perm (List.range (1 <<< k)) _
    (fun v => classList (seedKey CTX seeds)
      (List.range (seeds.length - 124 * CTX)) v) ?_).trans
    (classList_flatten_perm (seedKey CTX seeds) _ (1 <<< k) (fun i _ => hkey i))
  intro v hv
  rw [seedSlice_eq CTX seeds k hkey v (List.mem_range.mp hv)]
  exact stableSortBy_perm _ _

/-! ## Bit-level facts about the SIMD comparators -/

theorem byteAt_lt (v i : Nat) : byteAt v i < 256 := Nat.mod_lt _ (by norm_num)

theorem byteAt_add_high (a c n i : Nat) (h : 8 * i + 8 ≤ n) :
    byteAt (a + c * 2 ^ n) i = byteAt a i := by
  unfold byteAt
  rw [Nat.shiftRight_eq_div_pow, Nat.shiftRight_eq_div_pow]
  have hn : c * 2 ^ n = c * 2 ^ (n - (8 * i + 8)) * 256 * 2 ^ (8 * i) := by
    rw [Nat.mul_assoc, Nat.mul_assoc]
    congr 1
    rw [show (256 : Nat) = 2 ^ 8 by norm_num, ← pow_add, ← pow_add]
    congr 1
    omega
  rw [hn, Nat.add_mul_div_right _ _ (pow_pos (by norm_num) _),
    Nat.add_mul_mod_self_right]

theorem byteAt_high (a c n : Nat) (ha : a < 2 ^ (8 * n)) (hc : c < 256) :
    byteAt (a + c * 2 ^ (8 * n)) n = c := by
  unfold byteAt
  rw [Nat.shiftRight_eq_div_pow, Nat.add_mul_div_right _ _ (pow_pos (by norm_num) _),
    Nat.div_eq_of_lt ha, Nat.zero_add, Nat.mod_eq_of_lt hc]

theorem packBytes_lt (g : Nat → Nat) (n : Nat) : packBytes g n < 2 ^ (8 * n) := by
  induction n with
  | zero => simp [packBytes]
  | succ n ih =>
    show packBytes g n + g n % 256 * 2 ^ (8 * n) < 2 ^ (8 * (n + 1))
    have h1 : packBytes g n + g n % 256 * 2 ^ (8 * n) <
        2 ^ (8 * n) + g n % 256 * 2 ^ (8 * n) := Nat.add_lt_add_right ih _
    have h2 : 2 ^ (8 * n) + g n % 256 * 2 ^ (8 * n) ≤ 2 ^ (8 * (n + 1)) := by
      have he : 2 ^ (8 * n) + g n % 256 * 2 ^ (8 * n) =
          (1 + g n % 256) * 2 ^ (8 * n) := by ring
      rw [he, show 8 * (n + 1) = 8 + 8 * n by ring, pow_add]
      exact Nat.mul_le_mul_right _ (by omega)
    omega

theorem byteAt_packBytes (g : Nat → Nat) (n i : Nat) (h : i < n) :
    byteAt (packBytes g n) i = g i % 256 := by
  induction n with
  | zero => omega
  | succ n ih =>
    show byteAt (packBytes g n + g n % 256 * 2 ^ (8 * n)) i = g i % 256
    rcases Nat.lt_or_ge i n with hin | hin
    · rw [byteAt_add_high _ _ _ _ (by omega)]
      exact ih hin
    · have hieq : i = n := by omega
      subst hieq
      exact byteAt_high _ _ _ (packBytes_lt g i) (Nat.mod_lt _ (by norm_num))

theorem testBit_add_high (a c n i : Nat) (h : i < n) :
    (a + c * 2 ^ n).testBit i = a.testBit i := by
  rw [Nat.testBit_to_div_mod, Nat.testBit_to_div_mod]
  have hn : c * 2 ^ n = c * 2 ^ (n - (i + 1)) * 2 * 2 ^ i := by
    rw [Nat.mul_assoc, Nat.mul_assoc]
    congr 1
    rw [← pow_succ', ← pow_add]
    congr 1
    omega
  rw [hn, Nat.add_mul_div_right _ _ (pow_pos (by norm_num) _),
    Nat.add_mul_mod_self_right]

theorem testBit_high (a c n : Nat) (ha : a < 2 ^ n) (hc : c < 2) :
    (a + c * 2 ^ n).testBit n = decide (c = 1) := by
  rw [Nat.testBit_to_div_mod, Nat.add_mul_div_right _ _ (pow_pos (by norm_num) _),
    Nat.div_eq_of_lt ha, Nat.zero_add, Nat.mod_eq_of_lt hc]

theorem packBits_lt (p : Nat → Bool) (n : Nat) : packBits p n < 2 ^ n := by
  induction n with
  | zero => simp [packBits]
  | succ n ih =>
    show packBits p n + (if p n then 2 ^ n else 0) < 2 ^ (n + 1)
    have h2 : 2 ^ (n + 1) = 2 ^ n * 2 := pow_succ 2 n
    split_ifs <;> omega

theorem testBit_packBits (p : Nat → Bool) (n i : Nat) (h : i < n) :
    (packBits p n).testBit i = p i := by
  induction n with
  | zero => omega
  | succ n ih =>
    show (packBits p n + (if p n then 2 ^ n else 0)).testBit i = p i
    have hif : (if p n then 2 ^ n else 0) = (if p n then 1 else 0) * 2 ^ n := by
      split_ifs <;> simp
    rw [hif]
    rcases Nat.lt_or_ge i n with hin | hin
    · rw [testBit_add_high _ _ _ _ hin]
      exact ih hin
    · have hieq : i = n := by omega
      subst hieq
      rw [testBit_high _ _ _ (packBits_lt p i) (by split_ifs <;> omega)]
      split_ifs with hp <;> simp [hp]

theorem movemask8_lt (v : Nat) : movemask8 v < 2 ^ 32 := packBits_lt _ 32

theorem movemask8_testBit (v i : Nat) (h : i < 32) :
    (movemask8 v).testBit i = decide (128 ≤ byteAt v i) := by
  unfold movemask8
  rw [testBit_packBits _ _ _ h]

theorem cmpeq8_byteAt (a b i : Nat) (h : i < 32) :
    byteAt (cmpeq8 a b) i = if byteAt a i = byteAt b i then 255 else 0 := by
  unfold cmpeq8
  rw [byteAt_packBytes _ _ _ h]
  split_ifs <;> rfl

theorem eqMask_testBit (a b i : Nat) (h : i < 32) :
    (movemask8 (cmpeq8 a b)).testBit i = decide (byteAt a i = byteAt b i) := by
  rw [movemask8_testBit _ _ h, cmpeq8_byteAt _ _ _ h]
  split_ifs with he <;> simp [he]

theorem neqMask_lt (a b : Nat) :
    movemask8 (cmpeq8 a b) ^^^ (2 ^ 32 - 1) < 2 ^ 32 :=
  Nat.xor_lt_two_pow (movemask8_lt _) (by norm_num)

theorem neqMask_testBit (a b i : Nat) (h : i < 32) :
    (movemask8 (cmpeq8 a b) ^^^ (2 ^ 32 - 1)).testBit i =
      decide (byteAt a i ≠ byteAt b i) := by
  rw [Nat.testBit_xor, Nat.testBit_two_pow_sub_one, eqMask_testBit _ _ _ h]
  by_cases he : byteAt a i = byteAt b i <;> simp [he, h]

theorem neqMask_eq_zero_iff (a b : Nat) :
    movemask8 (cmpeq8 a b) ^^^ (2 ^ 32 - 1) = 0 ↔
      ∀ i < 32, byteAt a i = byteAt b i := by
  constructor
  · intro h0 i hi
    have ht : (movemask8 (cmpeq8 a b) ^^^ (2 ^ 32 - 1)).testBit i = false := by
      rw [h0]
      exact Nat.zero_testBit i
    rw [neqMask_testBit _ _ _ hi] at ht
    simpa using ht
  · intro hall
    refine Nat.eq_of_testBit_eq fun i => ?_
    rw [Nat.zero_testBit]
    rcases Nat.lt_or_ge i 32 with hi | hi
    · rw [neqMask_testBit a b i hi]
      simpa using hall i hi
    · exact Nat.testBit_eq_false_of_lt
        (Nat.lt_of_lt_of_le (neqMask_lt a b) (Nat.pow_le_pow_right (by norm_num) hi))

theorem gtMask_testBit (a b i : Nat) (h : i < 32) :
    (movemask8 (cmpeq8 (maxEpu8 a b) a)).testBit i =
      decide (byteAt b i ≤ byteAt a i) := by
  rw [eqMask_testBit _ _ _ h]
  unfold maxEpu8
  rw [byteAt_packBytes _ _ _ h,
    Nat.mod_eq_of_lt (max_lt (byteAt_lt a i) (byteAt_lt b i))]
  by_cases hle : byteAt b i ≤ byteAt a i
  · simp [hle, max_eq_left hle]
  · have hlt : byteAt a i < byteAt b i := by omega
    simp [hle, max_eq_right (Nat.le_of_lt hlt)]
    omega

theorem mod_two_pow_eq_zero (m i : Nat) (h : ∀ j < i, m.testBit j = false) :
    m % 2 ^ i = 0 := by
  refine Nat.eq_of_testBit_eq fun j => ?_
  rw [Nat.zero_testBit, Nat.testBit_mod_two_pow]
  rcases Nat.lt_or_ge j i with hj | hj
  · simp [hj, h j hj]
  · simp [Nat.not_lt.mpr hj]

theorem two_pow_le_of_testBit (m i : Nat) (h : m.testBit i = true) : 2 ^ i ≤ m := by
  rw [Nat.testBit_to_div_mod] at h
  simp only [decide_eq_true_eq] at h
  have hd : 1 ≤ m / 2 ^ i := by
    rcases Nat.eq_zero_or_pos (m / 2 ^ i) with hz | hp
    · rw [hz] at h
      norm_num at h
    · exact hp
  calc 2 ^ i = 1 * 2 ^ i := (Nat.one_mul _).symm
    _ ≤ m / 2 ^ i * 2 ^ i := Nat.mul_le_mul_right _ hd
    _ ≤ m := Nat.div_mul_le_self m _

theorem shiftLeft_and_shiftLeft (x y i : Nat) :
    x <<< i &&& y <<< i = (x &&& y) <<< i := by
  refine Nat.eq_of_testBit_eq fun j => ?_
  rw [Nat.testBit_and, Nat.testBit_shiftLeft, Nat.testBit_shiftLeft,
    Nat.testBit_shiftLeft, Nat.testBit_and]
  rcases Nat.lt_or_ge j i with hj | hj
  · simp [Nat.not_le.mpr hj]
  · simp [Nat.le_of_lt_succ, hj]

theorem testBit_succ_of_even (x j : Nat) (hx : x % 2 = 0) (hj : 1 ≤ j) :
    (x + 1).testBit j = x.testBit j := by
  obtain ⟨j', rfl⟩ : ∃ j', j = j' + 1 := ⟨j - 1, by omega⟩
  rw [Nat.testBit_add_one, Nat.testBit_add_one]
  congr 1
  omega

theorem odd_and_compl (o s : Nat) (ho : o % 2 = 1) (hs : o < 2 ^ s) :
    o &&& (2 ^ s - o) = 1 := by
  have ho1 : 1 ≤ o := by omega
  have hs1 : 1 ≤ s := by
    rcases Nat.eq_zero_or_pos s with h0 | h1
    · rw [h0] at hs
      norm_num at hs
      omega
    · exact h1
  have hsub : 2 ^ s - o = 2 ^ s - ((o - 1) + 1) := by omega
  have hlt : o - 1 < 2 ^ s := by omega
  refine Nat.eq_of_testBit_eq fun j => ?_
  rw [Nat.testBit_and, hsub, Nat.testBit_two_pow_sub_succ hlt,
    show (1 : Nat) = 2 ^ 0 by norm_num, Nat.testBit_two_pow]
  rcases Nat.eq_zero_or_pos j with hj0 | hj1
  · subst hj0
    have hob : o.testBit 0 = true := by
      rw [Nat.testBit_to_div_mod]
      simpa using ho
    have hob' : (o - 1).testBit 0 = false := by
      rw [Nat.testBit_to_div_mod]
      simp
      omega
    simp only [hob, hob', Bool.true_and, Bool.and_true, Bool.not_false]
    simp
    omega
  · have hoeq : o.testBit j = (o - 1).testBit j := by
      have := testBit_succ_of_even (o - 1) j (by omega) hj1
      rw [show o - 1 + 1 = o by omega] at this
      exact this
    rw [hoeq]
    rcases hb : (o - 1).testBit j <;> simp [hb, show ¬(0 = j) by omega]

theorem lsb_and_neg (m i0 : Nat) (hm : m < 2 ^ 32)
    (hbit : m.testBit i0 = true) (hmin : ∀ j < i0, m.testBit j = false) :
    m &&& wrappingNeg32 m = 2 ^ i0 := by
  have hp : 0 < 2 ^ i0 := pow_pos (by norm_num) i0
  have h2i0 : 2 ^ i0 ≤ m := two_pow_le_of_testBit m i0 hbit
  have h0 : m ≠ 0 := by omega
  have hneg : wrappingNeg32 m = 2 ^ 32 - m := by
    unfold wrappingNeg32
    rw [Nat.mod_eq_of_lt hm, Nat.mod_eq_of_lt (by omega)]
  have hmod : m % 2 ^ i0 = 0 := mod_two_pow_eq_zero m i0 hmin
  set o := m >>> i0 with hodef
  have hm_eq : m = o <<< i0 := by
    rw [hodef, Nat.shiftRight_eq_div_pow, Nat.shiftLeft_eq]
    exact (Nat.div_mul_cancel (Nat.dvd_of_mod_eq_zero hmod)).symm
  have hi0le : i0 < 32 := by
    by_contra hcon
    have : 2 ^ 32 ≤ 2 ^ i0 := Nat.pow_le_pow_right (by norm_num) (by omega)
    omega
  have hodd : o % 2 = 1 := by
    have hob : o.testBit 0 = true := by
      rw [hodef, Nat.testBit_shiftRight]
      simpa using hbit
    rw [Nat.testBit_to_div_mod] at hob
    simpa using hob
  have holt : o < 2 ^ (32 - i0) := by
    rw [hodef, Nat.shiftRight_eq_div_pow]
    apply Nat.div_lt_of_lt_mul
    calc m < 2 ^ 32 := hm
      _ = 2 ^ i0 * 2 ^ (32 - i0) := by rw [← pow_add]; congr 1; omega
  have hsub : 2 ^ 32 - m = (2 ^ (32 - i0) - o) <<< i0 := by
    rw [hm_eq, Nat.shiftLeft_eq, Nat.shiftLeft_eq, Nat.sub_mul]
    congr 1
    rw [← pow_add]
    congr 1
    omega
  rw [hneg, hsub, hm_eq, shiftLeft_and_shiftLeft,
    odd_and_compl o (32 - i0) hodd holt, Nat.shiftLeft_eq, Nat.one_mul]

theorem bitLen32_foldl (m t : Nat) (hbit : m.testBit t = true)
    (hhi : ∀ j, t < j → m.testBit j = false) :
    ∀ n, t < n → (List.range n).foldl
      (fun acc i => if m.testBit i then i + 1 else acc) 0 = t + 1 := by
  intro n
  induction n with
  | zero => omega
  | succ n ih =>
    intro htn
    rw [List.range_succ, List.foldl_append]
    rcases Nat.lt_or_ge t n with hlt | hge
    · rw [ih hlt]
      simp [hhi n hlt]
    · have hteq : t = n := by omega
      subst hteq
      simp [hbit]

theorem msb_two_pow (m : Nat) (h0 : m ≠ 0) (hm : m < 2 ^ 32) :
    1 <<< (31 - leadingZeros32 m) = 2 ^ Nat.log2 m ∧
      m.testBit (Nat.log2 m) = true ∧
      ∀ j, Nat.log2 m < j → m.testBit j = false := by
  have hlog : Nat.log2 m < 32 := (Nat.log2_lt h0).mpr hm
  have htb : m.testBit (Nat.log2 m) = true := by
    rw [Nat.testBit_to_div_mod]
    have hle := Nat.log2_self_le h0
    have hlt := Nat.lt_log2_self (n := m)
    have hdiv : m / 2 ^ Nat.log2 m = 1 := by
      have h1 : 1 ≤ m / 2 ^ Nat.log2 m := by
        rw [Nat.le_div_iff_mul_le (pow_pos (by norm_num) _)]
        omega
      have h2 : m / 2 ^ Nat.log2 m < 2 := by
        rw [Nat.div_lt_iff_lt_mul (pow_pos (by norm_num) _)]
        rw [pow_succ] at hlt
        omega
      omega
    simp [hdiv]
  have hhi : ∀ j, Nat.log2 m < j → m.testBit j = false := by
    intro j hj
    refine Nat.testBit_eq_false_of_lt ?_
    calc m < 2 ^ (Nat.log2 m + 1) := Nat.lt_log2_self
      _ ≤ 2 ^ j := Nat.pow_le_pow_right (by norm_num) (by omega)
  refine ⟨?_, htb, hhi⟩
  have hbl : bitLen32 m = Nat.log2 m + 1 :=
    bitLen32_foldl m (Nat.log2 m) htb hhi 32 hlog
  unfold leadingZeros32
  rw [hbl, Nat.shiftLeft_eq, Nat.one_mul]
  congr 1
  omega

theorem two_pow_and_pos (x i : Nat) : 0 < 2 ^ i &&& x ↔ x.testBit i = true := by
  have hchar : 2 ^ i &&& x = if x.testBit i then 2 ^ i else 0 := by
    refine Nat.eq_of_testBit_eq fun j => ?_
    rw [Nat.testBit_and, Nat.testBit_two_pow]
    split_ifs with hx
    · rw [Nat.testBit_two_pow]
      rcases eq_or_ne i j with rfl | hne
      · simp [hx]
      · simp [hne]
    · rw [Nat.zero_testBit]
      rcases eq_or_ne i j with rfl | hne
      · simp [Bool.eq_false_iff.mpr hx]
      · simp [hne]
  rw [hchar]
  split_ifs with hx <;> simp [hx, pow_pos]

theorem testBit_byteAt (x i j : Nat) (hj : j < 8) :
    (byteAt x i).testBit j = x.testBit (8 * i + j) := by
  unfold byteAt
  rw [show (256 : Nat) = 2 ^ 8 by norm_num, Nat.testBit_mod_two_pow,
    Nat.testBit_shiftRight]
  simp [hj]

theorem byteAt_eq_zero_of_ge (x i : Nat) (hx : x < 2 ^ 256) (hi : 32 ≤ i) :
    byteAt x i = 0 := by
  unfold byteAt
  rw [Nat.shiftRight_eq_div_pow, Nat.div_eq_of_lt, Nat.zero_mod]
  exact Nat.lt_of_lt_of_le hx (Nat.pow_le_pow_right (by norm_num) (by omega))

theorem eq_of_byteAt_eq (a b : Nat) (ha : a < 2 ^ 256) (hb : b < 2 ^ 256)
    (h : ∀ i < 32, byteAt a i = byteAt b i) : a = b := by
  refine Nat.eq_of_testBit_eq fun i => ?_
  rcases Nat.lt_or_ge i 256 with hi | hi
  · have h8 : i / 8 < 32 := by omega
    have hm : i % 8 < 8 := Nat.mod_lt _ (by norm_num)
    have ha' := testBit_byteAt a (i / 8) (i % 8) hm
    have hb' := testBit_byteAt b (i / 8) (i % 8) hm
    rw [Nat.div_add_mod i 8] at ha' hb'
    rw [← ha', ← hb', h (i / 8) h8]
  · rw [Nat.testBit_eq_false_of_lt
        (Nat.lt_of_lt_of_le ha (Nat.pow_le_pow_right (by norm_num) hi)),
      Nat.testBit_eq_false_of_lt
        (Nat.lt_of_lt_of_le hb (Nat.pow_le_pow_right (by norm_num) hi))]

theorem shiftRight_byteAt (a s i : Nat) :
    byteAt (a >>> (8 * s)) i = byteAt a (s + i) := by
  unfold byteAt
  rw [← Nat.shiftRight_add]
  congr 2
  ring

theorem lt_of_byteAt_lt (a b i0 : Nat) (ha : a < 2 ^ 256) (hb : b < 2 ^ 256)
    (hlt : byteAt a i0 < byteAt b i0)
    (hhi : ∀ j, i0 < j → j < 32 → byteAt a j = byteAt b j) : a < b := by
  have hshle : ∀ (x : Nat) (s : Nat), x >>> s ≤ x := by
    intro x s
    rw [Nat.shiftRight_eq_div_pow]
    exact Nat.div_le_self _ _
  have hAB : a >>> (8 * (i0 + 1)) = b >>> (8 * (i0 + 1)) := by
    refine eq_of_byteAt_eq _ _ (Nat.lt_of_le_of_lt (hshle a _) ha)
      (Nat.lt_of_le_of_lt (hshle b _) hb) fun j hj => ?_
    rw [shiftRight_byteAt, shiftRight_byteAt]
    rcases Nat.lt_or_ge (i0 + 1 + j) 32 with hjj | hjj
    · exact hhi _ (by omega) hjj
    · rw [byteAt_eq_zero_of_ge a _ ha hjj, byteAt_eq_zero_of_ge b _ hb hjj]
  have hdec : ∀ x : Nat,
      x >>> (8 * i0) = 256 * (x >>> (8 * (i0 + 1))) + byteAt x i0 := by
    intro x
    have h1 : x >>> (8 * (i0 + 1)) = x >>> (8 * i0) / 256 := by
      rw [Nat.shiftRight_eq_div_pow, Nat.shiftRight_eq_div_pow,
        Nat.div_div_eq_div_mul, show (256 : Nat) = 2 ^ 8 by norm_num, ← pow_add]
      congr 2
    have h2 : byteAt x i0 = x >>> (8 * i0) % 256 := rfl
    rw [h1, h2]
    exact (Nat.div_add_mod _ 256).symm
  have hs : a >>> (8 * i0) < b >>> (8 * i0) := by
    rw [hdec a, hdec b, hAB]
    omega
  by_contra hcon
  push_neg at hcon
  have hmono : b >>> (8 * i0) ≤ a >>> (8 * i0) := by
    rw [Nat.shiftRight_eq_div_pow, Nat.shiftRight_eq_div_pow]
    exact Nat.div_le_div_right hcon
  omega

theorem cmpPack_eq_compare (a b : Nat) (ha : a < 2 ^ 256) (hb : b < 2 ^ 256) :
    cmpPack a b = compare a b := by
  show (if (movemask8 (cmpeq8 a b) ^^^ (2 ^ 32 - 1)) ≠ 0 then
      if 0 < (1 <<< (31 - leadingZeros32 (movemask8 (cmpeq8 a b) ^^^ (2 ^ 32 - 1)))) &&&
          movemask8 (cmpeq8 (maxEpu8 a b) a) then Ordering.gt else Ordering.lt
    else Ordering.eq) = compare a b
  by_cases h0 : movemask8 (cmpeq8 a b) ^^^ (2 ^ 32 - 1) = 0
  · rw [if_neg (not_not_intro h0)]
    have hab : a = b := eq_of_byteAt_eq a b ha hb ((neqMask_eq_zero_iff a b).mp h0)
    rw [hab]
    exact (Nat.compare_eq_eq.mpr rfl).symm
  · rw [if_pos h0]
    obtain ⟨hmsb, hbit, hhi⟩ := msb_two_pow _ h0 (neqMask_lt a b)
    have hi032 : Nat.log2 (movemask8 (cmpeq8 a b) ^^^ (2 ^ 32 - 1)) < 32 :=
      (Nat.log2_lt h0).mpr (neqMask_lt a b)
    have hne : byteAt a (Nat.log2 (movemask8 (cmpeq8 a b) ^^^ (2 ^ 32 - 1))) ≠
        byteAt b (Nat.log2 (movemask8 (cmpeq8 a b) ^^^ (2 ^ 32 - 1))) := by
      have ht := neqMask_testBit a b _ hi032
      rw [hbit] at ht
      simpa using ht.symm
    have hjeq : ∀ j, Nat.log2 (movemask8 (cmpeq8 a b) ^^^ (2 ^ 32 - 1)) < j →
        j < 32 → byteAt a j = byteAt b j := by
      intro j h1 h2
      have hf := hhi j h1
      rw [neqMask_testBit a b j h2] at hf
      simpa using hf
    rw [hmsb]
    set i0 := Nat.log2 (movemask8 (cmpeq8 a b) ^^^ (2 ^ 32 - 1)) with hi0def
    rcases Nat.lt_or_ge (byteAt b i0) (byteAt a i0) with hba | hba
    · rw [if_pos ((two_pow_and_pos _ i0).mpr
        (by rw [gtMask_testBit a b i0 hi032]; simpa using Nat.le_of_lt hba))]
      exact (Nat.compare_eq_gt.mpr (lt_of_byteAt_lt b a i0 hb ha hba
        (fun j h1 h2 => (hjeq j h1 h2).symm))).symm
    · have hab : byteAt a i0 < byteAt b i0 := by omega
      rw [if_neg (by
        intro hcon
        have := (two_pow_and_pos _ i0).mp hcon
        rw [gtMask_testBit a b i0 hi032] at this
        simp at this
        omega)]
      exact (Nat.compare_eq_lt.mpr (lt_of_byteAt_lt a b i0 ha hb hab hjeq)).symm

theorem byteAt_mod_two_pow_256 (a i : Nat) (h : i < 32) :
    byteAt (a % 2 ^ 256) i = byteAt a i := by
  refine Nat.eq_of_testBit_eq fun j => ?_
  rcases Nat.lt_or_ge j 8 with hj | hj
  · rw [testBit_byteAt _ _ _ hj, testBit_byteAt _ _ _ hj, Nat.testBit_mod_two_pow]
    have hlt : 8 * i + j < 256 := by omega
    simp [hlt]
  · have h256 : (256 : Nat) ≤ 2 ^ j := by
      calc (256 : Nat) = 2 ^ 8 := by norm_num
        _ ≤ 2 ^ j := Nat.pow_le_pow_right (by norm_num) hj
    rw [Nat.testBit_eq_false_of_lt (Nat.lt_of_lt_of_le (byteAt_lt _ _) h256),
      Nat.testBit_eq_false_of_lt (Nat.lt_of_lt_of_le (byteAt_lt _ _) h256)]

theorem packBytes_congr (g h : Nat → Nat) (n : Nat) (he : ∀ i < n, g i = h i) :
    packBytes g n = packBytes h n := by
  induction n with
  | zero => rfl
  | succ n ih =>
    show packBytes g n + g n % 256 * 2 ^ (8 * n) =
      packBytes h n + h n % 256 * 2 ^ (8 * n)
    rw [ih (fun i hi => he i (by omega)), he n (by omega)]

theorem cmpPack_congr (a b c d : Nat) (h1 : cmpeq8 a b = cmpeq8 c d)
    (h2 : cmpeq8 (maxEpu8 a b) a = cmpeq8 (maxEpu8 c d) c) :
    cmpPack a b = cmpPack c d := by
  show (if (movemask8 (cmpeq8 a b) ^^^ (2 ^ 32 - 1)) ≠ 0 then
      if 0 < (1 <<< (31 - leadingZeros32 (movemask8 (cmpeq8 a b) ^^^ (2 ^ 32 - 1)))) &&&
          movemask8 (cmpeq8 (maxEpu8 a b) a) then Ordering.gt else Ordering.lt
    else Ordering.eq) =
    (if (movemask8 (cmpeq8 c d) ^^^ (2 ^ 32 - 1)) ≠ 0 then
      if 0 < (1 <<< (31 - leadingZeros32 (movemask8 (cmpeq8 c d) ^^^ (2 ^ 32 - 1)))) &&&
          movemask8 (cmpeq8 (maxEpu8 c d) c) then Ordering.gt else Ordering.lt
    else Ordering.eq)
  rw [h1, h2]

theorem cmpPack_mod (a b : Nat) :
    cmpPack a b = compare (a % 2 ^ 256) (b % 2 ^ 256) := by
  have hmodlt : ∀ x : Nat, x % 2 ^ 256 < 2 ^ 256 :=
    fun x => Nat.mod_lt _ (by positivity)
  rw [← cmpPack_eq_compare _ _ (hmodlt a) (hmodlt b)]
  refine cmpPack_congr a b (a % 2 ^ 256) (b % 2 ^ 256) ?_ ?_
  · unfold cmpeq8
    refine packBytes_congr _ _ 32 fun i hi => ?_
    rw [byteAt_mod_two_pow_256 _ _ hi, byteAt_mod_two_pow_256 _ _ hi]
  · have hmax : maxEpu8 (a % 2 ^ 256) (b % 2 ^ 256) = maxEpu8 a b := by
      unfold maxEpu8
      refine packBytes_congr _ _ 32 fun i hi => ?_
      rw [byteAt_mod_two_pow_256 _ _ hi, byteAt_mod_two_pow_256 _ _ hi]
    rw [hmax]
    unfold cmpeq8
    refine packBytes_congr _ _ 32 fun i hi => ?_
    rw [byteAt_mod_two_pow_256 _ _ hi]
theorem lexCmpList_cons (x y : Nat) (xs ys : List Nat) :
    lexCmpList (x :: xs) (y :: ys) = (compare x y).then (lexCmpList xs ys) := rfl

theorem ordering_eq_then (o : Ordering) : Ordering.eq.then o = o := rfl

theorem ordering_then_assoc (o p q : Ordering) :
    (o.then p).then q = o.then (p.then q) := by
  cases o <;> rfl

theorem lexCmpList_eq_of_eq (f g : Nat → Nat) (n : Nat) (h : ∀ j < n, f j = g j) :
    lexCmpList ((List.range n).map f) ((List.range n).map g) = Ordering.eq := by
  induction n generalizing f g with
  | zero => rfl
  | succ n ih =>
    rw [List.range_succ_eq_map, List.map_cons, List.map_cons, List.map_map,
      List.map_map, lexCmpList_cons,
      show compare (f 0) (g 0) = Ordering.eq from
        Nat.compare_eq_eq.mpr (h 0 (by omega)), ordering_eq_then]
    exact ih _ _ (fun j hj => h (j + 1) (by omega))

theorem lexCmpList_firstDiff (f g : Nat → Nat) (n i0 : Nat) (hi0 : i0 < n)
    (hne : f i0 ≠ g i0) (hlow : ∀ j < i0, f j = g j) :
    lexCmpList ((List.range n).map f) ((List.range n).map g) =
      compare (f i0) (g i0) := by
  induction n generalizing f g i0 with
  | zero => omega
  | succ n ih =>
    rw [List.range_succ_eq_map, List.map_cons, List.map_cons, List.map_map,
      List.map_map, lexCmpList_cons]
    cases i0 with
    | zero =>
      have hcne : compare (f 0) (g 0) ≠ Ordering.eq :=
        fun hc => hne (Nat.compare_eq_eq.mp hc)
      cases hcmp : compare (f 0) (g 0) with
      | lt => rfl
      | eq => exact absurd hcmp hcne
      | gt => rfl
    | succ i =>
      rw [show compare (f 0) (g 0) = Ordering.eq from
          Nat.compare_eq_eq.mpr (hlow 0 (by omega)), ordering_eq_then]
      exact ih _ _ i (by omega) hne (fun j hj => hlow (j + 1) (by omega))

theorem lexCmpList_append (x y w z : List Nat) (h : x.length = y.length) :
    lexCmpList (x ++ w) (y ++ z) = (lexCmpList x y).then (lexCmpList w z) := by
  induction x generalizing y with
  | nil =>
    cases y with
    | nil => rfl
    | cons b bs => simp at h
  | cons a as ih =>
    cases y with
    | nil => simp at h
    | cons b bs =>
      simp only [List.cons_append, lexCmpList_cons]
      rw [ih bs (by simpa using h), ordering_then_assoc]

theorem cmpBytes32_eq_lex (a b : Nat) :
    cmpBytes32 a b = lexCmpList ((List.range 32).map (byteAt a))
      ((List.range 32).map (byteAt b)) := by
  show (if (movemask8 (cmpeq8 a b) ^^^ (2 ^ 32 - 1)) ≠ 0 then
      if 0 < ((movemask8 (cmpeq8 a b) ^^^ (2 ^ 32 - 1)) &&&
            wrappingNeg32 (movemask8 (cmpeq8 a b) ^^^ (2 ^ 32 - 1))) &&&
          movemask8 (cmpeq8 (maxEpu8 a b) a) then Ordering.gt else Ordering.lt
    else Ordering.eq) = _
  by_cases h0 : movemask8 (cmpeq8 a b) ^^^ (2 ^ 32 - 1) = 0
  · rw [if_neg (not_not_intro h0)]
    exact (lexCmpList_eq_of_eq _ _ 32 ((neqMask_eq_zero_iff a b).mp h0)).symm
  · rw [if_pos h0]
    have hex : ∃ i, (movemask8 (cmpeq8 a b) ^^^ (2 ^ 32 - 1)).testBit i = true := by
      by_contra hcon
      push_neg at hcon
      refine h0 (Nat.eq_of_testBit_eq fun i => ?_)
      rw [Nat.zero_testBit]
      rcases hcase : (movemask8 (cmpeq8 a b) ^^^ (2 ^ 32 - 1)).testBit i
      · exact hcase
      · exact absurd hcase (hcon i)
    have hbit : (movemask8 (cmpeq8 a b) ^^^ (2 ^ 32 - 1)).testBit (Nat.find hex) =
        true := Nat.find_spec hex
    have hmin : ∀ j < Nat.find hex,
        (movemask8 (cmpeq8 a b) ^^^ (2 ^ 32 - 1)).testBit j = false := by
      intro j hj
      rcases hcase : (movemask8 (cmpeq8 a b) ^^^ (2 ^ 32 - 1)).testBit j
      · exact hcase
      · exact absurd hcase (Nat.find_min hex hj)
    have hi032 : Nat.find hex < 32 := by
      by_contra hcon
      rw [Nat.testBit_eq_false_of_lt (Nat.lt_of_lt_of_le (neqMask_lt a b)
        (Nat.pow_le_pow_right (by norm_num) (by omega)))] at hbit
      exact Bool.false_ne_true hbit
    have hlsb := lsb_and_neg _ (Nat.find hex) (neqMask_lt a b) hbit hmin
    rw [hlsb]
    have hnei0 : byteAt a (Nat.find hex) ≠ byteAt b (Nat.find hex) := by
      have ht := neqMask_testBit a b _ hi032
      rw [hbit] at ht
      simpa using ht.symm
    have hlow : ∀ j < Nat.find hex, byteAt a j = byteAt b j := by
      intro j hj
      have ht := neqMask_testBit a b j (by omega)
      rw [hmin j hj] at ht
      simpa using ht.symm
    rw [lexCmpList_firstDiff (byteAt a) (byteAt b) 32 (Nat.find hex) hi032 hnei0 hlow]
    rcases Nat.lt_or_ge (byteAt b (Nat.find hex)) (byteAt a (Nat.find hex)) with hba | hba
    · rw [if_pos ((two_pow_and_pos _ (Nat.find hex)).mpr
        (by rw [gtMask_testBit a b _ hi032]; simpa using Nat.le_of_lt hba))]
      exact (Nat.compare_eq_gt.mpr hba).symm
    · have hab : byteAt a (Nat.find hex) < byteAt b (Nat.find hex) := by omega
      rw [if_neg (by
        intro hcon
        have hcc := (two_pow_and_pos _ (Nat.find hex)).mp hcon
        rw [gtMask_testBit a b _ hi032] at hcc
        have hcc' : byteAt b (Nat.find hex) ≤ byteAt a (Nat.find hex) :=
          of_decide_eq_true hcc
        omega)]
      exact (Nat.compare_eq_lt.mpr hab).symm

theorem byteAt_loadBytes32 (bytes : List Nat) (p i : Nat) (h : i < 32) :
    byteAt (loadBytes32 bytes p) i = bytes.getD (p + i) 0 % 256 := by
  unfold loadBytes32
  rw [byteAt_packBytes _ _ _ h]

theorem getD_lt_256 (bytes : List Nat) (hb : ∀ x ∈ bytes, x < 256) (i : Nat) :
    bytes.getD i 0 < 256 := by
  rcases Nat.lt_or_ge i bytes.length with hi | hi
  · rw [List.getD_eq_getElem _ _ hi]
    exact hb _ (List.getElem_mem hi)
  · rw [List.getD_eq_default _ _ hi]
    norm_num

theorem simdCmpBytesGo_succ (bytes : List Nat) (n aI bI : Nat) :
    simdCmpBytesGo bytes (n + 1) aI bI =
      (cmpBytes32 (loadBytes32 bytes aI) (loadBytes32 bytes bI)).then
        (simdCmpBytesGo bytes n (aI + 32) (bI + 32)) := by
  simp only [simdCmpBytesGo]
  rcases hc : cmpBytes32 (loadBytes32 bytes aI) (loadBytes32 bytes bI) <;> rfl

theorem simdCmpBytesGo_eq_lex (bytes : List Nat) (hb : ∀ x ∈ bytes, x < 256) :
    ∀ (n aI bI : Nat),
      simdCmpBytesGo bytes n aI bI =
        lexCmpList ((List.range (32 * n)).map fun r => bytes.getD (aI + r) 0)
          ((List.range (32 * n)).map fun r => bytes.getD (bI + r) 0) := by
  intro n
  induction n with
  | zero => intro aI bI; rfl
  | succ n ih =>
    intro aI bI
    have hshift : ∀ c : Nat,
        ((List.range (32 * n)).map (fun x => 32 + x)).map
            (fun r => bytes.getD (c + r) 0) =
          (List.range (32 * n)).map (fun r => bytes.getD (c + 32 + r) 0) := by
      intro c
      rw [List.map_map]
      refine List.map_congr_left fun r hr => ?_
      show bytes.getD (c + (32 + r)) 0 = bytes.getD (c + 32 + r) 0
      congr 1
      omega
    rw [show 32 * (n + 1) = 32 + 32 * n by ring, List.range_add, List.map_append,
      List.map_append, hshift aI, hshift bI,
      lexCmpList_append _ _ _ _ (by simp), simdCmpBytesGo_succ,
      ih (aI + 32) (bI + 32)]
    congr 1
    rw [cmpBytes32_eq_lex]
    congr 1 <;> refine List.map_congr_left fun r hr => ?_
    · rw [byteAt_loadBytes32 _ _ _ (List.mem_range.mp hr),
        Nat.mod_eq_of_lt (getD_lt_256 bytes hb _)]
    · rw [byteAt_loadBytes32 _ _ _ (List.mem_range.mp hr),
        Nat.mod_eq_of_lt (getD_lt_256 bytes hb _)]

theorem mod_two_pow_shiftRight (x a c : Nat) (h : c ≤ a) :
    (x % 2 ^ a) >>> c = (x >>> c) % 2 ^ (a - c) := by
  rw [Nat.shiftRight_eq_div_pow, Nat.shiftRight_eq_div_pow,
    show (2 : Nat) ^ a = 2 ^ c * 2 ^ (a - c) by rw [← pow_add]; congr 1; omega,
    Nat.mod_mul_right_div_self]

theorem shiftLeft_shiftRight_of_le (x s t : Nat) (h : s ≤ t) :
    (x <<< s) >>> t = x >>> (t - s) := by
  rw [Nat.shiftLeft_eq, Nat.shiftRight_eq_div_pow, Nat.shiftRight_eq_div_pow,
    show (2 : Nat) ^ t = 2 ^ s * 2 ^ (t - s) by rw [← pow_add]; congr 1; omega,
    Nat.mul_comm x (2 ^ s), Nat.mul_div_mul_left _ _ (pow_pos (by norm_num) s)]

/-- The closed form of `load_k`: for an in-range position and `k ≤ 13` (so
that the `u32` left-shift by `(3 - j) * 2` never exceeds the right-shift by
`(16 - k) * 2`), `load_k` reads the `2 * k` bits of the packed buffer that
hold the `k` bases starting at `idx`. -/
theorem loadK_spec (p : RevPacked) (idx k : Nat) (h : idx + 16 ≤ p.len)
    (hk : k ≤ 13) :
    p.loadK idx k = (p.data >>> (2 * (p.len - idx - k))) % 2 ^ (2 * k) := by
  show ((((p.data >>> (8 * (((p.len - idx - 16) + 3) / 4))) % 2 ^ 32) <<<
      ((3 - ((p.len - idx - 16) + 3) % 4) * 2)) % 2 ^ 32) >>> ((16 - k) * 2) = _
  have hq := Nat.div_add_mod ((p.len - idx - 16) + 3) 4
  have hj : ((p.len - idx - 16) + 3) % 4 < 4 := Nat.mod_lt _ (by norm_num)
  set i := ((p.len - idx - 16) + 3) / 4 with hidef
  set j := ((p.len - idx - 16) + 3) % 4 with hjdef
  set s := (3 - j) * 2 with hsdef
  set t := (16 - k) * 2 with htdef
  have hs6 : s ≤ 6 := by omega
  have hts : s ≤ t := by omega
  have h8i : 8 * i + 2 * j = 2 * (p.len - idx - 16) + 6 := by omega
  rw [mod_two_pow_shiftRight _ 32 t (by omega),
    shiftLeft_shiftRight_of_le _ s t hts,
    mod_two_pow_shiftRight _ 32 (t - s) (by omega), ← Nat.shiftRight_add,
    Nat.mod_mod_of_dvd _ (Nat.pow_dvd_pow 2 (by omega : 32 - t ≤ 32 - (t - s)))]
  have hsh : 8 * i + (t - s) = 2 * (p.len - idx - k) := by omega
  have hex : 32 - t = 2 * k := by omega
  rw [hsh, hex]

theorem mod64_testBit_ge (x i : Nat) (h : 64 ≤ i) :
    (x % 2 ^ 64).testBit i = false := by
  rw [Nat.testBit_mod_two_pow]
  simp [Nat.not_lt.mpr h]

theorem testBit_lane (v l i : Nat) :
    (lane v l).testBit i = if i < 64 then v.testBit (64 * l + i) else false := by
  unfold lane
  rw [Nat.testBit_mod_two_pow, Nat.testBit_shiftRight]
  split_ifs with hi <;> simp [hi]

theorem testBit_ofLanes (a b c d i : Nat) :
    (ofLanes a b c d).testBit i =
      if i < 64 then (a % 2 ^ 64).testBit i
      else if i < 128 then (b % 2 ^ 64).testBit (i - 64)
      else if i < 192 then (c % 2 ^ 64).testBit (i - 128)
      else if i < 256 then (d % 2 ^ 64).testBit (i - 192)
      else false := by
  unfold ofLanes
  rw [Nat.testBit_or, Nat.testBit_or, Nat.testBit_or, Nat.testBit_shiftLeft,
    Nat.testBit_shiftLeft, Nat.testBit_shiftLeft]
  split_ifs with h1 h2 h3 h4
  · simp [show ¬(i ≥ 64) by omega, show ¬(i ≥ 128) by omega,
      show ¬(i ≥ 192) by omega]
  · rw [mod64_testBit_ge a i (by omega)]
    simp [show i ≥ 64 by omega, show ¬(i ≥ 128) by omega,
      show ¬(i ≥ 192) by omega]
  · rw [mod64_testBit_ge a i (by omega), mod64_testBit_ge b (i - 64) (by omega)]
    simp [show i ≥ 64 by omega, show i ≥ 128 by omega,
      show ¬(i ≥ 192) by omega]
  · rw [mod64_testBit_ge a i (by omega), mod64_testBit_ge b (i - 64) (by omega),
      mod64_testBit_ge c (i - 128) (by omega)]
    simp [show i ≥ 64 by omega, show i ≥ 128 by omega, show i ≥ 192 by omega]
  · rw [mod64_testBit_ge a i (by omega), mod64_testBit_ge b (i - 64) (by omega),
      mod64_testBit_ge c (i - 128) (by omega),
      mod64_testBit_ge d (i - 192) (by omega)]
    simp [show i ≥ 64 by omega, show i ≥ 128 by omega, show i ≥ 192 by omega]

theorem testBit_sllv64 (v s t : Nat) (hs : s < 64) (ht : t < 256) :
    (sllv64 v s).testBit t = (decide (s ≤ t % 64) && v.testBit (t - s)) := by
  unfold sllv64
  rw [testBit_ofLanes]
  have hkey : ∀ l : Nat, t / 64 = l → t - 64 * l < 64 →
      ((lane v l <<< s) % 2 ^ 64).testBit (t - 64 * l) =
        (decide (s ≤ t % 64) && v.testBit (t - s)) := by
    intro l hl hr
    rw [Nat.testBit_mod_two_pow, Nat.testBit_shiftLeft, testBit_lane]
    have hmod : t % 64 = t - 64 * l := by omega
    by_cases hsr : s ≤ t % 64
    · have h1 : t - 64 * l - s < 64 := by omega
      have h2 : 64 * l + (t - 64 * l - s) = t - s := by omega
      simp [hr, hmod, hsr, h1, h2, show t - 64 * l ≥ s by omega]
    · simp [hr, hmod, show ¬(t - 64 * l ≥ s) by omega, hsr]
  split_ifs with h1 h2 h3 h4
  · have hx := hkey 0 (by omega) (by omega)
    simpa using hx
  · have hx := hkey 1 (by omega) (by omega)
    simpa using hx
  · have hx := hkey 2 (by omega) (by omega)
    simpa using hx
  · have hx := hkey 3 (by omega) (by omega)
    simpa using hx
  all_goals omega

theorem testBit_permHi (v i : Nat) (h64 : 64 ≤ i) (h256 : i < 256) :
    (permuteHiLanes v).testBit i = v.testBit (i - 64) := by
  unfold permuteHiLanes
  rw [testBit_ofLanes, if_neg (by omega)]
  split_ifs with h2 h3 h4
  · rw [Nat.testBit_mod_two_pow, testBit_lane,
      if_pos (by omega : i - 64 < 64)]
    have hidx : 64 * 0 + (i - 64) = i - 64 := by omega
    simp [show i - 64 < 64 by omega, hidx]
  · rw [Nat.testBit_mod_two_pow, testBit_lane,
      if_pos (by omega : i - 128 < 64)]
    have hidx : 64 * 1 + (i - 128) = i - 64 := by omega
    simp [show i - 128 < 64 by omega, hidx]
  · rw [Nat.testBit_mod_two_pow, testBit_lane,
      if_pos (by omega : i - 192 < 64)]
    have hidx : 64 * 2 + (i - 192) = i - 64 := by omega
    simp [show i - 192 < 64 by omega, hidx]
  all_goals omega

theorem testBit_srlv64_perm (v s t : Nat) (hs : s ≤ 6) (ht8 : 8 ≤ t)
    (ht : t < 256) :
    (srlv64 (permuteHiLanes v) (64 - s)).testBit t =
      (decide (t % 64 < s) && v.testBit (t - s)) := by
  unfold srlv64
  rw [testBit_ofLanes]
  have hkey : ∀ l : Nat, t / 64 = l → t - 64 * l < 64 →
      ((lane (permuteHiLanes v) l >>> (64 - s)) % 2 ^ 64).testBit (t - 64 * l) =
        (decide (t % 64 < s) && v.testBit (t - s)) := by
    intro l hl hr
    rw [Nat.testBit_mod_two_pow, Nat.testBit_shiftRight, testBit_lane]
    have hmod : t % 64 = t - 64 * l := by omega
    by_cases hrs : t % 64 < s
    · have hin : 64 - s + (t - 64 * l) < 64 := by omega
      rw [if_pos hin]
      have hge : 64 ≤ 64 * l + (64 - s + (t - 64 * l)) := by omega
      have hlt : 64 * l + (64 - s + (t - 64 * l)) < 256 := by omega
      rw [testBit_permHi _ _ hge hlt,
        show 64 * l + (64 - s + (t - 64 * l)) - 64 = t - s by omega]
      simp [hr, hrs]
    · have hout : ¬(64 - s + (t - 64 * l) < 64) := by omega
      rw [if_neg hout]
      simp [hr, hrs]
  split_ifs with h1 h2 h3 h4
  · -- t < 64: the incoming lane is source lane 3 shifted out; within this
    -- lane t % 64 = t ≥ 8 > s, so the result bit is false on both sides
    rw [Nat.testBit_mod_two_pow, Nat.testBit_shiftRight, testBit_lane]
    have hge : ¬(64 - s + t < 64) := by omega
    simp [h1, hge, show ¬(t % 64 < s) by omega]
  · have hx := hkey 1 (by omega) (by omega)
    simpa using hx
  · have hx := hkey 2 (by omega) (by omega)
    simpa using hx
  · have hx := hkey 3 (by omega) (by omega)
    simpa using hx
  all_goals omega
theorem testBit_loMask (i : Nat) :
    loMask.testBit i = decide (8 ≤ i ∧ i < 256) := by
  unfold loMask
  rw [Nat.testBit_shiftLeft, Nat.testBit_two_pow_sub_one]
  by_cases h8 : 8 ≤ i
  · by_cases h256 : i < 256
    · simp [h8, h256, show i - 8 < 248 by omega]
    · simp [h8, h256, show ¬(i - 8 < 248) by omega]
  · simp [h8]

theorem hiLo_testBit (val s t : Nat) (hs : s ≤ 6) (hs2 : s % 2 = 0)
    (ht8 : 8 ≤ t) (ht : t < 256) :
    (sllv64 val s ||| srlv64 (permuteHiLanes val) ((32 - (3 - (3 - s / 2))) * 2)).testBit t =
      val.testBit (t - s) := by
  have hsh : (32 - (3 - (3 - s / 2))) * 2 = 64 - s := by omega
  rw [hsh, Nat.testBit_or, testBit_sllv64 _ _ _ (by omega) ht,
    testBit_srlv64_perm _ _ _ hs ht8 ht]
  by_cases hr : s ≤ t % 64
  · simp [hr, show ¬(t % 64 < s) by omega]
  · simp [hr, show t % 64 < s by omega]

/-- The closed form of `load_124`: for an in-range position, the returned
vector holds the `248` bits (124 bases) starting at `idx`, shifted up one
byte (byte 0 of the result is zeroed by the mask). -/
theorem load124_spec (p : RevPacked) (idx : Nat) (h : idx + 128 ≤ p.len) :
    p.load124 idx = ((p.data >>> (2 * (p.len - idx - 124))) % 2 ^ 248) <<< 8 := by
  show ((sllv64 ((p.data >>> (8 * (((p.len - idx - 128) + 3) / 4))) % 2 ^ 256)
        ((3 - ((p.len - idx - 128) + 3) % 4) * 2) |||
      srlv64 (permuteHiLanes ((p.data >>> (8 * (((p.len - idx - 128) + 3) / 4))) % 2 ^ 256))
        ((32 - (3 - ((p.len - idx - 128) + 3) % 4)) * 2)) &&& loMask) = _
  have hq := Nat.div_add_mod ((p.len - idx - 128) + 3) 4
  have hj : ((p.len - idx - 128) + 3) % 4 < 4 := Nat.mod_lt _ (by norm_num)
  set i := ((p.len - idx - 128) + 3) / 4 with hidef
  set j := ((p.len - idx - 128) + 3) % 4 with hjdef
  set val := (p.data >>> (8 * i)) % 2 ^ 256 with hvaldef
  have hsval : (3 - j) * 2 = 6 - 2 * j := by omega
  have hperm : (32 - (3 - j)) * 2 = (32 - (3 - (3 - (6 - 2 * j) / 2))) * 2 := by
    omega
  refine Nat.eq_of_testBit_eq fun t => ?_
  rw [Nat.testBit_and, testBit_loMask, Nat.testBit_shiftLeft]
  rcases Nat.lt_or_ge t 8 with ht8 | ht8
  · simp [show ¬(8 ≤ t ∧ t < 256) by omega, show ¬(t ≥ 8) by omega]
  · rcases Nat.lt_or_ge t 256 with ht256 | ht256
    · rw [hsval, hperm,
        hiLo_testBit val (6 - 2 * j) t (by omega) (by omega) ht8 ht256]
      rw [hvaldef, Nat.testBit_mod_two_pow, Nat.testBit_shiftRight,
        Nat.testBit_mod_two_pow, Nat.testBit_shiftRight]
      have hidx : 8 * i + (t - (6 - 2 * j)) =
          2 * (p.len - idx - 124) + (t - 8) := by omega
      have htlt : t - (6 - 2 * j) < 256 := by omega
      have htlt2 : t - 8 < 248 := by omega
      simp [htlt, htlt2, ht8, ht256, hidx]
    · rw [hsval, hperm]
      have hfr : ((p.data >>> (2 * (p.len - idx - 124))) % 2 ^ 248).testBit
          (t - 8) = false := by
        rw [Nat.testBit_mod_two_pow]
        simp [show ¬(t - 8 < 248) by omega]
      rw [hfr]
      simp [show ¬(8 ≤ t ∧ t < 256) by omega]

/-! ## Order-theoretic facts about the packed comparators -/

theorem lt_then (o : Ordering) : Ordering.lt.then o = Ordering.lt := rfl

theorem gt_then (o : Ordering) : Ordering.gt.then o = Ordering.gt := rfl

theorem lexCmpList_swap : ∀ (as bs : List Nat),
    lexCmpList as bs = (lexCmpList bs as).swap
  | [], [] => rfl
  | [], _ :: _ => rfl
  | _ :: _, [] => rfl
  | a :: as, b :: bs => by
    rw [lexCmpList_cons, lexCmpList_cons, Ordering.swap_then, Nat.compare_swap,
      lexCmpList_swap as bs]

theorem lexCmpList_self (l : List Nat) : lexCmpList l l = Ordering.eq := by
  have h := lexCmpList_swap l l
  rcases ho : lexCmpList l l
  · rw [ho] at h
    exact absurd h (by decide)
  · rfl
  · rw [ho] at h
    exact absurd h (by decide)

theorem lexCmpList_eq_means_eq : ∀ (as bs : List Nat), as.length = bs.length →
    lexCmpList as bs = Ordering.eq → as = bs
  | [], [], _, _ => rfl
  | a :: as, b :: bs, hlen, heq => by
    rw [lexCmpList_cons] at heq
    obtain ⟨h1, h2⟩ := Ordering.then_eq_eq.mp heq
    rw [Nat.compare_eq_eq.mp h1,
      lexCmpList_eq_means_eq as bs (by simpa using hlen) h2]
  | [], _ :: _, hlen, _ => by simp at hlen
  | _ :: _, [], hlen, _ => by simp at hlen

theorem lexCmpList_trans : ∀ (as bs cs : List Nat), as.length = bs.length →
    bs.length = cs.length → lexCmpList as bs ≠ Ordering.gt →
    lexCmpList bs cs ≠ Ordering.gt → lexCmpList as cs ≠ Ordering.gt
  | [], [], [], _, _, _, _ => by
    simp [lexCmpList]
  | [], [], _ :: _, _, h2, _, _ => by simp at h2
  | [], _ :: _, _, h1, _, _, _ => by simp at h1
  | _ :: _, [], _, h1, _, _, _ => by simp at h1
  | _ :: _, _ :: _, [], _, h2, _, _ => by simp at h2
  | a :: as, b :: bs, c :: cs, h1, h2, hab, hbc => by
    rw [lexCmpList_cons] at hab hbc ⊢
    rcases hxy : compare a b with _ | _ | _ <;> rw [hxy] at hab
    · rcases hyz : compare b c with _ | _ | _ <;> rw [hyz] at hbc
      · rw [Nat.compare_eq_lt.mpr
          (Nat.lt_trans (Nat.compare_eq_lt.mp hxy) (Nat.compare_eq_lt.mp hyz)),
          lt_then]
        decide
      · rw [← Nat.compare_eq_eq.mp hyz, hxy, lt_then]
        decide
      · rw [gt_then] at hbc
        exact absurd rfl hbc
    · rw [Nat.compare_eq_eq.mp hxy]
      rw [ordering_eq_then] at hab
      rcases hyz : compare b c with _ | _ | _ <;> rw [hyz] at hbc
      · rw [lt_then]
        decide
      · rw [ordering_eq_then] at hbc
        rw [ordering_eq_then]
        exact lexCmpList_trans as bs cs (by simpa using h1) (by simpa using h2)
          hab hbc
      · rw [gt_then] at hbc
        exact absurd rfl hbc
    · rw [gt_then] at hab
      exact absurd rfl hab

theorem then_compare_ne_gt_trans (w1 w2 w3 : List Nat) (i1 i2 i3 : Nat)
    (hl1 : w1.length = w2.length) (hl2 : w2.length = w3.length)
    (h1 : (lexCmpList w1 w2).then (compare i1 i2) ≠ Ordering.gt)
    (h2 : (lexCmpList w2 w3).then (compare i2 i3) ≠ Ordering.gt) :
    (lexCmpList w1 w3).then (compare i1 i3) ≠ Ordering.gt := by
  have hL1 : lexCmpList w1 w2 ≠ Ordering.gt := by
    intro hcon
    rw [hcon, gt_then] at h1
    exact h1 rfl
  have hL2 : lexCmpList w2 w3 ≠ Ordering.gt := by
    intro hcon
    rw [hcon, gt_then] at h2
    exact h2 rfl
  have hL3 := lexCmpList_trans w1 w2 w3 hl1 hl2 hL1 hL2
  rcases hc3 : lexCmpList w1 w3 with _ | _ | _
  · rw [lt_then]
    decide
  · have hw13 : w1 = w3 := lexCmpList_eq_means_eq w1 w3 (by omega) hc3
    rcases hc1 : lexCmpList w1 w2 with _ | _ | _
    · exfalso
      apply hL2
      rw [← hw13, lexCmpList_swap w2 w1, hc1]
      rfl
    · have hi12 : compare i1 i2 ≠ Ordering.gt := by
        rw [hc1, ordering_eq_then] at h1
        exact h1
      have hw12 : w1 = w2 := lexCmpList_eq_means_eq w1 w2 hl1 hc1
      have hc2 : lexCmpList w2 w3 = Ordering.eq := by
        rw [← hw12, hw13, lexCmpList_self]
      have hi23 : compare i2 i3 ≠ Ordering.gt := by
        rw [hc2, ordering_eq_then] at h2
        exact h2
      rw [ordering_eq_then]
      have h12 : i1 ≤ i2 := by
        rcases Nat.lt_or_ge i2 i1 with h | h
        · exact absurd (Nat.compare_eq_gt.mpr h) hi12
        · omega
      have h23 : i2 ≤ i3 := by
        rcases Nat.lt_or_ge i3 i2 with h | h
        · exact absurd (Nat.compare_eq_gt.mpr h) hi23
        · omega
      intro hcon
      have := Nat.compare_eq_gt.mp hcon
      omega
    · exact absurd hc1 hL1
  · exact absurd hc3 hL3

theorem winList_length (p : RevPacked) (CTX x : Nat) :
    (winList p CTX x).length = CTX := by
  unfold winList
  simp

theorem simdCmpGo_succ (p : RevPacked) (n aI bI : Nat) :
    simdCmpGo p (n + 1) aI bI =
      (cmpPack (p.load124 aI) (p.load124 bI)).then
        (simdCmpGo p n (aI + 124) (bI + 124)) := by
  simp only [simdCmpGo]
  rcases hc : cmpPack (p.load124 aI) (p.load124 bI) <;> rfl

theorem simdCmpGo_eq (p : RevPacked) : ∀ (n aI bI : Nat),
    simdCmpGo p n aI bI =
      (lexCmpList (winList p n aI) (winList p n bI)).then
        (compare (aI + 124 * n) (bI + 124 * n)) := by
  intro n
  induction n with
  | zero =>
    intro aI bI
    show compare aI bI = Ordering.eq.then (compare (aI + 124 * 0) (bI + 124 * 0))
    rw [ordering_eq_then, show aI + 124 * 0 = aI by omega, show bI + 124 * 0 = bI by omega]
  | succ n ih =>
    intro aI bI
    rw [simdCmpGo_succ, ih (aI + 124) (bI + 124)]
    have hwin : ∀ c : Nat, winList p (n + 1) c =
        (p.load124 c % 2 ^ 256) :: winList p n (c + 124) := by
      intro c
      unfold winList
      rw [List.range_succ_eq_map, List.map_cons, List.map_map]
      congr 1
      refine List.map_congr_left fun t ht => ?_
      show p.load124 (c + 124 * (t + 1)) % 2 ^ 256 =
        p.load124 (c + 124 + 124 * t) % 2 ^ 256
      rw [show c + 124 * (t + 1) = c + 124 + 124 * t by omega]
    rw [hwin aI, hwin bI, lexCmpList_cons, cmpPack_mod, ordering_then_assoc,
      show aI + 124 + 124 * n = aI + 124 * (n + 1) by omega,
      show bI + 124 + 124 * n = bI + 124 * (n + 1) by omega]

theorem foldr_cmpPack_eq_lex {α : Type} (l r : α → Nat) : ∀ (ts : List α),
    ts.foldr (fun t acc => (cmpPack (l t) (r t)).then acc) Ordering.eq =
      lexCmpList (ts.map fun t => l t % 2 ^ 256) (ts.map fun t => r t % 2 ^ 256)
  | [] => rfl
  | t :: ts => by
    rw [List.foldr_cons, List.map_cons, List.map_cons, lexCmpList_cons,
      cmpPack_mod, foldr_cmpPack_eq_lex l r ts]

theorem keyCmpPacked_eq_lex {CTX : Nat} (l r : Fin CTX → Nat) :
    keyCmpPacked l r =
      lexCmpList ((List.finRange CTX).map fun t => l t % 2 ^ 256)
        ((List.finRange CTX).map fun t => r t % 2 ^ 256) :=
  foldr_cmpPack_eq_lex l r (List.finRange CTX)

theorem key_winList (p : RevPacked) (CTX x : Nat) :
    ((List.finRange CTX).map fun t => simdKeyPacked p CTX x t % 2 ^ 256) =
      winList p CTX x := by
  unfold winList
  rw [← List.map_coe_finRange CTX, List.map_map]
  rfl

theorem keyCmpPacked_eq_winLex (p : RevPacked) (CTX x y : Nat) :
    keyCmpPacked (simdKeyPacked p CTX x) (simdKeyPacked p CTX y) =
      lexCmpList (winList p CTX x) (winList p CTX y) := by
  rw [keyCmpPacked_eq_lex, key_winList, key_winList]

theorem keyCmp_isCmpOrder (CTX : Nat) :
    IsCmpOrder (α := (Fin CTX → Nat) × Nat) (fun x y => keyCmpPacked x.1 y.1) := by
  constructor
  · intro a b
    show keyCmpPacked a.1 b.1 = (keyCmpPacked b.1 a.1).swap
    rw [keyCmpPacked_eq_lex, keyCmpPacked_eq_lex, lexCmpList_swap]
  · intro a b c hab hbc
    show keyCmpPacked a.1 c.1 ≠ Ordering.gt
    have hab' : keyCmpPacked a.1 b.1 ≠ Ordering.gt := hab
    have hbc' : keyCmpPacked b.1 c.1 ≠ Ordering.gt := hbc
    rw [keyCmpPacked_eq_lex] at hab' hbc' ⊢
    exact lexCmpList_trans _ _ _ (by simp) (by simp) hab' hbc' 

theorem simdCmpPacked_isCmpOrder (p : RevPacked) (CTX : Nat) :
    IsCmpOrder (fun a b => simdCmpPacked p CTX a b) := by
  constructor
  · intro a b
    show simdCmpGo p CTX a b = (simdCmpGo p CTX b a).swap
    rw [simdCmpGo_eq, simdCmpGo_eq, Ordering.swap_then, Nat.compare_swap,
      ← lexCmpList_swap (winList p CTX a) (winList p CTX b)]
  · intro a b c hab hbc
    have hab' : simdCmpGo p CTX a b ≠ Ordering.gt := hab
    have hbc' : simdCmpGo p CTX b c ≠ Ordering.gt := hbc
    show simdCmpGo p CTX a c ≠ Ordering.gt
    rw [simdCmpGo_eq] at hab' hbc' ⊢
    exact then_compare_ne_gt_trans _ _ _ _ _ _
      (by rw [winList_length, winList_length])
      (by rw [winList_length, winList_length]) hab' hbc' 

theorem revPackedNew_len (bytes : List Nat) :
    (RevPacked.new bytes).len = bytes.length + 4 := rfl

theorem load124_lt (p : RevPacked) (idx : Nat) : p.load124 idx < 2 ^ 256 := by
  have hgen : ∀ a : Nat, a &&& loMask < 2 ^ 256 := by
    intro a
    have h1 : a &&& loMask ≤ loMask := Nat.and_le_right
    have h2 : loMask < 2 ^ 256 := by
      unfold loMask
      rw [Nat.shiftLeft_eq, show (2 : Nat) ^ 256 = 2 ^ 248 * 2 ^ 8 by
        rw [← pow_add]]
      exact (Nat.mul_lt_mul_right (by norm_num : 0 < (2 : Nat) ^ 8)).mpr
        (Nat.sub_lt (pow_pos (by norm_num) _) (by norm_num))
    omega
  exact hgen _

theorem loadK_eq_load124_shift (p : RevPacked) (idx k : Nat)
    (h : idx + 128 ≤ p.len) (hk : k ≤ 13) :
    p.loadK idx k = p.load124 idx >>> (256 - 2 * k) := by
  rw [load124_spec p idx h, loadK_spec p idx k (by omega) hk,
    shiftLeft_shiftRight_of_le _ 8 (256 - 2 * k) (by omega),
    mod_two_pow_shiftRight _ 248 (256 - 2 * k - 8) (by omega),
    ← Nat.shiftRight_add,
    show 2 * (p.len - idx - 124) + (256 - 2 * k - 8) =
      2 * (p.len - idx - k) by omega,
    show 248 - (256 - 2 * k - 8) = 2 * k by omega]

theorem load124_lt_of_loadK_lt (p : RevPacked) (x y k : Nat)
    (hx : x + 128 ≤ p.len) (hy : y + 128 ≤ p.len) (hk : k ≤ 13)
    (hlt : p.loadK x k < p.loadK y k) : p.load124 x < p.load124 y := by
  rw [loadK_eq_load124_shift p x k hx hk, loadK_eq_load124_shift p y k hy hk,
    Nat.shiftRight_eq_div_pow, Nat.shiftRight_eq_div_pow] at hlt
  exact Nat.lt_of_div_lt_div hlt

theorem winList_succ (p : RevPacked) (n c : Nat) :
    winList p (n + 1) c = (p.load124 c % 2 ^ 256) :: winList p n (c + 124) := by
  unfold winList
  rw [List.range_succ_eq_map, List.map_cons, List.map_map]
  congr 1
  refine List.map_congr_left fun t ht => ?_
  show p.load124 (c + 124 * (t + 1)) % 2 ^ 256 =
    p.load124 (c + 124 + 124 * t) % 2 ^ 256
  rw [show c + 124 * (t + 1) = c + 124 + 124 * t by omega]

theorem winLex_lt_of_kmer_lt (bytes : List Nat) (CTX k x y : Nat)
    (hctx : 1 ≤ CTX) (hk : k ≤ 13)
    (hx : x < lenNoCtx CTX bytes) (hy : y < lenNoCtx CTX bytes)
    (hkm : kmerKey bytes k x < kmerKey bytes k y) :
    lexCmpList (winList (RevPacked.new bytes) CTX x)
      (winList (RevPacked.new bytes) CTX y) = Ordering.lt := by
  have hxr : x + 128 ≤ (RevPacked.new bytes).len := by
    unfold lenNoCtx at hx
    rw [revPackedNew_len]
    omega
  have hyr : y + 128 ≤ (RevPacked.new bytes).len := by
    unfold lenNoCtx at hy
    rw [revPackedNew_len]
    omega
  have hwlt : (RevPacked.new bytes).load124 x < (RevPacked.new bytes).load124 y :=
    load124_lt_of_loadK_lt _ x y k hxr hyr hk hkm
  obtain ⟨m, rfl⟩ : ∃ m, CTX = m + 1 := ⟨CTX - 1, by omega⟩
  rw [winList_succ, winList_succ, lexCmpList_cons,
    Nat.compare_eq_lt.mpr (by
      rw [Nat.mod_eq_of_lt (load124_lt _ _), Nat.mod_eq_of_lt (load124_lt _ _)]
      exact hwlt), lt_then]

theorem mem_bucketContents (CTX : Nat) (bytes : List Nat) (k v x : Nat)
    (h : x ∈ bucketContents CTX bytes k v) :
    x < lenNoCtx CTX bytes ∧ kmerKey bytes k x = v := by
  unfold bucketContents classList at h
  rw [List.mem_filter] at h
  obtain ⟨h1, h2⟩ := h
  exact ⟨List.mem_range.mp h1, by simpa using h2⟩

theorem bucketContents_nodup (CTX : Nat) (bytes : List Nat) (k v : Nat) :
    (bucketContents CTX bytes k v).Nodup := by
  unfold bucketContents classList
  exact (List.nodup_range _).filter _

theorem sortBucketPacked_pairwise_win (usort : USort) (hu : SortContract usort)
    (p : RevPacked) (CTX : Nat) (l : List Nat) :
    List.Pairwise (fun x y =>
      lexCmpList (winList p CTX x) (winList p CTX y) ≠ Ordering.gt)
      (sortBucketPacked usort p CTX l) := by
  unfold sortBucketPacked
  by_cases h : CTX ≤ 4
  · rw [if_pos h]
    have hsorted := (hu ((Fin CTX → Nat) × Nat) (fun x y => keyCmpPacked x.1 y.1)
      (l.map (fun i => (simdKeyPacked p CTX i, i)))).2 (keyCmp_isCmpOrder CTX)
    have hperm := (hu ((Fin CTX → Nat) × Nat) (fun x y => keyCmpPacked x.1 y.1)
      (l.map (fun i => (simdKeyPacked p CTX i, i)))).1
    have hmem : ∀ pr ∈ usort ((Fin CTX → Nat) × Nat)
        (fun x y => keyCmpPacked x.1 y.1)
        (l.map (fun i => (simdKeyPacked p CTX i, i))),
        pr.1 = simdKeyPacked p CTX pr.2 := by
      intro pr hpr
      have hm := hperm.mem_iff.mp hpr
      rw [List.mem_map] at hm
      obtain ⟨i, _, rfl⟩ := hm
      rfl
    have hsorted2 : List.Pairwise (fun a b : (Fin CTX → Nat) × Nat =>
        lexCmpList (winList p CTX a.2) (winList p CTX b.2) ≠ Ordering.gt)
        (usort ((Fin CTX → Nat) × Nat) (fun x y => keyCmpPacked x.1 y.1)
          (l.map (fun i => (simdKeyPacked p CTX i, i)))) := by
      refine List.Pairwise.imp_of_mem ?_ hsorted
      intro a b ha hb hr
      rw [← keyCmpPacked_eq_winLex p CTX a.2 b.2, ← hmem a ha, ← hmem b hb]
      exact hr
    exact List.Pairwise.map _ (fun a b hr => hr) hsorted2
  · rw [if_neg h]
    have hsorted := stableSortBy_pairwise (fun a b => simdCmpPacked p CTX a b) l
      (simdCmpPacked_isCmpOrder p CTX)
    refine hsorted.imp ?_
    intro a b hr hcon
    apply hr
    show simdCmpGo p CTX a b = Ordering.gt
    rw [simdCmpGo_eq, hcon, gt_then]

theorem sortPackedList_ordered (usort : USort) (hu : SortContract usort)
    (CTX : Nat) (bytes : List Nat) (k T : Nat) (hk : k ≤ 13) (hT : 1 ≤ T) :
    List.Pairwise (fun x y =>
      lexCmpList (winList (RevPacked.new bytes) CTX x)
        (winList (RevPacked.new bytes) CTX y) ≠ Ordering.gt)
      (sortPackedList usort CTX bytes k T) := by
  rw [sortPackedList_canonical usort CTX bytes k T hT, List.pairwise_flatten]
  constructor
  · intro l hl
    rw [List.mem_map] at hl
    obtain ⟨v, _, rfl⟩ := hl
    exact sortBucketPacked_pairwise_win usort hu _ CTX _
  · rw [List.pairwise_map]
    refine (List.pairwise_lt_range _).imp ?_
    intro v w hvw x hx y hy
    have hx' := (sortBucketPacked_perm usort hu _ CTX _).mem_iff.mp hx
    have hy' := (sortBucketPacked_perm usort hu _ CTX _).mem_iff.mp hy
    obtain ⟨hxlen, hxk⟩ := mem_bucketContents CTX bytes k v x hx'
    obtain ⟨hylen, hyk⟩ := mem_bucketContents CTX bytes k w y hy'
    rcases Nat.eq_zero_or_pos CTX with h0 | h1
    · subst h0
      rw [show winList (RevPacked.new bytes) 0 x = [] from rfl,
        show winList (RevPacked.new bytes) 0 y = [] from rfl]
      decide
    · rw [winLex_lt_of_kmer_lt bytes CTX k x y h1 hk hxlen hylen (by omega)]
      decide

theorem sortPackedList_ordered_strict (usort : USort) (hu : SortContract usort)
    (CTX : Nat) (bytes : List Nat) (k T : Nat) (hk : k ≤ 13) (hT : 1 ≤ T)
    (hctx : 4 < CTX) :
    List.Pairwise (fun x y =>
      simdCmpPacked (RevPacked.new bytes) CTX x y ≠ Ordering.gt ∧
      (lexCmpList (winList (RevPacked.new bytes) CTX x)
        (winList (RevPacked.new bytes) CTX y) = Ordering.eq → x < y))
      (sortPackedList usort CTX bytes k T) := by
  rw [sortPackedList_canonical usort CTX bytes k T hT, List.pairwise_flatten]
  constructor
  · intro l hl
    rw [List.mem_map] at hl
    obtain ⟨v, _, rfl⟩ := hl
    have hbp : sortBucketPacked usort (RevPacked.new bytes) CTX
        (bucketContents CTX bytes k v) =
        stableSortBy (fun a b => simdCmpPacked (RevPacked.new bytes) CTX a b)
          (bucketContents CTX bytes k v) := by
      unfold sortBucketPacked
      rw [if_neg (by omega)]
    rw [hbp]
    have hsorted := stableSortBy_pairwise
      (fun a b => simdCmpPacked (RevPacked.new bytes) CTX a b)
      (bucketContents CTX bytes k v)
      (simdCmpPacked_isCmpOrder (RevPacked.new bytes) CTX)
    have hnodup : (stableSortBy
        (fun a b => simdCmpPacked (RevPacked.new bytes) CTX a b)
        (bucketContents CTX bytes k v)).Nodup :=
      ((stableSortBy_perm _ _).symm).nodup (bucketContents_nodup CTX bytes k v)
    have hne : List.Pairwise (fun x y : Nat => x ≠ y)
        (stableSortBy (fun a b => simdCmpPacked (RevPacked.new bytes) CTX a b)
          (bucketContents CTX bytes k v)) := hnodup
    refine (hsorted.and hne).imp ?_
    intro a b hr
    obtain ⟨hcmp, hab⟩ := hr
    refine ⟨hcmp, fun heq => ?_⟩
    have hsg : simdCmpGo (RevPacked.new bytes) CTX a b ≠ Ordering.gt := hcmp
    rw [simdCmpGo_eq, heq, ordering_eq_then] at hsg
    have hle : a + 124 * CTX ≤ b + 124 * CTX := by
      rcases Nat.lt_or_ge (b + 124 * CTX) (a + 124 * CTX) with hlt | hge
      · exact absurd (Nat.compare_eq_gt.mpr hlt) hsg
      · omega
    omega
  · rw [List.pairwise_map]
    refine (List.pairwise_lt_range _).imp ?_
    intro v w hvw x hx y hy
    have hx' := (sortBucketPacked_perm usort hu _ CTX _).mem_iff.mp hx
    have hy' := (sortBucketPacked_perm usort hu _ CTX _).mem_iff.mp hy
    obtain ⟨hxlen, hxk⟩ := mem_bucketContents CTX bytes k v x hx'
    obtain ⟨hylen, hyk⟩ := mem_bucketContents CTX bytes k w y hy'
    have hlt := winLex_lt_of_kmer_lt bytes CTX k x y (by omega) hk hxlen hylen
      (by omega)
    constructor
    · show simdCmpGo (RevPacked.new bytes) CTX x y ≠ Ordering.gt
      rw [simdCmpGo_eq, hlt, lt_then]
      decide
    · intro heq
      rw [hlt] at heq
      exact absurd heq (by decide)

theorem sortBucketPacked_nil (usort : USort) (hu : SortContract usort)
    (p : RevPacked) (CTX : Nat) : sortBucketPacked usort p CTX [] = [] :=
  (sortBucketPacked_perm usort hu p CTX []).eq_nil

theorem sortBucketPacked_one (usort : USort) (hu : SortContract usort)
    (p : RevPacked) (CTX x : Nat) : sortBucketPacked usort p CTX [x] = [x] :=
  List.perm_singleton.mp (sortBucketPacked_perm usort hu p CTX [x])

theorem flatten_two_aux (F : Nat → List Nat) (v1 v2 a b : Nat) (h12 : v1 < v2) :
    ∀ n, (∀ v < n, F v = if v = v1 then [a] else if v = v2 then [b] else []) →
    ((List.range n).map F).flatten =
      (if v1 < n then [a] else []) ++ (if v2 < n then [b] else []) := by
  intro n
  induction n with
  | zero =>
    intro h
    simp
  | succ n ih =>
    intro h
    rw [List.range_succ, List.map_append, List.flatten_append,
      ih (fun v hv => h v (by omega))]
    simp only [List.map_cons, List.map_nil, List.flatten_cons, List.flatten_nil,
      List.append_nil]
    rcases Nat.lt_trichotomy n v1 with hn1 | hn1 | hn1
    · have hF : F n = [] := by
        rw [h n (by omega), if_neg (by omega), if_neg (by omega)]
      rw [hF, if_neg (by omega), if_neg (by omega), if_neg (by omega),
        if_neg (by omega)]
      simp
    · have hF : F n = [a] := by
        rw [h n (by omega), if_pos (by omega)]
      rw [hF, if_neg (by omega), if_neg (by omega), if_pos (by omega),
        if_neg (by omega)]
      simp
    · rcases Nat.lt_trichotomy n v2 with hn2 | hn2 | hn2
      · have hF : F n = [] := by
          rw [h n (by omega), if_neg (by omega), if_neg (by omega)]
        rw [hF, if_pos (by omega), if_neg (by omega), if_pos (by omega),
          if_neg (by omega)]
        simp
      · have hF : F n = [b] := by
          rw [h n (by omega), if_neg (by omega), if_pos (by omega)]
        rw [hF, if_pos (by omega), if_neg (by omega), if_pos (by omega),
          if_pos (by omega)]
        simp
      · have hF : F n = [] := by
          rw [h n (by omega), if_neg (by omega), if_neg (by omega)]
        rw [hF, if_pos (by omega), if_pos (by omega), if_pos (by omega),
          if_pos (by omega)]
        simp

theorem flatten_two (F : Nat → List Nat) (v1 v2 a b n : Nat) (h12 : v1 < v2)
    (hn : v2 < n)
    (h : ∀ v < n, F v = if v = v1 then [a] else if v = v2 then [b] else []) :
    ((List.range n).map F).flatten = [a, b] := by
  rw [flatten_two_aux F v1 v2 a b h12 n h, if_pos (by omega), if_pos (by omega)]
  rfl

theorem bucketContents_pair (CTX : Nat) (bytes : List Nat) (k v : Nat)
    (hlen : lenNoCtx CTX bytes = 2) :
    bucketContents CTX bytes k v =
      if kmerKey bytes k 0 = v then
        if kmerKey bytes k 1 = v then [0, 1] else [0]
      else if kmerKey bytes k 1 = v then [1] else [] := by
  unfold bucketContents classList
  rw [hlen]
  show List.filter (fun i => decide (kmerKey bytes k i = v)) [0, 1] = _
  by_cases h0 : kmerKey bytes k 0 = v <;> by_cases h1 : kmerKey bytes k 1 = v <;>
    simp [List.filter_cons, h0, h1]

/-- With exactly two suffix positions whose bucket keys are inverted
(position `1` has the smaller key), the packed pipeline outputs `[1, 0]`:
position `1` sits in the earlier bucket. -/
theorem sortPackedList_pair (usort : USort) (hu : SortContract usort)
    (CTX : Nat) (bytes : List Nat) (k T : Nat) (hT : 1 ≤ T)
    (hlen : lenNoCtx CTX bytes = 2)
    (hlt : kmerKey bytes k 1 < kmerKey bytes k 0) :
    sortPackedList usort CTX bytes k T = [1, 0] := by
  rw [sortPackedList_canonical usort CTX bytes k T hT]
  refine flatten_two _ (kmerKey bytes k 1) (kmerKey bytes k 0) 1 0
    (numBuckets k) hlt (kmerKey_lt bytes k 0) ?_
  intro v hv
  rw [bucketContents_pair CTX bytes k v hlen]
  by_cases h0 : kmerKey bytes k 0 = v <;> by_cases h1 : kmerKey bytes k 1 = v
  · omega
  · rw [if_pos h0, if_neg h1, sortBucketPacked_one usort hu _ CTX 0,
      if_neg (by omega), if_pos (by omega)]
  · rw [if_neg h0, if_pos h1, sortBucketPacked_one usort hu _ CTX 1,
      if_pos (by omega)]
  · rw [if_neg h0, if_neg h1, sortBucketPacked_nil usort hu _ CTX,
      if_neg (by omega), if_neg (by omega)]

/-! ## Claims -/

/-- C1 counterexample: the claim quantifies over every `k ≤ 16`, but at
`k = 0` the very first `load_k` right-shifts a `u32` by `32`, which aborts
under checked arithmetic — `new_packed(B, 0, T)` returns no array at all on
a valid-length input with at least one suffix position, so it does not
return a permutation. -/
theorem claim1_counterexample :
    (0 : Nat) ≤ 16 ∧ 124 * 1 ≤ (List.replicate 130 (65 : Nat)).length ∧
      (1 : Nat) ≤ 1 ∧
      (SuffixArray.newPackedChecked stdSort 1 (List.replicate 130 65) 0 1).isNone =
        true := by
  decide

/-- C1 amended: for every input byte sequence `B` of length `N ≥ 124 * CTX`,
every `1 ≤ k ≤ 16` (at `k = 0` the source aborts) and every
`bucket_threads T ≥ 1`, and every admissible rendering of the unstable slice
sort, the array returned by `new_packed` has length `N - 124 * CTX` and is a
permutation of the interval `[0, N - 124 * CTX)`. -/
theorem claim1_amended (usort : USort) (hu : SortContract usort)
    (CTX : Nat) (bytes : List Nat) (k T : Nat)
    (hlen : 124 * CTX ≤ bytes.length) (hk1 : 1 ≤ k) (hk : k ≤ 16) (hT : 1 ≤ T) :
    (SuffixArray.newPacked usort CTX bytes k T).idxs.length =
        bytes.length - 124 * CTX ∧
      (SuffixArray.newPacked usort CTX bytes k T).idxs.Perm
        (List.range (bytes.length - 124 * CTX)) := by
  have hperm := sortPackedList_perm usort hu CTX bytes k T hT
  refine ⟨?_, hperm⟩
  have hlen' := hperm.length_eq
  simpa [lenNoCtx] using hlen'

theorem claim1_amended_witness :
    (SuffixArray.newPacked stdSort 1
          ([65, 67, 71, 84, 65, 67, 71, 84] ++ List.replicate 124 65) 1 1).idxs.length =
        132 - 124 ∧
      (SuffixArray.newPacked stdSort 1
          ([65, 67, 71, 84, 65, 67, 71, 84] ++ List.replicate 124 65) 1 1).idxs.Perm
        (List.range (132 - 124)) :=
  claim1_amended stdSort stdSort_contract 1
    ([65, 67, 71, 84, 65, 67, 71, 84] ++ List.replicate 124 65) 1 1
    (by decide) (by decide) (by decide) (by decide)

/-- C3: for every input `B`, `k ≤ 16` and any two thread counts
`T1, T2 ≥ 1` the calls `new_packed(B, k, T1)` and `new_packed(B, k, T2)`
behave identically, for any (deterministic) rendering of the unstable slice
sort: they abort together (too-short input, or the `k = 0` shift overflow),
and when they return, the returned arrays are identical element for
element. -/
theorem claim3_thread_invariance (usort : USort) (CTX : Nat) (bytes : List Nat)
    (k T1 T2 : Nat) (hk : k ≤ 16) (hT1 : 1 ≤ T1) (hT2 : 1 ≤ T2) :
    SuffixArray.newPackedChecked usort CTX bytes k T1 =
      SuffixArray.newPackedChecked usort CTX bytes k T2 := by
  have hs : sortPackedList usort CTX bytes k T1 =
      sortPackedList usort CTX bytes k T2 := by
    rw [sortPackedList_canonical usort CTX bytes k T1 hT1,
      sortPackedList_canonical usort CTX bytes k T2 hT2]
  unfold SuffixArray.newPackedChecked SuffixArray.newPacked
  rw [hs]

theorem claim3_thread_invariance_witness :
    SuffixArray.newPackedChecked stdSort 1
        ([65, 67, 71, 84, 65, 67, 71, 84] ++ List.replicate 124 65) 2 1 =
      SuffixArray.newPackedChecked stdSort 1
        ([65, 67, 71, 84, 65, 67, 71, 84] ++ List.replicate 124 65) 2 3 :=
  claim3_thread_invariance stdSort 1
    ([65, 67, 71, 84, 65, 67, 71, 84] ++ List.replicate 124 65) 2 1 3
    (by decide) (by decide) (by decide)

/-- C10: the accessors report the construction parameters: `new_packed`
stores the passed `k` and `CTX`, `new_bytes` stores `k = 0` and `CTX`, and
`new` (which asserts `k ≤ 16`) stores the passed `k` and `CTX`. -/
theorem claim10_accessors (usort : USort) (CTX : Nat) (bytes seeds : List Nat)
    (k T : Nat) (hk : k ≤ 16) :
    ((SuffixArray.newPacked usort CTX bytes k T).k = k ∧
      (SuffixArray.newPacked usort CTX bytes k T).ctx = CTX) ∧
    ((SuffixArray.newBytes CTX bytes).k = 0 ∧
      (SuffixArray.newBytes CTX bytes).ctx = CTX) ∧
    ((SuffixArray.newSeeded CTX seeds k).k = k ∧
      (SuffixArray.newSeeded CTX seeds k).ctx = CTX) :=
  ⟨⟨rfl, rfl⟩, ⟨rfl, rfl⟩, ⟨rfl, rfl⟩⟩

theorem claim10_accessors_witness :
    ((SuffixArray.newPacked stdSort 1 (List.replicate 124 65) 3 1).k = 3 ∧
      (SuffixArray.newPacked stdSort 1 (List.replicate 124 65) 3 1).ctx = 1) ∧
    ((SuffixArray.newBytes 1 (List.replicate 124 65)).k = 0 ∧
      (SuffixArray.newBytes 1 (List.replicate 124 65)).ctx = 1) ∧
    ((SuffixArray.newSeeded 1 (List.replicate 124 0) 3).k = 3 ∧
      (SuffixArray.newSeeded 1 (List.replicate 124 0) 3).ctx = 1) :=
  claim10_accessors stdSort 1 (List.replicate 124 65) (List.replicate 124 0) 3 1
    (by decide)

/-- C5 counterexample: in byte mode the returned array does not have length
`N - 32 * CTX`; the truncation uses the module constant `L = 124` (the input
is 124 `A` bytes, so the spec-claimed length would be 92, but the array is
empty). -/
theorem claim5_counterexample :
    (SuffixArray.newBytes 1 (List.replicate 124 65)).idxs.length ≠
      (List.replicate 124 (65 : Nat)).length - 32 * 1 := by
  decide

/-- C5 amended: all three paths truncate with the module constant `L = 124`:
`new_bytes` returns a permutation of `[0, N - 124 * CTX)`, and `new` (with
`k ≤ 16` and every seed below `2 ^ k`) returns a permutation of
`[0, |S| - 124 * CTX)`.  The strides `32` and `16` are only the comparator
strides, not the truncation. -/
theorem claim5_amended (CTX : Nat) (bytes seeds : List Nat) (k : Nat)
    (hk : k ≤ 16) (hseeds : ∀ s ∈ seeds, s < 2 ^ k) :
    ((SuffixArray.newBytes CTX bytes).idxs.length = bytes.length - 124 * CTX ∧
      (SuffixArray.newBytes CTX bytes).idxs.Perm
        (List.range (bytes.length - 124 * CTX))) ∧
    ((SuffixArray.newSeeded CTX seeds k).idxs.length = seeds.length - 124 * CTX ∧
      (SuffixArray.newSeeded CTX seeds k).idxs.Perm
        (List.range (seeds.length - 124 * CTX))) := by
  have hb : (sortBytesList CTX bytes).Perm
      (List.range (bytes.length - 124 * CTX)) := stableSortBy_perm _ _
  have hs := sortSeedsList_perm CTX seeds k (seedKey_lt_of_bounded CTX seeds k hseeds)
  refine ⟨⟨?_, hb⟩, ⟨?_, hs⟩⟩
  · have h := hb.length_eq
    simpa using h
  · have h := hs.length_eq
    simpa using h

theorem claim5_amended_witness :
    (((SuffixArray.newBytes 1 (List.replicate 130 65)).idxs.length = 130 - 124 * 1 ∧
      (SuffixArray.newBytes 1 (List.replicate 130 65)).idxs.Perm
        (List.range (130 - 124 * 1))) ∧
    ((SuffixArray.newSeeded 1 (List.replicate 130 2) 3).idxs.length = 130 - 124 * 1 ∧
      (SuffixArray.newSeeded 1 (List.replicate 130 2) 3).idxs.Perm
        (List.range (130 - 124 * 1)))) :=
  claim5_amended 1 (List.replicate 130 65) (List.replicate 130 2) 3
    (by decide) (by decide)

/-- C7 counterexample: with seeds `[5, 5]` followed by pad, positions `0`
and `1` share a seed, yet the scatter writes position `0` to the lower slot
and position `1` to the higher one — the bucket is filled from low index to
high, not from high to low. -/
theorem claim7_counterexample :
    (([5, 5] ++ List.replicate 124 0 : List Nat)).getD 0 0 =
        (([5, 5] ++ List.replicate 124 0 : List Nat)).getD 1 0 ∧
      (0 : Nat) < 1 ∧
      1 < ([5, 5] ++ List.replicate 124 0 : List Nat).length - 124 * 1 ∧
      (seedScatterList 1 ([5, 5] ++ List.replicate 124 0) 3).getD 0 0 = 0 ∧
      (seedScatterList 1 ([5, 5] ++ List.replicate 124 0) 3).getD 1 0 = 1 ∧
      ¬((1 : Nat) < 0) := by
  decide

/-- C7 amended: the scatter of `new` decrements the per-seed count, but the
slot `seed_to_idx[s + 1] - count` grows as the count shrinks, so each seed
bucket is filled from low slot to high: for `i < j` with `S[i] = S[j]`,
position `j` lands in a higher slot than position `i`, and before the
per-bucket sort each bucket holds its positions in ascending source order. -/
theorem claim7_amended (CTX : Nat) (seeds : List Nat) (k : Nat) (hk : k ≤ 16)
    (hseeds : ∀ s ∈ seeds, s < 2 ^ k) (i j si sj : Nat) (hij : i < j)
    (hjlen : j < seeds.length - 124 * CTX)
    (hsame : seeds.getD i 0 = seeds.getD j 0)
    (hsi : si < seeds.length - 124 * CTX) (hsj : sj < seeds.length - 124 * CTX)
    (houti : (seedScatterList CTX seeds k).getD si 0 = i)
    (houtj : (seedScatterList CTX seeds k).getD sj 0 = j) :
    si < sj := by
  have hkey := seedKey_lt_of_bounded CTX seeds k hseeds
  set len := seeds.length - 124 * CTX with hlen
  have hilen : i < len := by omega
  have hksame : seedKey CTX seeds i = seedKey CTX seeds j := by
    unfold seedKey
    rw [← hlen, getD_take_of_lt seeds len i hilen, getD_take_of_lt seeds len j hjlen]
    exact hsame
  set v := seedKey CTX seeds i with hv
  have hvk : v < 1 <<< k := hkey i
  set c := classList (seedKey CTX seeds) (List.range len) v with hc
  have hic : i ∈ c := by
    rw [hc]
    unfold classList
    rw [List.mem_filter]
    exact ⟨List.mem_range.mpr hilen, by simp [← hv]⟩
  have hjc : j ∈ c := by
    rw [hc]
    unfold classList
    rw [List.mem_filter]
    refine ⟨List.mem_range.mpr hjlen, by simp [← hksame, ← hv]⟩
  obtain ⟨ri, hri, hieq⟩ := List.getElem_of_mem hic
  obtain ⟨rj, hrj, hjeq⟩ := List.getElem_of_mem hjc
  have hsort : c.Pairwise (· < ·) := (List.pairwise_lt_range len).filter _
  have hrirj : ri < rj := by
    rcases Nat.lt_or_ge ri rj with h | h
    · exact h
    · exfalso
      rcases Nat.eq_or_lt_of_le h with h' | h'
      · subst h'
        have hija : i = j := by rw [← hieq, ← hjeq]
        omega
      · have := List.pairwise_iff_getElem.mp hsort rj ri hrj hri h'
        omega
  -- locate i and j in the scattered array
  have hglen : (seedGroups CTX seeds k).length = 1 <<< k := by
    unfold seedGroups
    simp
  have hgv : (seedGroups CTX seeds k).getD v [] = c := by
    rw [List.getD_eq_getElem _ _ (by omega)]
    unfold seedGroups
    rw [List.getElem_map, List.getElem_range]
  have hout := seedScatterList_eq CTX seeds k hkey
  have hslen : (seedScatterList CTX seeds k).length = len := by
    have hm : seedScatterList CTX seeds k =
        (List.range len).map (seedScatterFn CTX seeds k) := rfl
    rw [hm, List.length_map, List.length_range]
  have hpre : preSum (seedGroups CTX seeds k) v = seedBase CTX seeds v :=
    preSum_seedGroups CTX seeds k v (by omega)
  have hcbound : seedBase CTX seeds v + c.length ≤ len := by
    have h1 : seedBase CTX seeds v + c.length = seedBase CTX seeds (v + 1) := by
      rw [seedBase_succ, seedCounts_eq CTX seeds v]
    have h2 := seedBase_le CTX seeds (show v + 1 ≤ 1 <<< k by omega)
    rw [seedBase_total CTX seeds k hkey] at h2
    omega
  have hposi : (seedScatterList CTX seeds k).getD (seedBase CTX seeds v + ri) 0 = i := by
    rw [hout, ← hpre, flatten_getD (seedGroups CTX seeds k) v (by omega) ri
      (by rw [hgv]; omega), hgv, List.getD_eq_getElem _ _ hri, hieq]
  have hposj : (seedScatterList CTX seeds k).getD (seedBase CTX seeds v + rj) 0 = j := by
    rw [hout, ← hpre, flatten_getD (seedGroups CTX seeds k) v (by omega) rj
      (by rw [hgv]; omega), hgv, List.getD_eq_getElem _ _ hrj, hjeq]
  -- the scattered array has no duplicates, so slots are unique
  have hnodup : (seedScatterList CTX seeds k).Nodup := by
    rw [hout]
    exact ((classList_flatten_perm (seedKey CTX seeds) (List.range len) (1 <<< k)
      (fun x _ => hkey x)).symm.nodup (List.nodup_range len))
  have huniq : ∀ s1 s2 x, s1 < len → s2 < len →
      (seedScatterList CTX seeds k).getD s1 0 = x →
      (seedScatterList CTX seeds k).getD s2 0 = x → s1 = s2 := by
    intro s1 s2 x h1 h2 e1 e2
    rw [List.getD_eq_getElem _ _ (by omega)] at e1 e2
    exact (hnodup.getElem_inj_iff).mp (by rw [e1, e2])
  have hieq' : si = seedBase CTX seeds v + ri := by
    refine huniq si (seedBase CTX seeds v + ri) i hsi (by omega) houti hposi
  have hjeq' : sj = seedBase CTX seeds v + rj := by
    refine huniq sj (seedBase CTX seeds v + rj) j hsj (by omega) houtj hposj
  omega

theorem claim7_amended_witness :
    (0 : Nat) < 1 :=
  claim7_amended 1 ([5, 5] ++ List.replicate 124 0) 3 (by decide) (by decide)
    0 1 0 1 (by decide) (by decide) (by decide) (by decide) (by decide)
    (by decide) (by decide)

/-- If there are no valid suffix positions, every bucket slice is empty and
`sort_packed` returns the empty array, whatever the sort routine does. -/
theorem sortPackedList_nil (usort : USort) (hu : SortContract usort) (CTX : Nat)
    (bytes : List Nat) (k T : Nat) (h : lenNoCtx CTX bytes = 0) :
    sortPackedList usort CTX bytes k T = [] := by
  unfold sortPackedList
  rw [List.flatten_eq_nil_iff]
  intro x hx
  rw [List.mem_map] at hx
  obtain ⟨v, hv, rfl⟩ := hx
  have hslice : packedBucketSlice CTX bytes k T v = [] := by
    unfold packedBucketSlice packedPreList
    rw [h]
    simp
  rw [hslice]
  unfold sortBucketPacked
  split_ifs
  · have hperm := (hu ((Fin CTX → Nat) × Nat) (fun x y => keyCmpPacked x.1 y.1)
      (([] : List Nat).map (fun i => (simdKeyPacked (RevPacked.new bytes) CTX i, i)))).1
    rw [List.map_nil] at hperm
    rw [List.map_nil, hperm.eq_nil, List.map_nil]
  · rfl

/-- C8 counterexample: `new_packed` does not fail fast on a violated
precondition.  With `k = 17 > 16` and an input of length exactly
`124 * CTX`, the call neither asserts nor reaches the underflowing
`load_k`, and returns an (empty) array instead of aborting. -/
theorem claim8_counterexample :
    (16 : Nat) < 17 ∧ (List.replicate 124 (65 : Nat)).length = 124 * 1 ∧
      (SuffixArray.newPackedChecked stdSort 1 (List.replicate 124 65) 17 1).isSome := by
  refine ⟨by decide, by decide, ?_⟩
  unfold SuffixArray.newPackedChecked
  rw [if_pos (by simp), if_pos (by simp)]
  rfl

/-- C8 amended: `new_packed` has no assertions; it aborts only through
arithmetic underflow.  An input shorter than `124 * CTX` aborts (the
unchecked `bytes.len() - L * CTX` underflows), and `k > 16` aborts only when
at least one suffix position exists (`load_k`'s `(16 - k) * 2` underflows at
the first histogram read); with `k > 16` and length exactly `124 * CTX` the
call returns normally with an empty array. -/
theorem claim8_amended (usort : USort) (CTX : Nat) (bytes : List Nat) (k T : Nat) :
    (bytes.length < 124 * CTX →
      SuffixArray.newPackedChecked usort CTX bytes k T = none) ∧
    (16 < k → 124 * CTX < bytes.length →
      SuffixArray.newPackedChecked usort CTX bytes k T = none) ∧
    (16 < k → bytes.length = 124 * CTX → SortContract usort →
      SuffixArray.newPackedChecked usort CTX bytes k T =
        some { idxs := [], k := k, ctx := CTX }) := by
  refine ⟨fun h1 => ?_, fun h1 h2 => ?_, fun h1 h2 hu => ?_⟩
  · unfold SuffixArray.newPackedChecked
    rw [if_neg (by omega)]
  · unfold SuffixArray.newPackedChecked
    rw [if_pos (by omega), if_neg (by omega)]
  · unfold SuffixArray.newPackedChecked
    rw [if_pos (by omega), if_pos (by omega)]
    unfold SuffixArray.newPacked
    rw [sortPackedList_nil usort hu CTX bytes k T (by unfold lenNoCtx; omega)]

theorem claim8_amended_witness :
    SuffixArray.newPackedChecked stdSort 1 (List.replicate 100 65) 3 1 = none ∧
    SuffixArray.newPackedChecked stdSort 1 (List.replicate 130 65) 17 1 = none ∧
    SuffixArray.newPackedChecked stdSort 1 (List.replicate 124 65) 17 1 =
      some { idxs := [], k := 17, ctx := 1 } :=
  ⟨(claim8_amended stdSort 1 (List.replicate 100 65) 3 1).1 (by decide),
   (claim8_amended stdSort 1 (List.replicate 130 65) 17 1).2.1 (by decide) (by decide),
   (claim8_amended stdSort 1 (List.replicate 124 65) 17 1).2.2 (by decide) (by decide)
     stdSort_contract⟩

/-- C9 counterexample: the encoding table has `128` entries, so the read for
a byte value `≥ 128` (here `200`, a byte the claim covers via `0..256`) is
out of bounds — the lookup is not well-defined for every processed byte. -/
theorem claim9_counterexample :
    LUT.length = 128 ∧ (200 : Nat) < 256 ∧ lutLookup 200 = none := by
  decide

/-- C9 amended: for every byte below `128` the table read is in bounds, and
every such byte other than the eight ACGT letters encodes to `0`; bytes
`≥ 128` instead read out of bounds (settled by the counterexample). -/
theorem claim9_amended (b : Nat) (hb : b < 128) :
    lutLookup b = some (lutCode b) ∧
      (b ∉ ([65, 97, 67, 99, 71, 103, 84, 116] : List Nat) → lutCode b = 0) := by
  revert b
  decide

theorem claim9_amended_witness :
    lutLookup 78 = some (lutCode 78) ∧
      ((78 : Nat) ∉ ([65, 97, 67, 99, 71, 103, 84, 116] : List Nat) →
        lutCode 78 = 0) :=
  claim9_amended 78 (by decide)

/-- C6 counterexample: a window of 32 `A` bytes against a window of 32 `a`
bytes.  Every byte pair has equal LUT encodings (all encode to `0`), yet
`simd_cmp_bytes` does not return `Equal`: it compares the raw ASCII values,
under which `A` (65) is less than `a` (97). -/
theorem claim6_counterexample :
    (∀ r < 32,
      lutCode ((List.replicate 32 65 ++ List.replicate 32 97 : List Nat).getD (0 + r) 0) =
        lutCode ((List.replicate 32 65 ++ List.replicate 32 97 : List Nat).getD (32 + r) 0)) ∧
      simdCmpBytes (List.replicate 32 65 ++ List.replicate 32 97) 1 0 32 ≠
        Ordering.eq := by
  decide

/-- C6 amended: for every byte corpus (entries below 256) and every pair of
positions, `simd_cmp_bytes` computes the lexicographic comparison of the raw
byte windows of length `32 * CTX` — raw ASCII values, not LUT-encoded
symbols. -/
theorem claim6_amended (bytes : List Nat) (hb : ∀ x ∈ bytes, x < 256)
    (CTX a b : Nat) :
    simdCmpBytes bytes CTX a b =
      lexCmpList ((List.range (32 * CTX)).map fun r => bytes.getD (a + r) 0)
        ((List.range (32 * CTX)).map fun r => bytes.getD (b + r) 0) :=
  simdCmpBytesGo_eq_lex bytes hb CTX a b

theorem claim6_amended_witness :
    simdCmpBytes [65, 97] 1 0 1 =
      lexCmpList ((List.range (32 * 1)).map fun r => ([65, 97] : List Nat).getD (0 + r) 0)
        ((List.range (32 * 1)).map fun r => ([65, 97] : List Nat).getD (1 + r) 0) :=
  claim6_amended [65, 97] (by decide) 1 0 1

theorem SuffixArray.newPacked_idxs_eq (usort : USort) (CTX : Nat) (bytes : List Nat)
    (k T : Nat) :
    (SuffixArray.newPacked usort CTX bytes k T).idxs =
      sortPackedList usort CTX bytes k T :=
  rfl

/-- C2 counterexample, two failures inside the claimed domain `k ≤ 16`.
First, the tie-break: with the contract-admissible unstable sort `revSort`
(which reorders equal elements), 126 `A` bytes, `k = 1`, `CTX = 1`, `T = 1`,
the cached-key bucket sort outputs `[1, 0]`: the adjacent pair `(1, 0)` has
equal windows but `1 < 0` fails, and `simd_cmp_packed` on it yields
`Greater`.  Second, the `k = 14` key misalignment: on `CCCCCCCCCCCCCCT`
followed by `A`-padding, `load_k`'s u32 shift arithmetic drops the leading
base of position `1`'s key, ordering the buckets against the window order —
even under the canonical stable sort the output is `[1, 0]`, whose adjacent
pair compares `Greater` on its windows.  The second failure is what forces
the amended bound `k ≤ 13`. -/
theorem claim2_counterexample :
    (SortContract revSort ∧
      (SuffixArray.newPacked revSort 1 (List.replicate 126 65) 1 1).idxs =
        [1, 0] ∧
      simdCmpPacked (RevPacked.new (List.replicate 126 65)) 1 1 0 =
        Ordering.gt ∧
      ¬(1 : Nat) < 0) ∧
    ((14 : Nat) ≤ 16 ∧
      (SuffixArray.newPacked stdSort 1
          (List.replicate 14 67 ++ [84] ++ List.replicate 111 65) 14 1).idxs =
        [1, 0] ∧
      keyCmpPacked
        (simdKeyPacked
          (RevPacked.new (List.replicate 14 67 ++ [84] ++ List.replicate 111 65)) 1 1)
        (simdKeyPacked
          (RevPacked.new (List.replicate 14 67 ++ [84] ++ List.replicate 111 65)) 1 0) =
        Ordering.gt ∧
      simdCmpPacked
        (RevPacked.new (List.replicate 14 67 ++ [84] ++ List.replicate 111 65)) 1 1 0 =
        Ordering.gt) := by
  refine ⟨⟨revSort_contract, by decide, by decide, by decide⟩,
    by decide, ?_, by decide, by decide⟩
  rw [SuffixArray.newPacked_idxs_eq]
  exact sortPackedList_pair stdSort stdSort_contract 1
    (List.replicate 14 67 ++ [84] ++ List.replicate 111 65) 14 1
    (by decide) (by decide) (by decide)

/-- C2 amended: for every admissible unstable sort, `1 ≤ k ≤ 13` (at `k = 0`
the source aborts, and for `k ∈ 14..16` the misaligned `load_k` keys can
order buckets against the window order) and `T ≥ 1`, adjacent entries of
`new_packed` always compare `≤ Equal` on their `CTX` windows (the
`key_cmp_packed` ordering); the full property — `simd_cmp_packed` never
`Greater` and equal windows tie-broken by `p < q` — holds on the `CTX > 4`
path, where buckets are sorted by `simd_cmp_packed` itself. -/
theorem claim2_amended (usort : USort) (hu : SortContract usort) (CTX : Nat)
    (bytes : List Nat) (k T : Nat) (hk1 : 1 ≤ k) (hk : k ≤ 13) (hT : 1 ≤ T) :
    List.Chain' (fun x y =>
      keyCmpPacked (simdKeyPacked (RevPacked.new bytes) CTX x)
        (simdKeyPacked (RevPacked.new bytes) CTX y) ≠ Ordering.gt)
      (SuffixArray.newPacked usort CTX bytes k T).idxs ∧
    (4 < CTX → List.Chain' (fun x y =>
      simdCmpPacked (RevPacked.new bytes) CTX x y ≠ Ordering.gt ∧
      (keyCmpPacked (simdKeyPacked (RevPacked.new bytes) CTX x)
        (simdKeyPacked (RevPacked.new bytes) CTX y) = Ordering.eq → x < y))
      (SuffixArray.newPacked usort CTX bytes k T).idxs) := by
  constructor
  · have hp := sortPackedList_ordered usort hu CTX bytes k T hk hT
    refine List.Pairwise.chain' (List.Pairwise.imp ?_ hp)
    intro a b hr
    rw [keyCmpPacked_eq_winLex]
    exact hr
  · intro hctx
    have hp := sortPackedList_ordered_strict usort hu CTX bytes k T hk hT hctx
    refine List.Pairwise.chain' (List.Pairwise.imp ?_ hp)
    intro a b hr
    refine ⟨hr.1, fun heq => hr.2 ?_⟩
    rw [keyCmpPacked_eq_winLex] at heq
    exact heq

theorem claim2_amended_witness :
    List.Chain' (fun x y =>
      keyCmpPacked (simdKeyPacked (RevPacked.new (List.replicate 126 65)) 1 x)
        (simdKeyPacked (RevPacked.new (List.replicate 126 65)) 1 y) ≠ Ordering.gt)
      (SuffixArray.newPacked stdSort 1 (List.replicate 126 65) 1 1).idxs ∧
    (4 < 1 → List.Chain' (fun x y =>
      simdCmpPacked (RevPacked.new (List.replicate 126 65)) 1 x y ≠ Ordering.gt ∧
      (keyCmpPacked (simdKeyPacked (RevPacked.new (List.replicate 126 65)) 1 x)
        (simdKeyPacked (RevPacked.new (List.replicate 126 65)) 1 y) =
          Ordering.eq → x < y))
      (SuffixArray.newPacked stdSort 1 (List.replicate 126 65) 1 1).idxs) :=
  claim2_amended stdSort stdSort_contract 1 (List.replicate 126 65) 1 1
    (by decide) (by decide) (by decide)

/-- C4 counterexample: on the all-`A` input, positions `0` and `1` have equal
keys; the contract-admissible unstable sort `revSort` puts the cached-key
result at `[1, 0]`, while sorting directly with `simd_cmp_packed`
(tie-breaking by ascending position) gives `[0, 1]` — the two strategies do
not agree for every admissible unstable sort. -/
theorem claim4_counterexample :
    SortContract revSort ∧
    sortBucketPacked revSort (RevPacked.new (List.replicate 126 65)) 1 [0, 1] =
      [1, 0] ∧
    stableSortBy
      (fun a b => simdCmpPacked (RevPacked.new (List.replicate 126 65)) 1 a b)
      [0, 1] = [0, 1] ∧
    ([1, 0] : List Nat) ≠ [0, 1] :=
  ⟨revSort_contract, by decide, by decide, by decide⟩

/-- C4 amended: when `CTX ≤ 4` and the bucket's keys are pairwise distinct,
the cached-key strategy agrees with sorting directly by `simd_cmp_packed`,
whatever admissible unstable sort is used: both outputs are the unique
permutation of the bucket strictly sorted by the window order. -/
theorem claim4_amended (usort : USort) (hu : SortContract usort) (p : RevPacked)
    (CTX : Nat) (hctx : CTX ≤ 4) (l : List Nat) (hnd : l.Nodup)
    (hdist : ∀ x ∈ l, ∀ y ∈ l, x ≠ y →
      keyCmpPacked (simdKeyPacked p CTX x) (simdKeyPacked p CTX y) ≠
        Ordering.eq) :
    sortBucketPacked usort p CTX l =
      stableSortBy (fun a b => simdCmpPacked p CTX a b) l := by
  have hperm1 : (sortBucketPacked usort p CTX l).Perm l :=
    sortBucketPacked_perm usort hu p CTX l
  have hperm2 : (stableSortBy (fun a b => simdCmpPacked p CTX a b) l).Perm l :=
    stableSortBy_perm _ l
  have hw1 := sortBucketPacked_pairwise_win usort hu p CTX l
  have hne1 : List.Pairwise (fun x y : Nat => x ≠ y)
      (sortBucketPacked usort p CTX l) := (hperm1.symm).nodup hnd
  have hs1 : List.Pairwise (fun x y =>
      lexCmpList (winList p CTX x) (winList p CTX y) = Ordering.lt)
      (sortBucketPacked usort p CTX l) := by
    refine List.Pairwise.imp_of_mem ?_ (hw1.and hne1)
    intro a b ha hb hr
    obtain ⟨hle, hne⟩ := hr
    have hkey := hdist a (hperm1.mem_iff.mp ha) b (hperm1.mem_iff.mp hb) hne
    rw [keyCmpPacked_eq_winLex] at hkey
    rcases hc : lexCmpList (winList p CTX a) (winList p CTX b)
    · rfl
    · exact absurd hc hkey
    · exact absurd hc hle
  have hsorted := stableSortBy_pairwise
    (fun a b => simdCmpPacked p CTX a b) l (simdCmpPacked_isCmpOrder p CTX)
  have hne2 : List.Pairwise (fun x y : Nat => x ≠ y)
      (stableSortBy (fun a b => simdCmpPacked p CTX a b) l) :=
    (hperm2.symm).nodup hnd
  have hs2 : List.Pairwise (fun x y =>
      lexCmpList (winList p CTX x) (winList p CTX y) = Ordering.lt)
      (stableSortBy (fun a b => simdCmpPacked p CTX a b) l) := by
    refine List.Pairwise.imp_of_mem ?_ (hsorted.and hne2)
    intro a b ha hb hr
    obtain ⟨hle, hne⟩ := hr
    have hkey := hdist a (hperm2.mem_iff.mp ha) b (hperm2.mem_iff.mp hb) hne
    rw [keyCmpPacked_eq_winLex] at hkey
    have hgo : simdCmpGo p CTX a b ≠ Ordering.gt := hle
    rw [simdCmpGo_eq] at hgo
    rcases hc : lexCmpList (winList p CTX a) (winList p CTX b)
    · rfl
    · exact absurd hc hkey
    · rw [hc, gt_then] at hgo
      exact absurd rfl hgo
  haveI : IsAntisymm Nat (fun x y =>
      lexCmpList (winList p CTX x) (winList p CTX y) = Ordering.lt) := ⟨by
    intro a b h1 h2
    rw [lexCmpList_swap, h1] at h2
    exact absurd h2 (by decide)⟩
  exact List.eq_of_perm_of_sorted (hperm1.trans hperm2.symm) hs1 hs2

theorem claim4_amended_witness :
    sortBucketPacked stdSort (RevPacked.new ([67] ++ List.replicate 129 65)) 1
      [0, 1] =
    stableSortBy
      (fun a b => simdCmpPacked (RevPacked.new ([67] ++ List.replicate 129 65)) 1 a b)
      [0, 1] :=
  claim4_amended stdSort stdSort_contract
    (RevPacked.new ([67] ++ List.replicate 129 65)) 1 (by decide) [0, 1]
    (by decide) (by decide)

end SACA
